import Mathlib

/-!
# Expression compiler of `seill/ddb` (src/ddb.go)

A shallow embedding of the key-condition, update and filter expression
builders of `ddb.go`, and of the result handling of `GetListItem`.

Conventions of the embedding.

* Go strings are lists of characters (`Str`); the string functions used by the
  source (`strings.Split`, `strings.Join`, `strings.HasSuffix`,
  `strings.Contains`, `strings.ReplaceAll`, `strings.Index(..) == 0`) are
  written out structurally so that they evaluate on concrete inputs.
* A Go `map[string]T` is an association list `GoMap T`.  The list order of an
  input map is the order in which `range` enumerates it; theorems that hold
  for every list therefore hold for every enumeration order.  Assignment
  `m[k] = v` is `mapSet`, which overwrites an existing key in place and
  appends a new one.
* Pointers that the source dereferences (`*key.PK`, `*key.SK`, ...) are
  `Option`s; a nil dereference, a failed type assertion and an index out of
  range are the result `none` (a panic), kept apart from returned errors.
-/

namespace Ddb

/-! ## Strings -/

/-- Go string, as its sequence of characters. -/
abbrev Str := List Char

/-- Go `strings.Split(s, sep)` for a one-character separator: always at least
one segment, `n + 1` segments for `n` separators. -/
def splitOn (sep : Char) : Str → List Str
  | [] => [[]]
  | c :: cs =>
    if c = sep then [] :: splitOn sep cs
    else
      match splitOn sep cs with
      | [] => [[c]]
      | h :: t => (c :: h) :: t

/-- Go `strings.Join(parts, sep)`. -/
def joinWith (sep : Str) : List Str → Str
  | [] => []
  | [a] => a
  | a :: b :: t => a ++ sep ++ joinWith sep (b :: t)

/-- Go `0 == strings.Index(s, p)`: `s` starts with `p`. -/
def hasPrefix (p s : Str) : Bool := p.isPrefixOf s

/-- Go `strings.HasSuffix(s, p)`. -/
def hasSuffix (s p : Str) : Bool := p.isSuffixOf s

/-- Go `strings.Contains(s, "/")` and the like, for a one-character needle. -/
def containsChar (s : Str) (c : Char) : Bool := s.contains c

/-! ## Maps -/

/-- Go `map[string]α`, with the enumeration order made explicit. -/
abbrev GoMap (α : Type) := List (Str × α)

/-- Go `m[k] = v`. -/
def mapSet {α : Type} : GoMap α → Str → α → GoMap α
  | [], k, v => [(k, v)]
  | (k', v') :: t, k, v => if k' = k then (k, v) :: t else (k', v') :: mapSet t k v

/-- Go `v, ok := m[k]`. -/
def mapGet {α : Type} : GoMap α → Str → Option α
  | [], _ => none
  | (k', v') :: t, k => if k' = k then some v' else mapGet t k

/-- The keys of a map, in enumeration order. -/
def mapKeys {α : Type} (m : GoMap α) : List Str := m.map Prod.fst

/-! ## Update compiler: `UpdateItem`, `buildExpressionAttributeNamesAndValue` -/

/-- Values of an update spec (`interface{}`): scalars, a timestamp
(`time.Now()`), or a nested `map[string]interface{}`.  `reflect.Map` values of
another Go type, on which the source's type assertion panics, are outside this
input type. -/
inductive Value where
  | int : Int → Value
  | str : Str → Value
  | bool : Bool → Value
  | time : Nat → Value
  | map : List (Str × Value) → Value

instance : Inhabited Value := ⟨.int 0⟩

/-- `reflect.ValueOf(v).Kind() == reflect.Map`. -/
def Value.isMap : Value → Bool
  | .map _ => true
  | _ => false

/-- The two errors the update compiler returns (`fmt.Errorf` at ddb.go:306,
310 and 387), with the offending text. -/
inductive UpdateError where
  | unsupportedFunctionName : Str → UpdateError
  | unsupportedFunctionFormat : Str → UpdateError
  deriving DecidableEq

/-- The three maps `UpdateItem` hands to the compiler by pointer:
`expressionAttributeNames`, `expressionAttributeValues`,
`expressionNamesAndValues` (the clause table). -/
structure Tables where
  names : GoMap Str
  values : GoMap Value
  clauses : GoMap Str

/-- The tables `UpdateItem` starts from (ddb.go:247-249). -/
def Tables.empty : Tables := ⟨[], [], []⟩

/-- Function `buildFunctionForExpressionAttributeNamesAndValue` (ddb.go:368-391).
On an unknown function name the Go function returns the empty string together
with the error. -/
def buildFunctionForExpressionAttributeNamesAndValue (parentName : Option (List Str))
    (functionName key : Str) : Str × Option UpdateError :=
  let key1 : Str :=
    match parentName with
    | none => key
    | some p => "#".toList ++ joinWith ".#".toList p ++ ".#".toList ++ key
  let key2 : Str :=
    match parentName with
    | none => key
    | some p => joinWith "_".toList p ++ "_".toList ++ key
  if functionName = "list_append".toList then
    ("list_append(".toList ++ key1 ++ ", :".toList ++ key2 ++ ")".toList, none)
  else if functionName = "increase".toList then
    ("if_not_exists(".toList ++ key1 ++ ", :_Zero) + :".toList ++ key2, none)
  else if functionName = "decrease".toList then
    ("if_not_exists(".toList ++ key1 ++ ", :_Zero) - :".toList ++ key2, none)
  else ([], some (.unsupportedFunctionName functionName))

/-- The function-tag block of the loop body (ddb.go:294-313) for a key that
starts with `Fn:`: the rewritten key and the tables, or the error. -/
def functionTag (k : Str) (T : Tables) : Except UpdateError (Str × Tables) :=
  let keysFunction := splitOn ':' k
  if keysFunction.length = 3 then
    let name := keysFunction.getD 1 []
    if name = "list_append".toList then
      .ok (keysFunction.getD 2 [], T)
    else if name = "increase".toList ∨ name = "decrease".toList then
      .ok (keysFunction.getD 2 [], { T with values := mapSet T.values ":_Zero".toList (.int 0) })
    else .error (.unsupportedFunctionName k)
  else .error (.unsupportedFunctionFormat k)

/-- The part of the loop body after the label `build:` (ddb.go:339-362).
`k` is the working key (already rewritten for a function entry), `fn` the
function name `keysFunction[1]` of a function entry. -/
def buildLabel (parentName : Option (List Str)) (fn : Option Str) (k : Str) (v : Value)
    (T : Tables) : Tables × Option UpdateError :=
  match parentName with
  | none =>
    let T1 := { T with values := mapSet T.values (":".toList ++ k) v }
    match fn with
    | some name =>
      let r := buildFunctionForExpressionAttributeNamesAndValue parentName name k
      ({ T1 with clauses := mapSet T1.clauses ("#".toList ++ k) r.1 }, r.2)
    | none =>
      ({ T1 with clauses := mapSet T1.clauses ("#".toList ++ k) (":".toList ++ k) }, none)
  | some p =>
    let valueKey : Str := ":".toList ++ joinWith "_".toList (p ++ [k])
    let clauseKey : Str := "#".toList ++ joinWith ".#".toList (p ++ [k])
    let T1 := { T with values := mapSet T.values valueKey v }
    match fn with
    | some name =>
      let r := buildFunctionForExpressionAttributeNamesAndValue parentName name k
      ({ T1 with clauses := mapSet T1.clauses clauseKey r.1 }, r.2)
    | none =>
      ({ T1 with clauses := mapSet T1.clauses clauseKey valueKey }, none)

mutual
/-- Function `buildExpressionAttributeNamesAndValue` (ddb.go:289-366): the loop
over the entries of `mapData` in enumeration order.  The tables are mutated
in place in the source, so the result carries them also when an error is
returned. -/
def buildExpressionAttributeNamesAndValue (parentName : Option (List Str)) :
    List (Str × Value) → Tables → Tables × Option UpdateError
  | [], T => (T, none)
  | (k, v) :: rest, T =>
    match buildEntry parentName k v T with
    | (T1, some e) => (T1, some e)
    | (T1, none) => buildExpressionAttributeNamesAndValue parentName rest T1
/-- One iteration of the loop of `buildExpressionAttributeNamesAndValue`. -/
def buildEntry (parentName : Option (List Str)) (k : Str) :
    Value → Tables → Tables × Option UpdateError
  | v, T =>
    if hasPrefix "Fn:".toList k then
      match functionTag k T with
      | .error e => (T, some e)
      | .ok (k1, T1) =>
        buildLabel parentName (some ((splitOn ':' k).getD 1 [])) k1 v
          { T1 with names := mapSet T1.names ("#".toList ++ k1) k1 }
    else
      let T1 := { T with names := mapSet T.names ("#".toList ++ k) k }
      match v with
      | .map m =>
        match parentName with
        | none => buildExpressionAttributeNamesAndValue (some [k]) m T1
        | some p =>
          if 1 ≤ p.length then buildLabel parentName none k v T1
          else buildExpressionAttributeNamesAndValue (some (p ++ [k])) m T1
      | _ => buildLabel parentName none k v T1
end

/-- The update expression `UpdateItem` sends (ddb.go:270-280), for one
enumeration `clauses` of the clause table. -/
def updateExpression (clauses : List (Str × Str)) : Str :=
  "set ".toList ++ joinWith ", ".toList (clauses.map fun kv => kv.1 ++ "=".toList ++ kv.2)

/-- Expression building of `UpdateItem` (ddb.go:257-263): the timestamp is
written into the caller's map, then the map is compiled from empty tables.
`entries` is an enumeration of `propertyMap` after the assignment. -/
def UpdateItem.propertyMap (spec : GoMap Value) (now : Nat) : GoMap Value :=
  mapSet spec "UpdatedTimestamp".toList (.time now)

/-- Compilation of an enumeration of the property map from the empty tables
(ddb.go:260). -/
def UpdateItem.compile (entries : List (Str × Value)) : Tables × Option UpdateError :=
  buildExpressionAttributeNamesAndValue none entries Tables.empty

/-! ## Key-condition compiler: `getItemViaGsi`, `GetListItem` -/

/-- Struct `Key` (ddb.go:88-93); a nil pointer is `none`. -/
structure Key where
  PK : Option Str
  SK : Option Str
  IndexName : Option Str
  Condition : Option Str

/-- The two members of `types.AttributeValue` the source constructs:
`AttributeValueMemberS` and `AttributeValueMemberBOOL`. -/
inductive AttributeValue where
  | S : Str → AttributeValue
  | BOOL : Bool → AttributeValue
  deriving DecidableEq

/-- Key-condition building of `getItemViaGsi` (ddb.go:137-169): the expression
and `expressionAttributeValues` handed to the query.  The result is `none`
where the source dereferences a nil pointer. -/
def getItemViaGsi.keyCondition (key : Key) : Option (Str × GoMap AttributeValue) :=
  match key.PK, key.IndexName with
  | some pk, some index =>
    let values0 : GoMap AttributeValue := [(":gsipk".toList, .S pk)]
    let expr0 : Str := index ++ "PK = :gsipk".toList
    let afterSK : Str × GoMap AttributeValue :=
      match key.SK with
      | some sk =>
        (if hasSuffix sk "#".toList then
            index ++ "PK = :gsipk and begins_with(".toList ++ index ++ "SK, :gsisk)".toList
          else index ++ "PK = :gsipk and ".toList ++ index ++ "SK = :gsisk".toList,
          mapSet values0 ":gsisk".toList (.S sk))
      | none => (expr0, values0)
    match key.Condition with
    | none => some afterSK
    | some c =>
      match key.SK with
      | none => none
      | some sk =>
        let values2 := mapSet afterSK.2 ":gsisk".toList (.S sk)
        let pre : Str := index ++ "PK = :gsipk and ".toList
        if c = "equal".toList then some (pre ++ index ++ "SK = :gsisk".toList, values2)
        else if c = "more_than".toList then some (pre ++ index ++ "SK > :gsisk".toList, values2)
        else if c = "less_than".toList then some (pre ++ index ++ "SK < :gsisk".toList, values2)
        else if c = "more_than_equal".toList then
          some (pre ++ index ++ "SK >= :gsisk".toList, values2)
        else if c = "less_than_equal".toList then
          some (pre ++ index ++ "SK <= :gsisk".toList, values2)
        else if c = "begins".toList then
          some (index ++ "PK = :gsipk and begins_with(".toList ++ index ++ "SK, :gsisk)".toList,
            values2)
        else some (afterSK.1, values2)
  | _, _ => none

/-- What `GetListItem` has built when it forms the query input: the key
condition, `expressionAttributeValues` and `expressionAttributeNames`. -/
structure KeyCondition where
  expression : Str
  values : GoMap AttributeValue
  names : GoMap Str
  deriving DecidableEq

/-- The block `if strings.Contains(*key.SK, "/")` shared by ddb.go:410-415 and
427-430: the two range aliases.  Indexing `skRange[0]`, `skRange[1]` panics
when the element is missing. -/
def GetListItem.rangeValues (sk : Str) (values : GoMap AttributeValue) :
    Option (GoMap AttributeValue) :=
  let skRange := splitOn '/' sk
  match skRange[0]?, skRange[1]? with
  | some a, some b => some (mapSet (mapSet values ":from".toList (.S a)) ":to".toList (.S b))
  | _, _ => none

/-- Key-condition building of `GetListItem` (ddb.go:403-457).  The result is
`none` where the source panics (nil dereference, index out of range). -/
def GetListItem.keyCondition (key : Key) : Option KeyCondition :=
  match key.PK, key.IndexName with
  | some pk, some index =>
    let values0 : GoMap AttributeValue := mapSet [] ":gsipk".toList (.S pk)
    let expr0 : Str := "#".toList ++ index ++ "PK = :gsipk".toList
    let pre : Str := "#".toList ++ index ++ "PK = :gsipk and #".toList ++ index
    let between : Str := pre ++ "SK BETWEEN :from AND :to".toList
    let begins : Str :=
      "#".toList ++ index ++ "PK = :gsipk and begins_with(#".toList ++ index ++
        "SK, :gsisk)".toList
    let names : GoMap Str :=
      mapSet (mapSet [] ("#".toList ++ index ++ "PK".toList) (index ++ "PK".toList))
        ("#".toList ++ index ++ "SK".toList) (index ++ "SK".toList)
    let afterSK : Option (Str × GoMap AttributeValue) :=
      match key.SK with
      | none => some (expr0, values0)
      | some sk =>
        if containsChar sk '/' then
          (GetListItem.rangeValues sk values0).map fun vs => (between, vs)
        else
          some (if hasSuffix sk "#".toList then begins else pre ++ "SK = :gsisk".toList,
            mapSet values0 ":gsisk".toList (.S sk))
    match afterSK with
    | none => none
    | some (expr1, values1) =>
      match key.Condition with
      | none => some ⟨expr1, values1, names⟩
      | some c =>
        match key.SK with
        | none => none
        | some sk =>
          if containsChar sk '/' then
            (GetListItem.rangeValues sk values1).map fun vs =>
              ⟨if c = "between".toList then between else expr1, vs, names⟩
          else
            let values2 := mapSet values1 ":gsisk".toList (.S sk)
            if c = "equal".toList then some ⟨pre ++ "SK = :gsisk".toList, values2, names⟩
            else if c = "more_than".toList then some ⟨pre ++ "SK > :gsisk".toList, values2, names⟩
            else if c = "less_than".toList then some ⟨pre ++ "SK < :gsisk".toList, values2, names⟩
            else if c = "more_than_equal".toList then
              some ⟨pre ++ "SK >= :gsisk".toList, values2, names⟩
            else if c = "less_than_equal".toList then
              some ⟨pre ++ "SK <= :gsisk".toList, values2, names⟩
            else if c = "begins".toList then some ⟨begins, values2, names⟩
            else some ⟨expr1, values2, names⟩
  | _, _ => none

/-! ## Result handling of `GetListItem` (ddb.go:498-515) -/

/-- Errors of the result handling: the item-not-found error of ddb.go:503 and
an error passed on from `attributevalue.UnmarshalMap`. -/
inductive ListError where
  | itemNotFound : ListError
  | unmarshal : Str → ListError
  deriving DecidableEq

/-- The three results of `GetListItem`. -/
structure ListResult where
  items : List (GoMap AttributeValue)
  lastEvaluatedKey : Option (GoMap Value)
  err : Option ListError

/-- Result handling of `GetListItem` after a successful query (ddb.go:502-514).
`unmarshalMap` stands for `attributevalue.UnmarshalMap`, a function of the AWS
SDK; a nil `LastEvaluatedKey` of the response is `none`. -/
def GetListItem.handleOutput (unmarshalMap : GoMap AttributeValue → Except Str (GoMap Value))
    (items : List (GoMap AttributeValue)) (lastEvaluatedKey : Option (GoMap AttributeValue)) :
    ListResult :=
  if items.length < 1 ∧ lastEvaluatedKey = none then
    ⟨[], none, some .itemNotFound⟩
  else
    match lastEvaluatedKey with
    | some lek =>
      match unmarshalMap lek with
      | .error e => ⟨[], none, some (.unmarshal e)⟩
      | .ok cursor => ⟨items, some cursor, none⟩
    | none => ⟨items, none, none⟩

/-! ## Filter compiler: `processQueryOptionFilter`, `getWhere` -/

/-- The operand `item["keyword"]` of a filter predicate: a string, a bool, or
a value of another dynamic type (a JSON number), on which both type
assertions of the source panic. -/
inductive Keyword where
  | str : Str → Keyword
  | bool : Bool → Keyword
  | num : Int → Keyword
  deriving DecidableEq

/-- One filter predicate, `value.(map[string]interface{})` in the source, with
`field` and `type` strings, `condition` a string when present, and
`position` recording whether `item["position"]` is non-nil. -/
structure FilterItem where
  field : Str
  type : Str
  keyword : Keyword
  condition : Option Str
  position : Bool
  deriving DecidableEq

/-- Go `strings.ReplaceAll(s, old, new)` for one-character `old` and `new`. -/
def replaceChar (old new : Char) (s : Str) : Str :=
  s.map fun c => if c = old then new else c

/-- Go `strings.ReplaceAll(s, "_2", "")`: left to right, without overlap. -/
def removeSuffixToken : Str → Str
  | [] => []
  | [c] => [c]
  | c :: d :: t =>
    if c = '_' ∧ d = '2' then removeSuffixToken t else c :: removeSuffixToken (d :: t)

/-- The double-quote character, U+0022. -/
def dquote : Char := Char.ofNat 34

/-- The apostrophe character, U+0027. -/
def apostrophe : Char := Char.ofNat 39

/-- Function `getWhere` (ddb.go:587-616). -/
def getWhere (item : FilterItem) : Str :=
  let field := replaceChar dquote apostrophe item.field
  let searchType := item.type
  if searchType = "keyword".toList then
    "contains (#".toList ++ field ++ ", :".toList ++ field ++ ")".toList
  else if searchType = "equal".toList then "#".toList ++ field ++ " = :".toList ++ field
  else if searchType = "bool".toList then "#".toList ++ field ++ " = :".toList ++ field
  else if searchType = "not_equal".toList then "#".toList ++ field ++ " <> :".toList ++ field
  else if searchType = "date".toList then
    "#".toList ++ field ++ " BETWEEN :".toList ++ (field ++ "Start".toList) ++ " AND :".toList ++
      (field ++ "End".toList)
  else if searchType = "less_than_equal".toList then
    "#".toList ++ field ++ " <= :".toList ++ field
  else if searchType = "less_than".toList then "#".toList ++ field ++ " <= :".toList ++ field
  else if searchType = "more_than_equal".toList then
    "#".toList ++ field ++ " => :".toList ++ field
  else if searchType = "more_than".toList then "#".toList ++ field ++ " > :".toList ++ field
  else []

/-- The running state of `processQueryOptionFilter`: the expression built so
far, the two tables it writes into, and the clause counter `i`. -/
structure FilterState where
  filterExpression : Str
  values : GoMap AttributeValue
  names : GoMap Str
  i : Nat
  deriving DecidableEq

/-- The joining of one clause onto the expression (ddb.go:528-536, 560-568). -/
def joinClause (st : FilterState) (item : FilterItem) (filter : Str) : Str :=
  if st.i = 0 then st.filterExpression ++ filter
  else
    match item.condition with
    | some c => st.filterExpression ++ (" ".toList ++ c ++ " ".toList ++ filter)
    | none => st.filterExpression ++ (" AND ".toList ++ filter)

/-- The value aliasing of one predicate (ddb.go:539-547, 571-579); `none` is a
panic of a type assertion or of the index `date[1]`. -/
def registerValue (item : FilterItem) (values : GoMap AttributeValue) :
    Option (GoMap AttributeValue) :=
  if item.type = "date".toList then
    match item.keyword with
    | .str kw =>
      let date := splitOn '/' kw
      match date[0]?, date[1]? with
      | some a, some b =>
        some (mapSet (mapSet values (":".toList ++ item.field ++ "Start".toList) (.S a))
          (":".toList ++ item.field ++ "End".toList) (.S b))
      | _, _ => none
    | _ => none
  else if item.type ≠ "bool".toList then
    match item.keyword with
    | .str kw => some (mapSet values (":".toList ++ item.field) (.S kw))
    | _ => none
  else
    match item.keyword with
    | .bool b => some (mapSet values (":".toList ++ item.field) (.BOOL b))
    | _ => none

/-- One iteration of the loop `//parent condition` (ddb.go:524-550). -/
def parentStep (st : FilterState) (item : FilterItem) : Option FilterState :=
  if item.position = false then
    let filter := getWhere item
    let expr := joinClause st item filter
    let names := mapSet st.names ("#".toList ++ item.field) item.field
    (registerValue item st.values).map fun values => ⟨expr, values, names, st.i + 1⟩
  else some st

/-- One iteration of the loop `//child condition` (ddb.go:553-582).  The
source overwrites `item["field"]` in the caller's map; the renamed item is
`item1`. -/
def childStep (st : FilterState) (item : FilterItem) : Option FilterState :=
  if item.position = true then
    let item1 : FilterItem :=
      if (mapGet st.names ("#".toList ++ item.field)).getD [] ≠ [] then
        { item with field := item.field ++ "_2".toList }
      else item
    let filter := getWhere item1
    let expr := joinClause st item1 filter
    let names := mapSet st.names ("#".toList ++ item1.field) (removeSuffixToken item1.field)
    (registerValue item1 st.values).map fun values => ⟨expr, values, names, st.i + 1⟩
  else some st

/-- A `range` loop whose body may panic. -/
def rangeLoop (step : FilterState → FilterItem → Option FilterState) :
    List FilterItem → FilterState → Option FilterState
  | [], st => some st
  | item :: rest, st =>
    match step st item with
    | none => none
    | some st1 => rangeLoop step rest st1

/-- Function `processQueryOptionFilter` (ddb.go:517-585).  Go enumerates the
map `filters` once for each loop, in an order of its own each time:
`parentOrder` and `childOrder` are these two enumerations.  The result is the
filter expression with the two tables as mutated; `none` is a panic.  A nil
`filters` behaves as the empty map. -/
def processQueryOptionFilter (parentOrder childOrder : List FilterItem)
    (expressionAttributeValues : GoMap AttributeValue) (expressionAttributeName : GoMap Str) :
    Option FilterState :=
  match rangeLoop parentStep parentOrder ⟨[], expressionAttributeValues, expressionAttributeName, 0⟩
  with
  | none => none
  | some st => rangeLoop childStep childOrder st

/-! ## Records: `DynamoDbMetaData`, `Marshal`, `Unmarshal` (ddb.go:30-57)

`Marshal` and `Unmarshal` call `encoding/json`, which the struct tags of
`DynamoDbMetaData` steer: a field tagged `json:"-"` is left out by the encoder
and ignored by the decoder, a field tagged `omitempty` is left out when it is
empty.  The JSON text is represented by the document it denotes: the members
in the order written, each a key and a value. -/

/-- A Go `string` as a record holds it: a sequence of bytes (each below 256),
which need not be valid UTF-8. -/
abbrev Bytes := List Nat

/-- Go `utf8.EncodeRune`: the UTF-8 bytes of one character. -/
def utf8EncodeChar (c : Char) : Bytes :=
  let v := c.toNat
  if v < 0x80 then [v]
  else if v < 0x800 then [0xC0 + v / 64, 0x80 + v % 64]
  else if v < 0x10000 then [0xE0 + v / 4096, 0x80 + v / 64 % 64, 0x80 + v % 64]
  else [0xF0 + v / 262144, 0x80 + v / 4096 % 64, 0x80 + v / 64 % 64, 0x80 + v % 64]

/-- The Go string that holds the characters `s`: their UTF-8 encoding. -/
def utf8Encode (s : Str) : Bytes := s.flatMap utf8EncodeChar

/-- The replacement character U+FFFD (`utf8.RuneError`). -/
def replacementChar : Char := Char.ofNat 0xFFFD

/-- A continuation byte, `0x80` to `0xBF`. -/
def isContinuation (b : Nat) : Bool := decide (0x80 ≤ b ∧ b ≤ 0xBF)

/-- Go `utf8.DecodeRuneInString` on a non-empty string: the first character
and the number of bytes it takes; `(RuneError, 1)` where the first byte starts
no valid encoding (a stray continuation byte, a truncated, overlong or
surrogate encoding, a value above U+10FFFF). -/
def decodeRune : Bytes → Char × Nat
  | [] => (replacementChar, 0)
  | b0 :: t0 =>
    if b0 < 0x80 then (Char.ofNat b0, 1)
    else if b0 < 0xC2 then (replacementChar, 1)
    else if b0 < 0xE0 then
      match t0 with
      | b1 :: _ =>
        if isContinuation b1 = true then (Char.ofNat (b0 % 32 * 64 + b1 % 64), 2)
        else (replacementChar, 1)
      | _ => (replacementChar, 1)
    else if b0 < 0xF0 then
      match t0 with
      | b1 :: b2 :: _ =>
        if (if b0 = 0xE0 then 0xA0 else 0x80) ≤ b1 ∧ b1 ≤ (if b0 = 0xED then 0x9F else 0xBF) ∧
            isContinuation b2 = true then
          (Char.ofNat (b0 % 16 * 4096 + b1 % 64 * 64 + b2 % 64), 3)
        else (replacementChar, 1)
      | _ => (replacementChar, 1)
    else if b0 < 0xF5 then
      match t0 with
      | b1 :: b2 :: b3 :: _ =>
        if (if b0 = 0xF0 then 0x90 else 0x80) ≤ b1 ∧ b1 ≤ (if b0 = 0xF4 then 0x8F else 0xBF) ∧
            isContinuation b2 = true ∧ isContinuation b3 = true then
          (Char.ofNat (b0 % 8 * 262144 + b1 % 64 * 4096 + b2 % 64 * 64 + b3 % 64), 4)
        else (replacementChar, 1)
      | _ => (replacementChar, 1)
    else (replacementChar, 1)

/-- The loop of the string encoder of `encoding/json` over a Go string, at
most `fuel` characters: each character `utf8.DecodeRuneInString` reads is
written, U+FFFD for `(RuneError, 1)`, and the loop goes on after the bytes
read. -/
def toValidFuel : Nat → Bytes → Str
  | 0, _ => []
  | _, [] => []
  | fuel + 1, b :: t =>
    (decodeRune (b :: t)).1 :: toValidFuel fuel ((b :: t).drop (decodeRune (b :: t)).2)

/-- The characters `json.Marshal` writes for a Go string.  Every step reads
at least one byte, so the length of the string is fuel enough. -/
def toValidUTF8 (b : Bytes) : Str := toValidFuel b.length b

/-- The `*Location` of a `time.Time`: nil, which stands for UTC (`setLoc`
stores `&utcLoc` as nil), or a pointer to another location (`time.Local`, a
fixed or a named zone), given by a number that identifies the location up to
deep equality. -/
inductive Location where
  | utc : Location
  | zone : Nat → Location
  deriving DecidableEq

/-- A `time.Time` as `reflect.DeepEqual` sees it: the instant (seconds since
the Unix epoch and nanoseconds below `10^9`), the monotonic clock reading that
`time.Now()` attaches (its presence changes the fields `wall` and `ext`), and
the location. -/
structure Time where
  sec : Int
  nsec : Nat
  monotonic : Option Int
  loc : Location
  deriving DecidableEq

/-- A JSON string that is an RFC 3339 timestamp: its text, the instant the
parser of package `time` reads from it, and its zone designator, `none` for
`Z` and the offset in minutes for `+hh:mm` and `-hh:mm`. -/
structure Stamp where
  text : Str
  sec : Int
  nsec : Nat
  offset : Option Int
  deriving DecidableEq

/-- JSON values of the members of a document: a string given by its
characters; a string that is an RFC 3339 timestamp, given with what the parser
of package `time` reads from it; a number; `null`.  A string that the parser
of timestamps accepts is given as `time` where it is read as a timestamp. -/
inductive Json where
  | str : Str → Json
  | time : Stamp → Json
  | num : Int → Json
  | null : Json
  deriving DecidableEq

/-- What the zone data of the host decides in package `time`: `zoned id sec
nsec` is what `Time.MarshalJSON` gives for the instant in the location `id`
(an error, `none`, or the timestamp string), and `located sec minutes` is the
location the RFC 3339 parser attaches to an instant read with a numeric zone
offset (`time.Local` when that is the local offset at the instant, a fixed
zone otherwise). -/
structure Zones where
  zoned : Nat → Int → Nat → Option Stamp
  located : Int → Int → Nat

/-- Unix second of `0000-01-01T00:00:00Z`: 719528 days before the epoch. -/
def yearZero : Int := -62167219200

/-- Unix second of `10000-01-01T00:00:00Z`: 2932897 days after the epoch. -/
def yearTenThousand : Int := 253402300800

/-- A decimal digit. -/
def digitChar (d : Nat) : Char := Char.ofNat (48 + d % 10)

/-- A number written with two digits. -/
def twoDigits (n : Nat) : Str := [digitChar (n / 10), digitChar n]

/-- A number written with four digits. -/
def fourDigits (n : Nat) : Str :=
  [digitChar (n / 1000), digitChar (n / 100), digitChar (n / 10), digitChar n]

/-- The fraction of a second as layout `.999999999` writes it: nothing for
zero, otherwise a point and the nine digits of the nanoseconds without the
trailing zeros. -/
def fractionText (nsec : Nat) : Str :=
  if nsec = 0 then []
  else '.' :: ((((List.range 9).map fun i => digitChar (nsec / 10 ^ (8 - i))).reverse.dropWhile
    fun c => c = '0').reverse)

/-- The text `Time.MarshalJSON` writes (layout RFC3339Nano) for a UTC instant
`sec` in `[yearZero, yearTenThousand)`: the civil date of the day, counted in
the proleptic Gregorian calendar from March 1st of the year -400, and the time
of the day. -/
def rfc3339Text (sec : Int) (nsec : Nat) : Str :=
  let n := (sec - yearZero).toNat
  let z := n / 86400 + 146037
  let era := z / 146097
  let doe := z % 146097
  let yoe := (doe - doe / 1460 + doe / 36524 - doe / 146096) / 365
  let doy := doe - (365 * yoe + yoe / 4 - yoe / 100)
  let mp := (5 * doy + 2) / 153
  let day := doy - (153 * mp + 2) / 5 + 1
  let month := if mp < 10 then mp + 3 else mp - 9
  let year := yoe + era * 400 + (if month ≤ 2 then 1 else 0) - 400
  let rest := n % 86400
  fourDigits year ++ "-".toList ++ twoDigits month ++ "-".toList ++ twoDigits day ++
    "T".toList ++ twoDigits (rest / 3600) ++ ":".toList ++ twoDigits (rest / 60 % 60) ++
    ":".toList ++ twoDigits (rest % 60) ++ fractionText nsec ++ "Z".toList

/-- Struct `DynamoDbMetaData` (ddb.go:30-47).  The embedded interface
`IDynamoDbRecord` is nil (`none`) or holds some implementation. -/
structure DynamoDbMetaData where
  IDynamoDbRecord : Option Nat
  Id : Bytes
  PK : Bytes
  SK : Bytes
  GSI1PK : Option Bytes
  GSI1SK : Option Bytes
  GSI2PK : Option Bytes
  GSI2SK : Option Bytes
  GSI3PK : Option Bytes
  GSI3SK : Option Bytes
  GSI4PK : Option Bytes
  GSI4SK : Option Bytes
  GSI5PK : Option Bytes
  GSI5SK : Option Bytes
  CreatedTimestamp : Option Time
  UpdatedTimestamp : Option Time
  deriving DecidableEq

/-- Struct `Test` of ddb_test.go:10-15, the record type of the repository that
embeds `DynamoDbMetaData`. -/
structure Test where
  DynamoDbMetaData : DynamoDbMetaData
  Name : Bytes
  Description : Bytes
  TestName : Bytes
  deriving DecidableEq

/-- The zero value of `DynamoDbMetaData`. -/
def DynamoDbMetaData.zero : DynamoDbMetaData :=
  ⟨none, [], [], [], none, none, none, none, none, none, none, none, none, none, none, none⟩

/-- The zero value `Test{}`. -/
def Test.zero : Test := ⟨DynamoDbMetaData.zero, [], [], []⟩

/-- The method `Time.MarshalJSON` of package `time`: for a time in UTC, an
error (`none`) when the year is outside `[0, 9999]`, otherwise the RFC 3339
text of the instant with the designator `Z`; for a time in another location,
what the zone data gives. -/
def marshalTime (Z : Zones) (t : Time) : Option Stamp :=
  match t.loc with
  | .utc =>
    if yearZero ≤ t.sec ∧ t.sec < yearTenThousand then
      some ⟨rfc3339Text t.sec t.nsec, t.sec, t.nsec, none⟩
    else none
  | .zone id => Z.zoned id t.sec t.nsec

/-- The member an `omitempty` timestamp field contributes to the document:
none for a nil pointer; `none` is the error of `Time.MarshalJSON`. -/
def timeMember (Z : Zones) (name : Str) : Option Time → Option (List (Str × Json))
  | none => some []
  | some t => (marshalTime Z t).map fun st => [(name, Json.time st)]

/-- Function `Marshal` (ddb.go:49-52) on a `Test`: the members `json.Marshal`
writes, in field order, or its error (`none`).  The fields tagged `json:"-"`
(the embedded interface, `PK`, `SK`, `GSI1PK` to `GSI5SK`) are not written;
`Id` and the timestamps are written when non-empty; a string is written with
each byte that is not valid UTF-8 replaced by U+FFFD. -/
def Marshal (Z : Zones) (m : Test) : Option (List (Str × Json)) :=
  match timeMember Z "CreatedTimestamp".toList m.DynamoDbMetaData.CreatedTimestamp,
    timeMember Z "UpdatedTimestamp".toList m.DynamoDbMetaData.UpdatedTimestamp with
  | some created, some updated =>
    some ((if m.DynamoDbMetaData.Id = [] then []
        else [("Id".toList, Json.str (toValidUTF8 m.DynamoDbMetaData.Id))]) ++
      created ++ updated ++
      [("Name".toList, Json.str (toValidUTF8 m.Name)),
        ("Description".toList, Json.str (toValidUTF8 m.Description)),
        ("TestName".toList, Json.str (toValidUTF8 m.TestName))])
  | _, _ => none

/-- Decoding of one member into a string field: a string is stored as its
UTF-8 bytes, `null` leaves the field as it is, a number is an error of the
decoder. -/
def decodeStr (old : Bytes) : Json → Option Bytes
  | .str s => some (utf8Encode s)
  | .time st => some (utf8Encode st.text)
  | .null => some old
  | .num _ => none

/-- Decoding of one member into a `*time.Time` field by `Time.UnmarshalJSON`:
a decoded time has no monotonic clock reading; its location is UTC for the
designator `Z` and the location the zone data gives for a numeric offset.  A
string that is no timestamp and a number are errors of the decoder, `null`
sets the pointer to nil. -/
def decodeTime (Z : Zones) : Json → Option (Option Time)
  | .time st =>
    some (some ⟨st.sec, st.nsec, none,
      match st.offset with
      | none => .utc
      | some minutes => .zone (Z.located st.sec minutes)⟩)
  | .null => some none
  | _ => none

/-- Unicode simple case folding of one character, as far as a comparison with
an ASCII name goes: an upper-case ASCII letter gives the lower-case letter,
and the two other characters that fold to an ASCII letter are the Kelvin sign
U+212A (`k`) and the long s U+017F (`s`). -/
def foldChar (c : Char) : Char :=
  if 65 ≤ c.toNat ∧ c.toNat ≤ 90 then Char.ofNat (c.toNat + 32)
  else if c.toNat = 0x212A then 'k'
  else if c.toNat = 0x17F then 's'
  else c

/-- How `encoding/json` matches the key of a member with the name of a field:
exactly, or failing that under case folding (`bytes.EqualFold`). -/
def keyMatches (key field : Str) : Bool := key.map foldChar = field.map foldChar

/-- The decoding of one member of the document into the record.  Only the
fields the encoder writes are matched; every other key, `PK` among them, is
skipped. -/
def decodeMember (Z : Zones) (r : Test) (name : Str) (v : Json) : Option Test :=
  if keyMatches name "Id".toList = true then
    (decodeStr r.DynamoDbMetaData.Id v).map fun s =>
      { r with DynamoDbMetaData := { r.DynamoDbMetaData with Id := s } }
  else if keyMatches name "CreatedTimestamp".toList = true then
    (decodeTime Z v).map fun t =>
      { r with DynamoDbMetaData := { r.DynamoDbMetaData with CreatedTimestamp := t } }
  else if keyMatches name "UpdatedTimestamp".toList = true then
    (decodeTime Z v).map fun t =>
      { r with DynamoDbMetaData := { r.DynamoDbMetaData with UpdatedTimestamp := t } }
  else if keyMatches name "Name".toList = true then
    (decodeStr r.Name v).map fun s => { r with Name := s }
  else if keyMatches name "Description".toList = true then
    (decodeStr r.Description v).map fun s => { r with Description := s }
  else if keyMatches name "TestName".toList = true then
    (decodeStr r.TestName v).map fun s => { r with TestName := s }
  else some r

/-- Function `Unmarshal` (ddb.go:54-57) into the record `m`: the members of
the document are decoded in order; `none` is a returned error. -/
def Unmarshal (Z : Zones) : List (Str × Json) → Test → Option Test
  | [], m => some m
  | (name, v) :: rest, m =>
    match decodeMember Z m name v with
    | none => none
    | some m1 => Unmarshal Z rest m1

/-! ## Notions of the specification -/

/-- The three function names the update compiler accepts. -/
def supportedFunctions : List Str :=
  ["list_append".toList, "increase".toList, "decrease".toList]

/-- Words of the specification: a key that begins with `Fn:` and either does
not split on `:` into exactly three segments or has a second segment outside
`list_append`, `increase`, `decrease`. -/
def malformedFunctionKey (k : Str) : Prop :=
  hasPrefix "Fn:".toList k = true ∧
    ((splitOn ':' k).length ≠ 3 ∨ (splitOn ':' k).getD 1 [] ∉ supportedFunctions)

instance (k : Str) : Decidable (malformedFunctionKey k) :=
  inferInstanceAs (Decidable (hasPrefix "Fn:".toList k = true ∧
    ((splitOn ':' k).length ≠ 3 ∨ (splitOn ':' k).getD 1 [] ∉ supportedFunctions)))

/-- Words of the specification: the entry has a malformed key at the top
level, or is a non-function key whose value is a mapping with a malformed
key. -/
def entryMalformed (kv : Str × Value) : Prop :=
  malformedFunctionKey kv.1 ∨
    (hasPrefix "Fn:".toList kv.1 = false ∧
      ∃ m, kv.2 = Value.map m ∧ ∃ kv2 ∈ m, malformedFunctionKey kv2.1)

/-- Words of the specification: some key at the top level, or some key of a
mapping that is the value of a non-function top-level key, is malformed. -/
def hasMalformedFunctionKey (spec : List (Str × Value)) : Prop :=
  ∃ kv ∈ spec, entryMalformed kv

/-- Words of the specification: the spec has no function-tagged key, neither
at the top level nor in a top-level mapping. -/
def noFunctionKey (spec : List (Str × Value)) : Prop :=
  ∀ kv ∈ spec, hasPrefix "Fn:".toList kv.1 = false ∧
    ∀ m, kv.2 = Value.map m → ∀ kv2 ∈ m, hasPrefix "Fn:".toList kv2.1 = false

/-- Words of the specification: the number of top-level entries whose value
is not a mapping, plus the number of entries of each top-level mapping. -/
def leafCount (spec : List (Str × Value)) : Nat :=
  (spec.map fun kv =>
    match kv.2 with
    | .map m => m.length
    | _ => 1).sum

/-- The clause keys of the leaf paths of one entry: `#k` for a leaf `k`,
`#p.#c` for each child `c` of a mapping `p`. -/
def entryClauseKeys (kv : Str × Value) : List Str :=
  match kv.2 with
  | .map m => m.map fun c => "#".toList ++ kv.1 ++ ".#".toList ++ c.1
  | _ => ["#".toList ++ kv.1]

/-- The clause keys of the leaf paths of a spec, in enumeration order. -/
def clauseKeys (spec : List (Str × Value)) : List Str := spec.flatMap entryClauseKeys

/-- The keys of a map after `m[k] = v`, from the keys before. -/
def keyInsert (ks : List Str) (k : Str) : List Str := if k ∈ ks then ks else ks ++ [k]

/-- Words of the specification: the text of `sk` before its first `/`. -/
def beforeSlash (sk : Str) : Str := sk.takeWhile fun c => decide (c ≠ '/')

/-- Words of the specification: the text of `sk` after its first `/`. -/
def afterSlash (sk : Str) : Str := (sk.dropWhile fun c => decide (c ≠ '/')).drop 1

/-- Words of the specification: the text of `sk` between its first `/` and
the next `/`, or the end of `sk`. -/
def betweenSlashes (sk : Str) : Str := beforeSlash (afterSlash sk)

/-- The seven values of `Condition` the specification lists. -/
def supportedConditions : List Str :=
  ["equal".toList, "more_than".toList, "less_than".toList, "more_than_equal".toList,
    "less_than_equal".toList, "begins".toList, "between".toList]

/-- Words of the amended claim C9: the fields of the record that are tagged
`json:"-"` are zero. -/
def hiddenFieldsZero (r : Test) : Prop :=
  r.DynamoDbMetaData.IDynamoDbRecord = none ∧ r.DynamoDbMetaData.PK = [] ∧
    r.DynamoDbMetaData.SK = [] ∧
    r.DynamoDbMetaData.GSI1PK = none ∧ r.DynamoDbMetaData.GSI1SK = none ∧
    r.DynamoDbMetaData.GSI2PK = none ∧ r.DynamoDbMetaData.GSI2SK = none ∧
    r.DynamoDbMetaData.GSI3PK = none ∧ r.DynamoDbMetaData.GSI3SK = none ∧
    r.DynamoDbMetaData.GSI4PK = none ∧ r.DynamoDbMetaData.GSI4SK = none ∧
    r.DynamoDbMetaData.GSI5PK = none ∧ r.DynamoDbMetaData.GSI5SK = none

/-- Words of the amended claim C9: a Go string is valid UTF-8 when it is the
encoding of a sequence of characters. -/
def validUTF8 (b : Bytes) : Prop := ∃ s : Str, utf8Encode s = b

/-- Words of the amended claim C9: the string fields that `Marshal` writes
are valid UTF-8. -/
def visibleStringsValid (r : Test) : Prop :=
  validUTF8 r.DynamoDbMetaData.Id ∧ validUTF8 r.Name ∧ validUTF8 r.Description ∧
    validUTF8 r.TestName

/-- Words of the amended claim C9: a timestamp field is nil, or a time in UTC
without a monotonic clock reading whose year is in `[0, 9999]`. -/
def plainUtcTime : Option Time → Prop
  | none => True
  | some t => t.monotonic = none ∧ t.loc = .utc ∧ yearZero ≤ t.sec ∧ t.sec < yearTenThousand

/-- Zone data for the examples: a host set to UTC, on which `time.Local` is
location 0 and has the offset zero.  A time in `time.Local` is written like a
time in UTC; no other location is given (an error stands for them); a
timestamp read with the offset zero gets `time.Local`, one read with another
offset a fixed zone, numbered from its minutes. -/
def utcHost : Zones :=
  ⟨fun id sec nsec =>
      if id = 0 ∧ yearZero ≤ sec ∧ sec < yearTenThousand then
        some ⟨rfc3339Text sec nsec, sec, nsec, none⟩
      else none,
    fun _ minutes =>
      if minutes = 0 then 0 else 2 * minutes.natAbs + (if minutes < 0 then 1 else 0)⟩

/-- Words of the specification: a clause references a placeholder token when
the token occurs in its text. -/
def references (clause token : Str) : Prop := token <:+: clause

instance (clause token : Str) : Decidable (references clause token) :=
  inferInstanceAs (Decidable (token <:+: clause))

/-- The nine predicate types of the data model. -/
def supportedFilterTypes : List Str :=
  ["keyword".toList, "equal".toList, "not_equal".toList, "bool".toList, "date".toList,
    "less_than".toList, "less_than_equal".toList, "more_than".toList, "more_than_equal".toList]

/-- The operand of a predicate has the shape its type asks for (data model:
`"start/end"` for `date`, a bool for `bool`, a string otherwise). -/
def keywordWellTyped (item : FilterItem) : Prop :=
  if item.type = "date".toList then
    ∃ kw, item.keyword = .str kw ∧ containsChar kw '/' = true
  else if item.type = "bool".toList then ∃ b, item.keyword = .bool b
  else ∃ kw, item.keyword = .str kw

/-- Words of the specification: the explicit condition of a predicate, or
`AND` when it has none. -/
def connector (item : FilterItem) : Str :=
  match item.condition with
  | some c => c
  | none => "AND".toList

/-- A key-condition text seen as a template: literal text and references to
attributes. -/
inductive Segment where
  | text : Str → Segment
  | attribute : Str → Segment
  deriving DecidableEq

/-- The text of a template with each attribute reference written as the
attribute name. -/
def renderPlain : List Segment → Str
  | [] => []
  | .text s :: rest => s ++ renderPlain rest
  | .attribute n :: rest => n ++ renderPlain rest

/-- The text of a template with each attribute reference `n` replaced by its
alias `#n`. -/
def renderAliased : List Segment → Str
  | [] => []
  | .text s :: rest => s ++ renderAliased rest
  | .attribute n :: rest => '#' :: n ++ renderAliased rest

/-- The template `<I>PK = :gsipk`. -/
def partitionTemplate (index : Str) : List Segment :=
  [.attribute (index ++ "PK".toList), .text " = :gsipk".toList]

/-- The template `<I>PK = :gsipk and <I>SK<rest>`, with `rest` the operator
and the value placeholder. -/
def comparisonTemplate (index rest : Str) : List Segment :=
  [.attribute (index ++ "PK".toList), .text " = :gsipk and ".toList,
    .attribute (index ++ "SK".toList), .text rest]

/-- The template `<I>PK = :gsipk and begins_with(<I>SK, :gsisk)`. -/
def beginsTemplate (index : Str) : List Segment :=
  [.attribute (index ++ "PK".toList), .text " = :gsipk and begins_with(".toList,
    .attribute (index ++ "SK".toList), .text ", :gsisk)".toList]

/-- Words of the specification: what a predicate after the first contributes,
`" " + connector + " " + clause`. -/
def prefixedClause (item : FilterItem) : Str :=
  " ".toList ++ connector item ++ " ".toList ++ getWhere item

/-- Words of the specification: the reference string of a sequence of
predicates; the first contributes its clause, each later one its prefixed
clause. -/
def referenceExpression : List FilterItem → Str
  | [] => []
  | first :: rest => getWhere first ++ (rest.map prefixedClause).flatten

/-- A position-marked predicate as the second loop holds it when it calls
`getWhere`: its field is rewritten to `<field>_2` when the name table has a
non-empty entry for `#<field>` (ddb.go:556-558). -/
def heldItem (names : GoMap Str) (item : FilterItem) : FilterItem :=
  if (mapGet names ("#".toList ++ item.field)).getD [] ≠ [] then
    { item with field := item.field ++ "_2".toList }
  else item

/-- The name table after the first loop has registered `#field -> field` for
each of the given predicates. -/
def parentNames (names : GoMap Str) (parents : List FilterItem) : GoMap Str :=
  parents.foldl (fun n item => mapSet n ("#".toList ++ item.field) item.field) names

/-- The position-marked predicates as the second loop holds them, in
enumeration order, starting from the name table `names`. -/
def childView (names : GoMap Str) : List FilterItem → List FilterItem
  | [] => []
  | item :: rest =>
    heldItem names item ::
      childView
        (mapSet names ("#".toList ++ (heldItem names item).field)
          (removeSuffixToken (heldItem names item).field)) rest

/-- Words of the specification: the value aliases of a predicate, `:fStart`
and `:fEnd` for the type `date`, `:f` otherwise. -/
def valueAliases (item : FilterItem) : List Str :=
  if item.type = "date".toList then
    [":".toList ++ item.field ++ "Start".toList, ":".toList ++ item.field ++ "End".toList]
  else [":".toList ++ item.field]

/-- A text with placeholder tokens: `texts` are the literal pieces around the
tokens, `t0 k1 t1 k2 t2 ...`. -/
def fillTemplate : List Str → List Str → Str
  | t :: ts, k :: ks => t ++ k ++ fillTemplate ts ks
  | t :: _, [] => t
  | [], _ => []

/-- A literal piece of a clause: it has no `#` and no `:`, so it holds no
placeholder token. -/
def literalText (t : Str) : Prop := '#' ∉ t ∧ ':' ∉ t

instance (t : Str) : Decidable (literalText t) :=
  inferInstanceAs (Decidable ('#' ∉ t ∧ ':' ∉ t))

/-- The iteration that compiles a predicate: the first loop for a predicate
without a position marker, the second loop for one with. -/
def compileStep (st : FilterState) (item : FilterItem) : Option FilterState :=
  if item.position then childStep st item else parentStep st item

/-- The predicate as the compiling iteration holds it. -/
def compiledItem (st : FilterState) (item : FilterItem) : FilterItem :=
  if item.position then heldItem st.names item else item

/-- Words of the specification: a well-formed `increase` or `decrease` key,
`Fn:increase:<field>` or `Fn:decrease:<field>`. -/
def zeroFunctionKey (k : Str) : Prop :=
  hasPrefix "Fn:".toList k = true ∧ (splitOn ':' k).length = 3 ∧
    ((splitOn ':' k).getD 1 [] = "increase".toList ∨
      (splitOn ':' k).getD 1 [] = "decrease".toList)

instance (k : Str) : Decidable (zeroFunctionKey k) :=
  inferInstanceAs (Decidable (hasPrefix "Fn:".toList k = true ∧ (splitOn ':' k).length = 3 ∧
    ((splitOn ':' k).getD 1 [] = "increase".toList ∨
      (splitOn ':' k).getD 1 [] = "decrease".toList)))

/-- Words of the specification: the entry is an increase or decrease entry at
the top level, or a mapping under a non-function key that has one. -/
def entryHasZero (kv : Str × Value) : Prop :=
  zeroFunctionKey kv.1 ∨
    (hasPrefix "Fn:".toList kv.1 = false ∧
      ∃ m, kv.2 = Value.map m ∧ ∃ kv2 ∈ m, zeroFunctionKey kv2.1)

/-- Words of the specification: the spec contains at least one well-formed
increase or decrease entry, at the top level or one level nested. -/
def hasZeroEntry (spec : List (Str × Value)) : Prop := ∃ kv ∈ spec, entryHasZero kv

/-- The key under which an entry is aliased: the field of a function key
`Fn:<op>:<field>`, the key itself otherwise. -/
def workingKey (k : Str) : Str :=
  if hasPrefix "Fn:".toList k then (splitOn ':' k).getD 2 [] else k

/-- The value alias of a leaf: `:k` at the top level, `:p_k` under the parent
`p`. -/
def leafValueAlias (parent : Option Str) (k : Str) : Str :=
  match parent with
  | none => ":".toList ++ k
  | some p => ":".toList ++ p ++ "_".toList ++ k

/-- The value aliases of the leaves of one entry of a spec. -/
def entryValueAliases (kv : Str × Value) : List Str :=
  if hasPrefix "Fn:".toList kv.1 then [leafValueAlias none (workingKey kv.1)]
  else
    match kv.2 with
    | .map m => m.map fun c => leafValueAlias (some kv.1) (workingKey c.1)
    | _ => [leafValueAlias none kv.1]

/-- The value aliases of the leaves of a spec, in enumeration order. -/
def leafValueAliases (spec : List (Str × Value)) : List Str := spec.flatMap entryValueAliases

/-- The parent path `parentName` of the compiler for a parent key. -/
def parentPath : Option Str → Option (List Str)
  | none => none
  | some p => some [p]

/-- A leaf path of a spec without function keys: a top-level key `k` whose
value is not a mapping, `(k, none)`, or a child `c` of the mapping under `p`,
`(p, some c)`. -/
abbrev LeafPath := Str × Option Str

/-- The leaves of one entry, with their values. -/
def entryLeaves (kv : Str × Value) : List (LeafPath × Value) :=
  match kv.2 with
  | .map m => m.map fun c => ((kv.1, some c.1), c.2)
  | _ => [((kv.1, none), kv.2)]

/-- The leaves of a spec, in enumeration order. -/
def leaves (spec : List (Str × Value)) : List (LeafPath × Value) := spec.flatMap entryLeaves

/-- The value alias of a leaf path: `:k`, or `:p_c`. -/
def pathValueAlias : LeafPath → Str
  | (k, none) => ":".toList ++ k
  | (p, some c) => ":".toList ++ p ++ "_".toList ++ c

/-- The clause key of a leaf path: `#k`, or `#p.#c`. -/
def pathClauseKey : LeafPath → Str
  | (k, none) => "#".toList ++ k
  | (p, some c) => "#".toList ++ p ++ ".#".toList ++ c

/-- The assignments `m[k] = v` of a list of entries, in order. -/
def mapSetAll {α : Type} (entries : List (Str × α)) (base : GoMap α) : GoMap α :=
  entries.foldl (fun m e => mapSet m e.1 e.2) base

/-- The value-table entries of a list of leaves: `alias -> value`. -/
def leafValueEntries (ls : List (LeafPath × Value)) : List (Str × Value) :=
  ls.map fun e => (pathValueAlias e.1, e.2)

/-- The clause-table entries of a list of leaves: `clause key -> alias`. -/
def leafClauseEntries (ls : List (LeafPath × Value)) : List (Str × Str) :=
  ls.map fun e => (pathClauseKey e.1, pathValueAlias e.1)

/-! # Theorems -/

/-! ## Update compiler -/

theorem functionTag_error_iff (k : Str) (T : Tables) :
    (∃ e, functionTag k T = .error e) ↔
      ((splitOn ':' k).length ≠ 3 ∨ (splitOn ':' k).getD 1 [] ∉ supportedFunctions) := by
  unfold functionTag supportedFunctions
  dsimp only
  generalize (splitOn ':' k).getD 1 [] = name
  generalize (splitOn ':' k).length = n
  simp only [List.mem_cons, List.mem_singleton, List.not_mem_nil, or_false]
  split_ifs with h3 h1 h2
  · simp only [reduceCtorEq, exists_false, false_iff]
    rintro (h | h)
    · exact h h3
    · exact h (Or.inl h1)
  · simp only [reduceCtorEq, exists_false, false_iff]
    rintro (h | h)
    · exact h h3
    · exact h (Or.inr h2)
  · simp only [Except.error.injEq, exists_eq', true_iff]
    right
    rintro (h | h)
    · exact h1 h
    · exact h2 h
  · simp only [Except.error.injEq, exists_eq', true_iff]
    exact Or.inl h3

theorem functionTag_ok_supported (k : Str) (T : Tables) (k1 : Str) (T1 : Tables)
    (h : functionTag k T = .ok (k1, T1)) :
    (splitOn ':' k).getD 1 [] ∈ supportedFunctions := by
  unfold functionTag at h
  dsimp only at h
  unfold supportedFunctions
  simp only [List.mem_cons, List.mem_singleton, List.not_mem_nil, or_false]
  split_ifs at h with h3 h1 h2
  · exact Or.inl h1
  · exact Or.inr h2

theorem buildFunction_supported (p : Option (List Str)) (name k : Str)
    (h : name ∈ supportedFunctions) :
    (buildFunctionForExpressionAttributeNamesAndValue p name k).2 = none := by
  unfold buildFunctionForExpressionAttributeNamesAndValue
  dsimp only
  unfold supportedFunctions at h
  simp only [List.mem_cons, List.mem_singleton, List.not_mem_nil, or_false] at h
  split_ifs with h1 h2 h3
  · rfl
  · rfl
  · rfl
  · rcases h with h | h | h
    · exact absurd h h1
    · exact absurd h h2
    · exact absurd h h3

theorem buildLabel_plain (p : Option (List Str)) (k : Str) (v : Value) (T : Tables) :
    (buildLabel p none k v T).2 = none := by
  unfold buildLabel
  cases p <;> rfl

theorem buildLabel_supported (p : Option (List Str)) (name k : Str) (v : Value) (T : Tables)
    (h : name ∈ supportedFunctions) :
    (buildLabel p (some name) k v T).2 = none := by
  unfold buildLabel
  cases p <;> exact buildFunction_supported _ name k h

theorem buildEntry_function (p : Option (List Str)) (k : Str) (v : Value) (T : Tables)
    (hk : hasPrefix "Fn:".toList k = true) :
    (buildEntry p k v T).2.isSome = true ↔ malformedFunctionKey k := by
  rw [buildEntry]
  simp only [hk, if_true]
  have herr := functionTag_error_iff k T
  cases hft : functionTag k T with
  | error e =>
    have : malformedFunctionKey k := ⟨hk, herr.mp ⟨e, hft⟩⟩
    simp [this]
  | ok r =>
    obtain ⟨k1, T1⟩ := r
    have hs := functionTag_ok_supported k T k1 T1 hft
    have hn : ¬ malformedFunctionKey k := by
      rintro ⟨-, hm⟩
      obtain ⟨e, he⟩ := herr.mpr hm
      rw [hft] at he
      cases he
    simp only [hn, iff_false]
    rw [buildLabel_supported _ _ _ _ _ hs]
    simp

theorem buildEntry_nested_error_iff (ps : List Str) (hps : 1 ≤ ps.length) (k : Str)
    (v : Value) (T : Tables) :
    (buildEntry (some ps) k v T).2.isSome = true ↔ malformedFunctionKey k := by
  by_cases hk : hasPrefix "Fn:".toList k = true
  · exact buildEntry_function _ k v T hk
  · have hn : ¬ malformedFunctionKey k := fun h => hk h.1
    rw [buildEntry]
    simp only [hk, hn, iff_false]
    cases v <;> simp [hps, buildLabel_plain]

theorem build_loop_error_iff (p : Option (List Str)) (P : Str × Value → Prop)
    (hstep : ∀ k v T, (buildEntry p k v T).2.isSome = true ↔ P (k, v)) :
    ∀ (m : List (Str × Value)) (T : Tables),
      (buildExpressionAttributeNamesAndValue p m T).2.isSome = true ↔ ∃ kv ∈ m, P kv := by
  intro m
  induction m with
  | nil => intro T; simp [buildExpressionAttributeNamesAndValue]
  | cons kv rest ih =>
    intro T
    obtain ⟨k, v⟩ := kv
    rw [buildExpressionAttributeNamesAndValue]
    have hs := hstep k v T
    rcases hr : buildEntry p k v T with ⟨T1, _ | e⟩
    · rw [hr] at hs
      simp only [Option.isSome_none, Bool.false_eq_true, false_iff] at hs
      simp only [ih T1, List.mem_cons, exists_eq_or_imp, hs, false_or]
    · rw [hr] at hs
      simp only [Option.isSome_some, true_iff] at hs
      simp [hs]

theorem buildEntry_top_error_iff (k : Str) (v : Value) (T : Tables) :
    (buildEntry none k v T).2.isSome = true ↔ entryMalformed (k, v) := by
  unfold entryMalformed
  by_cases hk : hasPrefix "Fn:".toList k = true
  · rw [buildEntry_function _ k v T hk]
    constructor
    · exact fun h => Or.inl h
    · rintro (h | ⟨h, -⟩)
      · exact h
      · rw [hk] at h
        cases h
  · have hn : ¬ malformedFunctionKey k := fun h => hk h.1
    have hk2 : hasPrefix "Fn:".toList k = false := by simpa using hk
    rw [buildEntry]
    simp only [hk, hn, false_or, hk2, true_and]
    cases v with
    | map m =>
      simp only [Bool.false_eq_true, if_false]
      rw [build_loop_error_iff (some [k]) (fun kv => malformedFunctionKey kv.1)
        (fun k2 v2 T2 => buildEntry_nested_error_iff [k] (by simp) k2 v2 T2)]
      simp
    | _ => simp [buildLabel_plain]

/-- Claim C6: for every update spec, in every enumeration order of its entries
(the list `spec` is the order of enumeration, and so is the list inside each
nested mapping), `buildExpressionAttributeNamesAndValue` returns an error if
and only if some top-level key, or some key of a mapping that is the value of
a non-function top-level key, begins with `Fn:` and either does not split on
`:` into exactly three segments or has a second segment outside
`list_append`, `increase`, `decrease`; the answer is the same for every
reordering `es` of the entries. -/
theorem C6_error_iff_malformed_function_key (spec : List (Str × Value)) (T : Tables) :
    ((buildExpressionAttributeNamesAndValue none spec T).2.isSome = true ↔
        hasMalformedFunctionKey spec) ∧
      ∀ es : List (Str × Value), es.Perm spec →
        ((buildExpressionAttributeNamesAndValue none es T).2.isSome = true ↔
          hasMalformedFunctionKey spec) := by
  have key : ∀ l : List (Str × Value),
      (buildExpressionAttributeNamesAndValue none l T).2.isSome = true ↔
        hasMalformedFunctionKey l :=
    fun l => build_loop_error_iff none entryMalformed buildEntry_top_error_iff l T
  refine ⟨key spec, fun es hes => ?_⟩
  rw [key es]
  unfold hasMalformedFunctionKey
  constructor
  · rintro ⟨kv, hmem, h⟩
    exact ⟨kv, hes.mem_iff.mp hmem, h⟩
  · rintro ⟨kv, hmem, h⟩
    exact ⟨kv, hes.mem_iff.mpr hmem, h⟩

theorem build_append (p : Option (List Str)) (pre rest : List (Str × Value)) (T T1 : Tables)
    (hpre : buildExpressionAttributeNamesAndValue p pre T = (T1, none)) :
    buildExpressionAttributeNamesAndValue p (pre ++ rest) T =
      buildExpressionAttributeNamesAndValue p rest T1 := by
  induction pre generalizing T with
  | nil =>
    rw [buildExpressionAttributeNamesAndValue] at hpre
    cases hpre
    rfl
  | cons kv pre ih =>
    obtain ⟨k, v⟩ := kv
    rw [buildExpressionAttributeNamesAndValue] at hpre
    rw [List.cons_append, buildExpressionAttributeNamesAndValue]
    rcases hr : buildEntry p k v T with ⟨T2, _ | e⟩
    · rw [hr] at hpre
      exact ih T2 hpre
    · rw [hr] at hpre
      cases hpre

theorem buildEntry_malformed (p : Option (List Str)) (k : Str) (v : Value) (T : Tables)
    (hk : malformedFunctionKey k) : ∃ e, buildEntry p k v T = (T, some e) := by
  obtain ⟨e, he⟩ := (functionTag_error_iff k T).mpr hk.2
  refine ⟨e, ?_⟩
  rw [buildEntry]
  simp only [hk.1, if_true, he]

theorem build_cons_error (p : Option (List Str)) (k : Str) (v : Value)
    (rest : List (Str × Value)) (T T1 : Tables) (e : UpdateError)
    (h : buildEntry p k v T = (T1, some e)) :
    buildExpressionAttributeNamesAndValue p ((k, v) :: rest) T = (T1, some e) := by
  rw [buildExpressionAttributeNamesAndValue, h]

theorem buildEntry_top_map (k : Str) (m : List (Str × Value)) (T : Tables)
    (hk : hasPrefix "Fn:".toList k = false) :
    buildEntry none k (.map m) T =
      buildExpressionAttributeNamesAndValue (some [k]) m
        { T with names := mapSet T.names ("#".toList ++ k) k } := by
  rw [buildEntry]
  simp only [hk, Bool.false_eq_true, if_false]

/-- Claim C1, evaluated on the code at `{"Fn:increase:Score": 5}`: the
compilation succeeds, registers `#Score -> Score`, `:Score = 5` and
`:_Zero = 0`, and the clause for `#Score` is
`if_not_exists(Score, :_Zero) + :Score`, with the raw name `Score` where the
claim has the alias `#Score`; the update expression is
`set #Score=if_not_exists(Score, :_Zero) + :Score, #UpdatedTimestamp=:UpdatedTimestamp`.
The same entry one level down, under the parent `a`, does get the alias:
`if_not_exists(#a.#Score, :_Zero) + :a_Score`. -/
theorem C1_increase_clause_has_raw_name :
    (UpdateItem.compile (UpdateItem.propertyMap [("Fn:increase:Score".toList, .int 5)] 0)).2
        = none ∧
      (UpdateItem.compile (UpdateItem.propertyMap [("Fn:increase:Score".toList, .int 5)] 0)).1.names
        = [("#Score".toList, "Score".toList),
            ("#UpdatedTimestamp".toList, "UpdatedTimestamp".toList)] ∧
      (UpdateItem.compile (UpdateItem.propertyMap [("Fn:increase:Score".toList, .int 5)] 0)).1.values
        = [(":_Zero".toList, .int 0), (":Score".toList, .int 5),
            (":UpdatedTimestamp".toList, .time 0)] ∧
      (UpdateItem.compile
          (UpdateItem.propertyMap [("Fn:increase:Score".toList, .int 5)] 0)).1.clauses
        = [("#Score".toList, "if_not_exists(Score, :_Zero) + :Score".toList),
            ("#UpdatedTimestamp".toList, ":UpdatedTimestamp".toList)] ∧
      updateExpression
          (UpdateItem.compile
            (UpdateItem.propertyMap [("Fn:increase:Score".toList, .int 5)] 0)).1.clauses
        = ("set #Score=if_not_exists(Score, :_Zero) + :Score, " ++
            "#UpdatedTimestamp=:UpdatedTimestamp").toList ∧
      (buildExpressionAttributeNamesAndValue none
          [("a".toList, .map [("Fn:increase:Score".toList, .int 5)])] Tables.empty).1.clauses
        = [("#a.#Score".toList, "if_not_exists(#a.#Score, :_Zero) + :a_Score".toList)] := by
  refine ⟨rfl, ?_, rfl, ?_, ?_, ?_⟩ <;> decide

/-- Claim C7, refuted at the enumeration `a = 1`, `Fn:bad:x = 2` from empty
tables: the call returns the unsupported-function error, and the three tables
hold the entries of `a`, which were not there on entry. -/
theorem C7_counterexample :
    (buildExpressionAttributeNamesAndValue none
        [("a".toList, .int 1), ("Fn:bad:x".toList, .int 2)] Tables.empty).2
      = some (.unsupportedFunctionName "Fn:bad:x".toList) ∧
    (buildExpressionAttributeNamesAndValue none
        [("a".toList, .int 1), ("Fn:bad:x".toList, .int 2)] Tables.empty).1.names
      = [("#a".toList, "a".toList)] ∧
    (buildExpressionAttributeNamesAndValue none
        [("a".toList, .int 1), ("Fn:bad:x".toList, .int 2)] Tables.empty).1.values
      = [(":a".toList, .int 1)] ∧
    (buildExpressionAttributeNamesAndValue none
        [("a".toList, .int 1), ("Fn:bad:x".toList, .int 2)] Tables.empty).1.clauses
      = [("#a".toList, ":a".toList)] ∧
    Tables.empty.names = [] ∧ Tables.empty.clauses = [] := by
  refine ⟨?_, ?_, rfl, ?_, rfl, rfl⟩ <;> decide

/-- Claim C7 as amended: when `buildExpressionAttributeNamesAndValue` returns
an error, the tables are those left by the entries enumerated before the
offending key.  If the entries `pre` enumerated first compile without error
to the tables `T1`, then (1) an offending top-level key `k` next in the
enumeration makes the call return an error with the tables `T1`, and (2) an
offending key `c` inside the mapping of a non-function key `p` makes it return
an error with the tables `T2` that `T1`, the alias `#p -> p` and the nested
entries `npre` enumerated before `c` produce.  With nothing enumerated before
the offending key the tables are as on entry. -/
theorem C7_error_keeps_tables_of_earlier_entries (pre post : List (Str × Value))
    (T T1 : Tables) (hpre : buildExpressionAttributeNamesAndValue none pre T = (T1, none)) :
    (∀ k v, malformedFunctionKey k →
        ∃ e, buildExpressionAttributeNamesAndValue none (pre ++ (k, v) :: post) T
          = (T1, some e)) ∧
      (∀ p npre c w npost T2, hasPrefix "Fn:".toList p = false →
        buildExpressionAttributeNamesAndValue (some [p]) npre
            { T1 with names := mapSet T1.names ("#".toList ++ p) p } = (T2, none) →
        malformedFunctionKey c →
        ∃ e, buildExpressionAttributeNamesAndValue none
            (pre ++ (p, .map (npre ++ (c, w) :: npost)) :: post) T = (T2, some e)) := by
  constructor
  · intro k v hk
    obtain ⟨e, he⟩ := buildEntry_malformed none k v T1 hk
    exact ⟨e, by rw [build_append none pre _ T T1 hpre, build_cons_error none k v post T1 T1 e he]⟩
  · intro p npre c w npost T2 hp hnpre hc
    obtain ⟨e, he⟩ := buildEntry_malformed (some [p]) c w T2 hc
    refine ⟨e, ?_⟩
    rw [build_append none pre _ T T1 hpre]
    apply build_cons_error
    rw [buildEntry_top_map p _ T1 hp, build_append (some [p]) npre _ _ T2 hnpre]
    exact build_cons_error (some [p]) c w npost T2 T2 e he

/-- Witness of the amended claim C7: after the entry `a = 1`, the offending
key `Fn:bad:x` returns an error with the tables of `a`. -/
theorem C7_error_keeps_tables_of_earlier_entries_witness :
    ∃ e, buildExpressionAttributeNamesAndValue none
        ([("a".toList, Value.int 1)] ++ ("Fn:bad:x".toList, Value.int 2) :: []) Tables.empty
      = (⟨[("#a".toList, "a".toList)], [(":a".toList, .int 1)], [("#a".toList, ":a".toList)]⟩,
          some e) :=
  (C7_error_keeps_tables_of_earlier_entries [("a".toList, Value.int 1)] [] Tables.empty
    ⟨[("#a".toList, "a".toList)], [(":a".toList, .int 1)], [("#a".toList, ":a".toList)]⟩
    rfl).1 "Fn:bad:x".toList (.int 2) (by decide)

theorem mapKeys_mapSet {α : Type} (m : GoMap α) (k : Str) (v : α) :
    mapKeys (mapSet m k v) = keyInsert (mapKeys m) k := by
  induction m with
  | nil => simp [mapSet, mapKeys, keyInsert]
  | cons kv t ih =>
    obtain ⟨k1, v1⟩ := kv
    unfold mapKeys keyInsert at *
    rw [mapSet]
    by_cases h : k1 = k
    · subst h
      simp only [if_true, List.map_cons, List.mem_cons, true_or]
    · have h2 : ¬ k = k1 := fun e => h e.symm
      simp only [h, if_false, List.map_cons, List.mem_cons, h2, false_or, ih]
      split_ifs <;> simp

theorem foldl_keyInsert_nodup (ks new : List Str) (h : (ks ++ new).Nodup) :
    new.foldl keyInsert ks = ks ++ new := by
  induction new generalizing ks with
  | nil => simp
  | cons a t ih =>
    have ha : a ∉ ks := by
      intro hm
      have := List.nodup_append.mp h
      exact this.2.2 hm (List.mem_cons_self a t)
    rw [List.foldl_cons]
    have hk : keyInsert ks a = ks ++ [a] := by simp [keyInsert, ha]
    rw [hk, ih (ks ++ [a]) (by simpa using h)]
    simp

theorem leafCount_eq_length (spec : List (Str × Value)) :
    leafCount spec = (clauseKeys spec).length := by
  unfold leafCount clauseKeys
  induction spec with
  | nil => rfl
  | cons kv t ih =>
    obtain ⟨k, v⟩ := kv
    simp only [List.map_cons, List.sum_cons, List.flatMap_cons, List.length_append, ih]
    cases v <;> simp [entryClauseKeys]

theorem buildEntry_nested_plain (p k : Str) (v : Value) (T : Tables)
    (hk : hasPrefix "Fn:".toList k = false) :
    (buildEntry (some [p]) k v T).2 = none ∧
      mapKeys (buildEntry (some [p]) k v T).1.clauses =
        keyInsert (mapKeys T.clauses) ("#".toList ++ p ++ ".#".toList ++ k) := by
  have hkey : "#".toList ++ joinWith ".#".toList ([p] ++ [k]) =
      "#".toList ++ p ++ ".#".toList ++ k := by
    simp [joinWith]
  rw [buildEntry]
  simp only [hk, Bool.false_eq_true, if_false]
  cases v <;>
    simp only [List.length_singleton, le_refl, if_true, buildLabel, hkey, mapKeys_mapSet,
      and_self]

theorem build_nested_plain (p : Str) (m : List (Str × Value)) (T : Tables)
    (hm : ∀ kv ∈ m, hasPrefix "Fn:".toList kv.1 = false) :
    (buildExpressionAttributeNamesAndValue (some [p]) m T).2 = none ∧
      mapKeys (buildExpressionAttributeNamesAndValue (some [p]) m T).1.clauses =
        (m.map fun c => "#".toList ++ p ++ ".#".toList ++ c.1).foldl keyInsert
          (mapKeys T.clauses) := by
  induction m generalizing T with
  | nil => simp [buildExpressionAttributeNamesAndValue]
  | cons kv t ih =>
    obtain ⟨k, v⟩ := kv
    have hk := hm (k, v) (List.mem_cons_self _ _)
    have ht : ∀ kv ∈ t, hasPrefix "Fn:".toList kv.1 = false :=
      fun kv h => hm kv (List.mem_cons_of_mem _ h)
    obtain ⟨h1, h2⟩ := buildEntry_nested_plain p k v T hk
    rw [buildExpressionAttributeNamesAndValue]
    rcases hr : buildEntry (some [p]) k v T with ⟨T1, _ | e⟩
    · rw [hr] at h2
      obtain ⟨i1, i2⟩ := ih T1 ht
      refine ⟨i1, ?_⟩
      rw [i2, List.map_cons, List.foldl_cons]
      dsimp only at h2 ⊢
      rw [h2]
    · rw [hr] at h1
      cases h1

theorem buildEntry_top_plain (k : Str) (v : Value) (T : Tables)
    (hk : hasPrefix "Fn:".toList k = false)
    (hv : ∀ m, v = Value.map m → ∀ kv2 ∈ m, hasPrefix "Fn:".toList kv2.1 = false) :
    (buildEntry none k v T).2 = none ∧
      mapKeys (buildEntry none k v T).1.clauses =
        (entryClauseKeys (k, v)).foldl keyInsert (mapKeys T.clauses) := by
  cases v with
  | map m =>
    rw [buildEntry_top_map k m T hk]
    exact build_nested_plain k m _ (hv m rfl)
  | _ =>
    rw [buildEntry]
    simp only [hk, Bool.false_eq_true, if_false, buildLabel, mapKeys_mapSet, entryClauseKeys,
      List.foldl_cons, List.foldl_nil, and_self]

theorem build_top_plain (es : List (Str × Value)) (T : Tables) (hfn : noFunctionKey es) :
    (buildExpressionAttributeNamesAndValue none es T).2 = none ∧
      mapKeys (buildExpressionAttributeNamesAndValue none es T).1.clauses =
        (clauseKeys es).foldl keyInsert (mapKeys T.clauses) := by
  induction es generalizing T with
  | nil => simp [buildExpressionAttributeNamesAndValue, clauseKeys]
  | cons kv t ih =>
    obtain ⟨k, v⟩ := kv
    have hkv := hfn (k, v) (List.mem_cons_self _ _)
    have ht : noFunctionKey t := fun kv h => hfn kv (List.mem_cons_of_mem _ h)
    obtain ⟨h1, h2⟩ := buildEntry_top_plain k v T hkv.1 hkv.2
    rw [buildExpressionAttributeNamesAndValue]
    rcases hr : buildEntry none k v T with ⟨T1, _ | e⟩
    · rw [hr] at h2
      obtain ⟨i1, i2⟩ := ih T1 ht
      refine ⟨i1, ?_⟩
      dsimp only at h2 ⊢
      rw [i2, h2]
      unfold clauseKeys
      rw [List.flatMap_cons, List.foldl_append]
    · rw [hr] at h1
      cases h1

theorem mapSet_of_not_mem {α : Type} (m : GoMap α) (k : Str) (v : α) (h : k ∉ mapKeys m) :
    mapSet m k v = m ++ [(k, v)] := by
  induction m with
  | nil => rfl
  | cons kv t ih =>
    obtain ⟨k1, v1⟩ := kv
    unfold mapKeys at h ih
    simp only [List.map_cons, List.mem_cons, not_or] at h
    have h1 : ¬ k1 = k := fun e => h.1 e.symm
    rw [mapSet]
    simp only [h1, if_false, List.cons_append, ih h.2]

/-- Claim C10, refuted at the spec `{"UpdatedTimestamp": 5}`: it has one
top-level entry that is not a mapping, so the claimed count is two, and
`UpdateItem` builds one clause, `#UpdatedTimestamp=:UpdatedTimestamp` (the
timestamp assignment overwrites the entry of the caller). -/
theorem C10_counterexample :
    leafCount [("UpdatedTimestamp".toList, Value.int 5)] + 1 = 2 ∧
      (UpdateItem.compile
          (UpdateItem.propertyMap [("UpdatedTimestamp".toList, Value.int 5)] 0)).1.clauses
        = [("#UpdatedTimestamp".toList, ":UpdatedTimestamp".toList)] ∧
      ((UpdateItem.compile
          (UpdateItem.propertyMap [("UpdatedTimestamp".toList, Value.int 5)] 0)).1.clauses.map
          fun kv => kv.1 ++ "=".toList ++ kv.2).length = 1 := by
  refine ⟨rfl, ?_, ?_⟩ <;> decide

/-- Claim C10 as amended: for every update spec that contains no
function-tagged key, has no top-level key `UpdatedTimestamp`, and whose leaf
paths, the timestamp included, have pairwise distinct clause keys (`#k` for a
top-level leaf, `#p.#c` for a child of a mapping), and for every enumeration
`es` of the property map, the compilation succeeds and the number of
comma-joined clauses of the `set` expression equals the number of top-level
entries whose value is not a mapping, plus the number of entries of each
top-level mapping, plus one for the timestamp clause. -/
theorem C10_clause_count (spec : List (Str × Value)) (now : Nat) (es : List (Str × Value))
    (hes : es.Perm (UpdateItem.propertyMap spec now))
    (hfn : noFunctionKey spec)
    (hts : "UpdatedTimestamp".toList ∉ mapKeys spec)
    (hnd : (clauseKeys (UpdateItem.propertyMap spec now)).Nodup) :
    (UpdateItem.compile es).2 = none ∧
      ((UpdateItem.compile es).1.clauses.map fun kv => kv.1 ++ "=".toList ++ kv.2).length
        = leafCount spec + 1 := by
  have hpm : UpdateItem.propertyMap spec now =
      spec ++ [("UpdatedTimestamp".toList, Value.time now)] :=
    mapSet_of_not_mem spec _ _ hts
  have hfn2 : noFunctionKey es := by
    intro kv hkv
    have hmem := hes.mem_iff.mp hkv
    rw [hpm, List.mem_append] at hmem
    rcases hmem with h | h
    · exact hfn kv h
    · rw [List.mem_singleton] at h
      subst h
      exact ⟨by show hasPrefix "Fn:".toList "UpdatedTimestamp".toList = false; decide,
        fun m hm => by cases hm⟩
  obtain ⟨h1, h2⟩ := build_top_plain es Tables.empty hfn2
  have hperm : (clauseKeys es).Perm (clauseKeys (UpdateItem.propertyMap spec now)) :=
    List.Perm.flatMap_right _ hes
  have hnd2 : (clauseKeys es).Nodup := hperm.symm.nodup hnd
  refine ⟨h1, ?_⟩
  have hlen : (UpdateItem.compile es).1.clauses.length = (clauseKeys es).length := by
    have := congrArg List.length h2
    rw [foldl_keyInsert_nodup _ _ (by simpa [Tables.empty, mapKeys] using hnd2)] at this
    simpa [mapKeys, Tables.empty] using this
  rw [List.length_map, hlen, hperm.length_eq, hpm, ← leafCount_eq_length]
  simp [leafCount]

/-- Witness of the amended claim C10: the spec `{"a": 1, "b": {"c": 2, "d": 3}}`
enumerated with the timestamp first has four clauses. -/
theorem C10_clause_count_witness :
    (UpdateItem.compile
        [("UpdatedTimestamp".toList, Value.time 0), ("a".toList, Value.int 1),
          ("b".toList, Value.map [("c".toList, .int 2), ("d".toList, .int 3)])]).2 = none ∧
      ((UpdateItem.compile
        [("UpdatedTimestamp".toList, Value.time 0), ("a".toList, Value.int 1),
          ("b".toList, Value.map [("c".toList, .int 2), ("d".toList, .int 3)])]).1.clauses.map
          fun kv => kv.1 ++ "=".toList ++ kv.2).length
        = leafCount [("a".toList, Value.int 1),
            ("b".toList, Value.map [("c".toList, .int 2), ("d".toList, .int 3)])] + 1 :=
  C10_clause_count
    [("a".toList, Value.int 1),
      ("b".toList, Value.map [("c".toList, .int 2), ("d".toList, .int 3)])] 0
    [("UpdatedTimestamp".toList, Value.time 0), ("a".toList, Value.int 1),
      ("b".toList, Value.map [("c".toList, .int 2), ("d".toList, .int 3)])]
    (by
      show List.Perm _ ([("a".toList, Value.int 1),
        ("b".toList, Value.map [("c".toList, .int 2), ("d".toList, .int 3)])] ++
          [("UpdatedTimestamp".toList, Value.time 0)])
      exact @List.perm_append_comm _ [("UpdatedTimestamp".toList, Value.time 0)] _)
    (by
      intro kv hkv
      simp only [List.mem_cons, List.mem_singleton, List.not_mem_nil, or_false] at hkv
      rcases hkv with h | h
      · subst h
        exact ⟨by decide, fun m hm => by cases hm⟩
      · subst h
        refine ⟨by decide, fun m hm kv2 hkv2 => ?_⟩
        cases hm
        simp only [List.mem_cons, List.mem_singleton, List.not_mem_nil, or_false] at hkv2
        rcases hkv2 with h | h <;> subst h <;> decide)
    (by decide) (by decide)

/-! ## Key-condition compiler -/

theorem splitOn_eq (sep : Char) (s : Str) :
    splitOn sep s = (s.takeWhile fun c => decide (c ≠ sep)) ::
      (match s.dropWhile fun c => decide (c ≠ sep) with
        | [] => []
        | _ :: r => splitOn sep r) := by
  induction s with
  | nil => rfl
  | cons c cs ih =>
    rw [splitOn]
    by_cases h : c = sep
    · simp [h]
    · rw [ih]
      simp [h]

theorem dropWhile_ne_of_mem (sep : Char) (s : Str) (h : sep ∈ s) :
    ∃ r, (s.dropWhile fun c => decide (c ≠ sep)) = sep :: r := by
  induction s with
  | nil => cases h
  | cons c cs ih =>
    by_cases hc : c = sep
    · exact ⟨cs, by simp [hc]⟩
    · have : sep ∈ cs := by
        rcases List.mem_cons.mp h with h1 | h1
        · exact absurd h1.symm hc
        · exact h1
      obtain ⟨r, hr⟩ := ih this
      exact ⟨r, by simpa [hc] using hr⟩

theorem splitOn_slash (sk : Str) (h : containsChar sk '/' = true) :
    (splitOn '/' sk)[0]? = some (beforeSlash sk) ∧
      (splitOn '/' sk)[1]? = some (betweenSlashes sk) := by
  have hmem : '/' ∈ sk := by simpa [containsChar] using h
  obtain ⟨r, hr⟩ := dropWhile_ne_of_mem '/' sk hmem
  have hafter : afterSlash sk = r := by
    unfold afterSlash
    rw [hr]
    rfl
  rw [splitOn_eq '/' sk, hr]
  dsimp only
  rw [splitOn_eq '/' r]
  simp [betweenSlashes, hafter, beforeSlash]

theorem rangeValues_eq (sk : Str) (values : GoMap AttributeValue)
    (h : containsChar sk '/' = true) :
    GetListItem.rangeValues sk values =
      some (mapSet (mapSet values ":from".toList (.S (beforeSlash sk))) ":to".toList
        (.S (betweenSlashes sk))) := by
  unfold GetListItem.rangeValues
  obtain ⟨h0, h1⟩ := splitOn_slash sk h
  simp only [h0, h1]

theorem rangeValues_initial (sk pk : Str) (h : containsChar sk '/' = true) :
    GetListItem.rangeValues sk (mapSet [] ":gsipk".toList (.S pk)) =
      some [(":gsipk".toList, .S pk), (":from".toList, .S (beforeSlash sk)),
        (":to".toList, .S (betweenSlashes sk))] := by
  rw [rangeValues_eq sk _ h]
  rfl

theorem rangeValues_again (sk pk : Str) (h : containsChar sk '/' = true) :
    GetListItem.rangeValues sk
        [(":gsipk".toList, .S pk), (":from".toList, .S (beforeSlash sk)),
          (":to".toList, .S (betweenSlashes sk))] =
      some [(":gsipk".toList, .S pk), (":from".toList, .S (beforeSlash sk)),
        (":to".toList, .S (betweenSlashes sk))] := by
  rw [rangeValues_eq sk _ h]
  rfl

/-- Claim C3: for every Key with PK and IndexName `I` present and an SK that
contains `/`, and for every Condition (absent, supported or unrecognised), the
key condition `GetListItem` builds is exactly
`#IPK = :gsipk and #ISK BETWEEN :from AND :to`, and the value table is exactly
`:gsipk` = PK, `:from` = the SK text before the first `/`, `:to` = the SK text
between the first `/` and the next `/` (or the end of SK), with no `:gsisk`. -/
theorem C3_range_key_condition (pk sk index : Str) (condition : Option Str)
    (h : containsChar sk '/' = true) :
    (GetListItem.keyCondition ⟨some pk, some sk, some index, condition⟩).map
        (fun r => (r.expression, r.values)) =
      some ("#".toList ++ index ++ "PK = :gsipk and #".toList ++ index ++
          "SK BETWEEN :from AND :to".toList,
        [(":gsipk".toList, .S pk), (":from".toList, .S (beforeSlash sk)),
          (":to".toList, .S (betweenSlashes sk))]) := by
  unfold GetListItem.keyCondition
  simp only [h, if_true, rangeValues_initial sk pk h, Option.map_some']
  cases condition with
  | none => rfl
  | some c =>
    simp only [rangeValues_again sk pk h, Option.map_some', ite_self]

/-- Witness of claim C3: `SK = "2024-01-01/2024-12-31"` without a Condition
compiles to the BETWEEN clause with `:from` and `:to` the two dates. -/
theorem C3_range_key_condition_witness :
    (GetListItem.keyCondition
        ⟨some "P".toList, some "2024-01-01/2024-12-31".toList, some "GSI1".toList, none⟩).map
        (fun r => (r.expression, r.values)) =
      some ("#".toList ++ "GSI1".toList ++ "PK = :gsipk and #".toList ++ "GSI1".toList ++
          "SK BETWEEN :from AND :to".toList,
        [(":gsipk".toList, .S "P".toList),
          (":from".toList, .S (beforeSlash "2024-01-01/2024-12-31".toList)),
          (":to".toList, .S (betweenSlashes "2024-01-01/2024-12-31".toList))]) ∧
      beforeSlash "2024-01-01/2024-12-31".toList = "2024-01-01".toList ∧
      betweenSlashes "2024-01-01/2024-12-31".toList = "2024-12-31".toList :=
  ⟨C3_range_key_condition "P".toList "2024-01-01/2024-12-31".toList "GSI1".toList none
    (by decide), by decide, by decide⟩

/-- Claim C4: for every Key with PK, IndexName `I` and SK present, the key
condition `getItemViaGsi` builds is `IPK = :gsipk and <clause>` with the value
table `:gsipk` = PK, `:gsisk` = SK, where an explicit Condition `equal`,
`more_than`, `less_than`, `more_than_equal`, `less_than_equal`, `begins`
gives the clause `ISK = :gsisk`, `ISK > :gsisk`, `ISK < :gsisk`,
`ISK >= :gsisk`, `ISK <= :gsisk`, `begins_with(ISK, :gsisk)` whatever the
shape of SK, and an absent Condition gives `begins_with(ISK, :gsisk)` when SK
ends with `#` and `ISK = :gsisk` otherwise.  (It holds for every SK, so also
for those without `/`.) -/
theorem C4_gsi_key_condition (pk sk index : Str) :
    getItemViaGsi.keyCondition ⟨some pk, some sk, some index, some "equal".toList⟩ =
        some (index ++ "PK = :gsipk and ".toList ++ index ++ "SK = :gsisk".toList,
          [(":gsipk".toList, .S pk), (":gsisk".toList, .S sk)]) ∧
      getItemViaGsi.keyCondition ⟨some pk, some sk, some index, some "more_than".toList⟩ =
        some (index ++ "PK = :gsipk and ".toList ++ index ++ "SK > :gsisk".toList,
          [(":gsipk".toList, .S pk), (":gsisk".toList, .S sk)]) ∧
      getItemViaGsi.keyCondition ⟨some pk, some sk, some index, some "less_than".toList⟩ =
        some (index ++ "PK = :gsipk and ".toList ++ index ++ "SK < :gsisk".toList,
          [(":gsipk".toList, .S pk), (":gsisk".toList, .S sk)]) ∧
      getItemViaGsi.keyCondition ⟨some pk, some sk, some index, some "more_than_equal".toList⟩ =
        some (index ++ "PK = :gsipk and ".toList ++ index ++ "SK >= :gsisk".toList,
          [(":gsipk".toList, .S pk), (":gsisk".toList, .S sk)]) ∧
      getItemViaGsi.keyCondition ⟨some pk, some sk, some index, some "less_than_equal".toList⟩ =
        some (index ++ "PK = :gsipk and ".toList ++ index ++ "SK <= :gsisk".toList,
          [(":gsipk".toList, .S pk), (":gsisk".toList, .S sk)]) ∧
      getItemViaGsi.keyCondition ⟨some pk, some sk, some index, some "begins".toList⟩ =
        some (index ++ "PK = :gsipk and begins_with(".toList ++ index ++ "SK, :gsisk)".toList,
          [(":gsipk".toList, .S pk), (":gsisk".toList, .S sk)]) ∧
      (hasSuffix sk "#".toList = true →
        getItemViaGsi.keyCondition ⟨some pk, some sk, some index, none⟩ =
          some (index ++ "PK = :gsipk and begins_with(".toList ++ index ++ "SK, :gsisk)".toList,
            [(":gsipk".toList, .S pk), (":gsisk".toList, .S sk)])) ∧
      (hasSuffix sk "#".toList = false →
        getItemViaGsi.keyCondition ⟨some pk, some sk, some index, none⟩ =
          some (index ++ "PK = :gsipk and ".toList ++ index ++ "SK = :gsisk".toList,
            [(":gsipk".toList, .S pk), (":gsisk".toList, .S sk)])) := by
  refine ⟨rfl, rfl, rfl, rfl, rfl, rfl, fun h => ?_, fun h => ?_⟩
  · unfold getItemViaGsi.keyCondition
    simp only [h, if_true]
    rfl
  · unfold getItemViaGsi.keyCondition
    simp only [h, Bool.false_eq_true, if_false]
    rfl

/-- Witness of claim C4: `IndexName = "GSI2"`, `SK = "A#"`, no Condition gives
`GSI2PK = :gsipk and begins_with(GSI2SK, :gsisk)`. -/
theorem C4_gsi_key_condition_witness :
    getItemViaGsi.keyCondition ⟨some "P".toList, some "A#".toList, some "GSI2".toList, none⟩ =
      some ("GSI2PK = :gsipk and begins_with(GSI2SK, :gsisk)".toList,
        [(":gsipk".toList, .S "P".toList), (":gsisk".toList, .S "A#".toList)]) :=
  (C4_gsi_key_condition "P".toList "A#".toList "GSI2".toList).2.2.2.2.2.2.1 (by decide)

/-- Claim C5, refuted at the Key with `SK = "A"`, `IndexName = "GSI1"` and the
unrecognised `Condition = "around"`: both compilers return a key condition,
the equality clause inferred from the shape of SK, and no error. -/
theorem C5_counterexample :
    getItemViaGsi.keyCondition
        ⟨some "P".toList, some "A".toList, some "GSI1".toList, some "around".toList⟩ =
      some ("GSI1PK = :gsipk and GSI1SK = :gsisk".toList,
        [(":gsipk".toList, .S "P".toList), (":gsisk".toList, .S "A".toList)]) ∧
    GetListItem.keyCondition
        ⟨some "P".toList, some "A".toList, some "GSI1".toList, some "around".toList⟩ =
      some ⟨"#GSI1PK = :gsipk and #GSI1SK = :gsisk".toList,
        [(":gsipk".toList, .S "P".toList), (":gsisk".toList, .S "A".toList)],
        [("#GSI1PK".toList, "GSI1PK".toList), ("#GSI1SK".toList, "GSI1SK".toList)]⟩ ∧
    "around".toList ∉ supportedConditions := by
  refine ⟨?_, ?_, ?_⟩ <;> decide

/-- Claim C5 as amended: for every Key with PK, IndexName and SK present whose
Condition is present and is not one of `equal`, `more_than`, `less_than`,
`more_than_equal`, `less_than_equal`, `begins`, `between`, key-condition
compilation raises no error: `getItemViaGsi` and `GetListItem` each return
exactly the expression and the tables they return for the same Key without a
Condition (the clause inferred from the shape of SK). -/
theorem C5_unrecognised_condition_is_ignored (pk sk index c : Str)
    (hc : c ∉ supportedConditions) :
    getItemViaGsi.keyCondition ⟨some pk, some sk, some index, some c⟩ =
        getItemViaGsi.keyCondition ⟨some pk, some sk, some index, none⟩ ∧
      (getItemViaGsi.keyCondition ⟨some pk, some sk, some index, some c⟩).isSome = true ∧
      GetListItem.keyCondition ⟨some pk, some sk, some index, some c⟩ =
        GetListItem.keyCondition ⟨some pk, some sk, some index, none⟩ ∧
      (GetListItem.keyCondition ⟨some pk, some sk, some index, some c⟩).isSome = true := by
  unfold supportedConditions at hc
  simp only [List.mem_cons, List.mem_singleton, List.not_mem_nil, or_false, not_or] at hc
  obtain ⟨h1, h2, h3, h4, h5, h6, h7⟩ := hc
  have hg : getItemViaGsi.keyCondition ⟨some pk, some sk, some index, some c⟩ =
      getItemViaGsi.keyCondition ⟨some pk, some sk, some index, none⟩ := by
    unfold getItemViaGsi.keyCondition
    simp only [h1, h2, h3, h4, h5, h6, if_false]
    rfl
  have hl : GetListItem.keyCondition ⟨some pk, some sk, some index, some c⟩ =
      GetListItem.keyCondition ⟨some pk, some sk, some index, none⟩ ∧
      (GetListItem.keyCondition ⟨some pk, some sk, some index, none⟩).isSome = true := by
    unfold GetListItem.keyCondition
    by_cases hs : containsChar sk '/' = true
    · simp only [hs, if_true, rangeValues_initial sk pk hs, Option.map_some',
        rangeValues_again sk pk hs, h7, if_false]
      constructor <;> first | rfl | trivial
    · simp only [hs, Bool.false_eq_true, if_false, h1, h2, h3, h4, h5, h6]
      constructor <;> rfl
  refine ⟨hg, ?_, hl.1, ?_⟩
  · rw [hg]
    rfl
  · rw [hl.1]
    exact hl.2

/-- Witness of the amended claim C5: the Condition `around` changes nothing. -/
theorem C5_unrecognised_condition_is_ignored_witness :
    getItemViaGsi.keyCondition
        ⟨some "P".toList, some "A#".toList, some "GSI1".toList, some "around".toList⟩ =
      getItemViaGsi.keyCondition ⟨some "P".toList, some "A#".toList, some "GSI1".toList, none⟩ ∧
    GetListItem.keyCondition
        ⟨some "P".toList, some "A#".toList, some "GSI1".toList, some "around".toList⟩ =
      GetListItem.keyCondition ⟨some "P".toList, some "A#".toList, some "GSI1".toList, none⟩ :=
  ⟨(C5_unrecognised_condition_is_ignored "P".toList "A#".toList "GSI1".toList
      "around".toList (by decide)).1,
    (C5_unrecognised_condition_is_ignored "P".toList "A#".toList "GSI1".toList
      "around".toList (by decide)).2.2.1⟩

/-! ## Result handling of `GetListItem` -/

/-- Claim C8: given a query response `(items, lastEvaluatedKey)`, the result
handling of `GetListItem` raises the item-not-found error if and only if
`items` is empty and `lastEvaluatedKey` is absent; an empty page with a
present `lastEvaluatedKey` never raises it; and, the SDK decoder
`attributevalue.UnmarshalMap` accepting the response's key, the cursor
returned to the caller is present if and only if the response's
`lastEvaluatedKey` is present. -/
theorem C8_not_found_iff_empty_and_no_cursor
    (unmarshalMap : GoMap AttributeValue → Except Str (GoMap Value))
    (items : List (GoMap AttributeValue)) (lastEvaluatedKey : Option (GoMap AttributeValue)) :
    ((GetListItem.handleOutput unmarshalMap items lastEvaluatedKey).err = some .itemNotFound ↔
        items = [] ∧ lastEvaluatedKey = none) ∧
      (lastEvaluatedKey.isSome = true →
        (GetListItem.handleOutput unmarshalMap [] lastEvaluatedKey).err ≠ some .itemNotFound) ∧
      ((∀ k, lastEvaluatedKey = some k → ∃ c, unmarshalMap k = .ok c) →
        ((GetListItem.handleOutput unmarshalMap items lastEvaluatedKey).lastEvaluatedKey.isSome
            = true ↔ lastEvaluatedKey.isSome = true)) := by
  unfold GetListItem.handleOutput
  refine ⟨?_, ?_, ?_⟩
  · cases lastEvaluatedKey with
    | none => cases items <;> simp
    | some k => cases h : unmarshalMap k <;> simp [h]
  · intro hk
    cases lastEvaluatedKey with
    | none => cases hk
    | some k => cases h : unmarshalMap k <;> simp [h]
  · intro hdec
    cases lastEvaluatedKey with
    | none => cases items <;> simp
    | some k =>
      obtain ⟨c, hc⟩ := hdec k rfl
      simp [hc]

/-- Witness of claim C8: an empty page with the cursor `{"PK": "P"}` raises no
error and returns a cursor. -/
theorem C8_not_found_iff_empty_and_no_cursor_witness :
    (GetListItem.handleOutput (fun _ => .ok [("PK".toList, Value.str "P".toList)]) []
        (some [("PK".toList, .S "P".toList)])).err ≠ some .itemNotFound ∧
      ((GetListItem.handleOutput (fun _ => .ok [("PK".toList, Value.str "P".toList)]) []
        (some [("PK".toList, .S "P".toList)])).lastEvaluatedKey.isSome = true ↔
        (some [("PK".toList, AttributeValue.S "P".toList)]).isSome = true) :=
  ⟨(C8_not_found_iff_empty_and_no_cursor _ [] _).2.1 rfl,
    (C8_not_found_iff_empty_and_no_cursor _ [] _).2.2 (fun _ _ => ⟨_, rfl⟩)⟩

/-! ## Records -/

theorem decodeRune_encode (c : Char) (rest : Bytes) :
    decodeRune (utf8EncodeChar c ++ rest) = (c, (utf8EncodeChar c).length) := by
  have hv := c.valid
  have hc : Char.ofNat c.toNat = c := Char.ofNat_toNat c
  unfold utf8EncodeChar
  dsimp only
  generalize hn : c.toNat = v at *
  have hvalid : v < 0xD800 ∨ (0xDFFF < v ∧ v < 0x110000) := by
    rw [← hn]
    exact hv
  by_cases h1 : v < 0x80
  · simp only [h1, if_true, List.singleton_append, decodeRune, List.length_singleton]
    rw [hc]
  · by_cases h2 : v < 0x800
    · have hb0 : ¬ (0xC0 + v / 64 < 0x80) := by omega
      have hb1 : ¬ (0xC0 + v / 64 < 0xC2) := by omega
      have hb2 : 0xC0 + v / 64 < 0xE0 := by omega
      have hcont : isContinuation (0x80 + v % 64) = true := by
        unfold isContinuation
        rw [decide_eq_true_eq]
        omega
      have hval : (0xC0 + v / 64) % 32 * 64 + (0x80 + v % 64) % 64 = v := by omega
      simp only [h1, h2, if_true, if_false, List.cons_append, List.nil_append, decodeRune, hb0,
        hb1, hb2, hcont, hval, List.length_cons, List.length_nil]
      rw [hc]
    · by_cases h3 : v < 0x10000
      · have hb0 : ¬ (0xE0 + v / 4096 < 0x80) := by omega
        have hb1 : ¬ (0xE0 + v / 4096 < 0xC2) := by omega
        have hb2 : ¬ (0xE0 + v / 4096 < 0xE0) := by omega
        have hb3 : 0xE0 + v / 4096 < 0xF0 := by omega
        have hlo : (if 0xE0 + v / 4096 = 0xE0 then 0xA0 else 0x80) ≤ 0x80 + v / 64 % 64 := by
          split_ifs <;> omega
        have hhi : 0x80 + v / 64 % 64 ≤ (if 0xE0 + v / 4096 = 0xED then 0x9F else 0xBF) := by
          split_ifs <;> omega
        have hcont : isContinuation (0x80 + v % 64) = true := by
          unfold isContinuation
          rw [decide_eq_true_eq]
          omega
        have hval : (0xE0 + v / 4096) % 16 * 4096 + (0x80 + v / 64 % 64) % 64 * 64 +
            (0x80 + v % 64) % 64 = v := by omega
        simp only [h1, h2, h3, if_true, if_false, List.cons_append, List.nil_append, decodeRune,
          hb0, hb1, hb2, hb3, hlo, hhi, hcont, hval, and_self, List.length_cons,
          List.length_nil]
        rw [hc]
      · have hb0 : ¬ (0xF0 + v / 262144 < 0x80) := by omega
        have hb1 : ¬ (0xF0 + v / 262144 < 0xC2) := by omega
        have hb2 : ¬ (0xF0 + v / 262144 < 0xE0) := by omega
        have hb3 : ¬ (0xF0 + v / 262144 < 0xF0) := by omega
        have hb4 : 0xF0 + v / 262144 < 0xF5 := by omega
        have hlo : (if 0xF0 + v / 262144 = 0xF0 then 0x90 else 0x80) ≤
            0x80 + v / 4096 % 64 := by
          split_ifs <;> omega
        have hhi : 0x80 + v / 4096 % 64 ≤
            (if 0xF0 + v / 262144 = 0xF4 then 0x8F else 0xBF) := by
          split_ifs <;> omega
        have hcont2 : isContinuation (0x80 + v / 64 % 64) = true := by
          unfold isContinuation
          rw [decide_eq_true_eq]
          omega
        have hcont3 : isContinuation (0x80 + v % 64) = true := by
          unfold isContinuation
          rw [decide_eq_true_eq]
          omega
        have hval : (0xF0 + v / 262144) % 8 * 262144 + (0x80 + v / 4096 % 64) % 64 * 4096 +
            (0x80 + v / 64 % 64) % 64 * 64 + (0x80 + v % 64) % 64 = v := by omega
        simp only [h1, h2, h3, if_true, if_false, List.cons_append, List.nil_append, decodeRune,
          hb0, hb1, hb2, hb3, hb4, hlo, hhi, hcont2, hcont3, hval, and_self, List.length_cons,
          List.length_nil]
        rw [hc]

theorem utf8EncodeChar_length_pos (c : Char) : 0 < (utf8EncodeChar c).length := by
  unfold utf8EncodeChar
  dsimp only
  split_ifs <;> simp

theorem toValidFuel_encode (s : Str) :
    ∀ fuel, (utf8Encode s).length ≤ fuel → toValidFuel fuel (utf8Encode s) = s := by
  induction s with
  | nil =>
    intro fuel _
    cases fuel <;> rfl
  | cons c s ih =>
    intro fuel hf
    have henc : utf8Encode (c :: s) = utf8EncodeChar c ++ utf8Encode s := by
      unfold utf8Encode
      rw [List.flatMap_cons]
    rw [henc] at hf ⊢
    have hpos := utf8EncodeChar_length_pos c
    rw [List.length_append] at hf
    obtain ⟨f, rfl⟩ : ∃ f, fuel = f + 1 := ⟨fuel - 1, by omega⟩
    have hstep : toValidFuel (f + 1) (utf8EncodeChar c ++ utf8Encode s) =
        (decodeRune (utf8EncodeChar c ++ utf8Encode s)).1 ::
          toValidFuel f ((utf8EncodeChar c ++ utf8Encode s).drop
            (decodeRune (utf8EncodeChar c ++ utf8Encode s)).2) := by
      cases h : utf8EncodeChar c ++ utf8Encode s with
      | nil =>
        have := congrArg List.length h
        rw [List.length_append, List.length_nil] at this
        omega
      | cons b t => rfl
    rw [hstep, decodeRune_encode]
    dsimp only
    rw [List.drop_left, ih f (by omega)]

theorem toValidUTF8_encode (s : Str) : toValidUTF8 (utf8Encode s) = s :=
  toValidFuel_encode s _ (Nat.le_refl _)

theorem toValidUTF8_of_valid (b : Bytes) (h : validUTF8 b) :
    utf8Encode (toValidUTF8 b) = b := by
  obtain ⟨s, rfl⟩ := h
  rw [toValidUTF8_encode]

theorem round_trip_bind (Z : Zones) (r : Test) (hz : hiddenFieldsZero r)
    (hs : visibleStringsValid r)
    (hc : plainUtcTime r.DynamoDbMetaData.CreatedTimestamp)
    (hu : plainUtcTime r.DynamoDbMetaData.UpdatedTimestamp) :
    (Marshal Z r).bind (fun doc => Unmarshal Z doc Test.zero) = some r := by
  obtain ⟨⟨i, id, pk, sk, a1, a2, b1, b2, c1, c2, d1, d2, e1, e2, ct, ut⟩, n, d, tn⟩ := r
  obtain ⟨h0, h1, h2, h3, h4, h5, h6, h7, h8, h9, h10, h11, h12⟩ := hz
  obtain ⟨⟨sid, hid⟩, ⟨sn, hn⟩, ⟨sd, hd⟩, ⟨stn, htn⟩⟩ := hs
  dsimp only at h0 h1 h2 h3 h4 h5 h6 h7 h8 h9 h10 h11 h12 hc hu hid hn hd htn
  subst h0 h1 h2 h3 h4 h5 h6 h7 h8 h9 h10 h11 h12 hid hn hd htn
  cases ct with
  | none =>
    cases ut with
    | none =>
      by_cases hid : utf8Encode sid = []
      · simp only [Marshal, timeMember, hid, if_true, toValidUTF8_encode, Option.some_bind]
        rfl
      · simp only [Marshal, timeMember, hid, if_false, toValidUTF8_encode, Option.some_bind]
        rfl
    | some u =>
      obtain ⟨us, un, um, ul⟩ := u
      obtain ⟨u1, u2, u3, u4⟩ := hu
      dsimp only at u1 u2 u3 u4
      subst u1 u2
      by_cases hid : utf8Encode sid = []
      · simp only [Marshal, timeMember, marshalTime, u3, u4, and_self, hid, if_true,
          Option.map_some', toValidUTF8_encode, Option.some_bind]
        rfl
      · simp only [Marshal, timeMember, marshalTime, u3, u4, and_self, hid, if_true, if_false,
          Option.map_some', toValidUTF8_encode, Option.some_bind]
        rfl
  | some c =>
    obtain ⟨cs, cn, cm, cl⟩ := c
    obtain ⟨k1, k2, k3, k4⟩ := hc
    dsimp only at k1 k2 k3 k4
    subst k1 k2
    cases ut with
    | none =>
      by_cases hid : utf8Encode sid = []
      · simp only [Marshal, timeMember, marshalTime, k3, k4, and_self, hid, if_true,
          Option.map_some', toValidUTF8_encode, Option.some_bind]
        rfl
      · simp only [Marshal, timeMember, marshalTime, k3, k4, and_self, hid, if_true, if_false,
          Option.map_some', toValidUTF8_encode, Option.some_bind]
        rfl
    | some u =>
      obtain ⟨us, un, um, ul⟩ := u
      obtain ⟨u1, u2, u3, u4⟩ := hu
      dsimp only at u1 u2 u3 u4
      subst u1 u2
      by_cases hid : utf8Encode sid = []
      · simp only [Marshal, timeMember, marshalTime, k3, k4, u3, u4, and_self, hid, if_true,
          Option.map_some', toValidUTF8_encode, Option.some_bind]
        rfl
      · simp only [Marshal, timeMember, marshalTime, k3, k4, u3, u4, and_self, hid, if_true,
          if_false, Option.map_some', toValidUTF8_encode, Option.some_bind]
        rfl

theorem rfc3339Text_values :
    rfc3339Text 1704164645 0 = "2024-01-02T03:04:05Z".toList ∧
      rfc3339Text 0 0 = "1970-01-01T00:00:00Z".toList ∧
      rfc3339Text yearZero 0 = "0000-01-01T00:00:00Z".toList ∧
      rfc3339Text (yearZero + 86400 * 59) 0 = "0000-02-29T00:00:00Z".toList ∧
      rfc3339Text 951782400 500000000 = "2000-02-29T00:00:00.5Z".toList ∧
      rfc3339Text 4107542399 0 = "2100-02-28T23:59:59Z".toList ∧
      rfc3339Text (yearTenThousand - 1) 999999999 =
        "9999-12-31T23:59:59.999999999Z".toList := by
  refine ⟨?_, ?_, ?_, ?_, ?_, ?_, ?_⟩ <;> decide

theorem keyMatches_values :
    keyMatches "NAME".toList "Name".toList = true ∧
      keyMatches "createdtimeſtamp".toList "CreatedTimestamp".toList = true ∧
      keyMatches "PK".toList "Name".toList = false ∧
      keyMatches "TestName".toList "Name".toList = false := by
  refine ⟨?_, ?_, ?_, ?_⟩ <;> decide

/-- Claim C9, refuted at the record whose only non-zero field is
`PK = "Primary Key"`: `Marshal` does not write `PK` (it is tagged
`json:"-"`), and unmarshalling the bytes into a fresh record gives the zero
record, which differs from the record marshalled.  Four more records whose
fields tagged `json:"-"` are zero do not survive either: the one with the
`Name` of the single byte `0xFF`, which comes back as U+FFFD (the bytes
`EF BF BD`); the one whose `CreatedTimestamp` carries a monotonic clock
reading, which comes back without it; the one whose `CreatedTimestamp` is the
first second of the year 10000, on which `Marshal` returns an error; and, on a
host set to UTC, the one whose `CreatedTimestamp` is in `time.Local`, which
comes back in UTC. -/
theorem C9_counterexample :
    (Marshal utcHost { Test.zero with
        DynamoDbMetaData := { DynamoDbMetaData.zero with PK := utf8Encode "Primary Key".toList } }
      ).bind (fun doc => Unmarshal utcHost doc Test.zero) = some Test.zero ∧
      Test.zero ≠ { Test.zero with
        DynamoDbMetaData :=
          { DynamoDbMetaData.zero with PK := utf8Encode "Primary Key".toList } } ∧
      (Marshal utcHost { Test.zero with Name := [0xFF] }).bind
          (fun doc => Unmarshal utcHost doc Test.zero) =
        some { Test.zero with Name := [0xEF, 0xBF, 0xBD] } ∧
      (Marshal utcHost { Test.zero with
          DynamoDbMetaData :=
            { DynamoDbMetaData.zero with
              CreatedTimestamp := some ⟨1704164645, 0, some 7, .utc⟩ } }).bind
          (fun doc => Unmarshal utcHost doc Test.zero) =
        some { Test.zero with
          DynamoDbMetaData :=
            { DynamoDbMetaData.zero with
              CreatedTimestamp := some ⟨1704164645, 0, none, .utc⟩ } } ∧
      Marshal utcHost { Test.zero with
          DynamoDbMetaData :=
            { DynamoDbMetaData.zero with
              CreatedTimestamp := some ⟨yearTenThousand, 0, none, .utc⟩ } } = none ∧
      (Marshal utcHost { Test.zero with
          DynamoDbMetaData :=
            { DynamoDbMetaData.zero with
              CreatedTimestamp := some ⟨1704164645, 0, none, .zone 0⟩ } }).bind
          (fun doc => Unmarshal utcHost doc Test.zero) =
        some { Test.zero with
          DynamoDbMetaData :=
            { DynamoDbMetaData.zero with
              CreatedTimestamp := some ⟨1704164645, 0, none, .utc⟩ } } := by
  refine ⟨?_, ?_, ?_, ?_, ?_, ?_⟩ <;> decide

/-- Claim C9 as amended: for every record `r` of type `Test` whose fields
tagged `json:"-"` (the embedded interface, `PK`, `SK`, `GSI1PK` to `GSI5SK`)
are zero, whose strings `Id`, `Name`, `Description`, `TestName` are valid
UTF-8, and whose timestamps are nil or times in UTC without a monotonic clock
reading and with a year in `[0, 9999]`, `Marshal(r)` succeeds, and
unmarshalling its bytes into a fresh zero-valued `Test` yields `r`, whatever
the zone data of the host. -/
theorem C9_round_trip_of_visible_record (Z : Zones) (r : Test) (hz : hiddenFieldsZero r)
    (hs : visibleStringsValid r)
    (hc : plainUtcTime r.DynamoDbMetaData.CreatedTimestamp)
    (hu : plainUtcTime r.DynamoDbMetaData.UpdatedTimestamp) :
    ∃ doc, Marshal Z r = some doc ∧ Unmarshal Z doc Test.zero = some r :=
  Option.bind_eq_some.mp (round_trip_bind Z r hz hs hc hu)

/-- Witness of the amended claim C9: the record of the repository's test,
obtained by unmarshalling
`{"PK":"Primary Key", "Name":"Test Name","Description":"Test Description","TestName":"Test Test Name"}`
(its `PK` stays empty), survives the round trip; so does a record with an
`Id` and the timestamp `2024-01-02T03:04:05Z`. -/
theorem C9_round_trip_of_visible_record_witness :
    Unmarshal utcHost
        [("PK".toList, .str "Primary Key".toList), ("Name".toList, .str "Test Name".toList),
          ("Description".toList, .str "Test Description".toList),
          ("TestName".toList, .str "Test Test Name".toList)] Test.zero =
      some ⟨DynamoDbMetaData.zero, utf8Encode "Test Name".toList,
        utf8Encode "Test Description".toList, utf8Encode "Test Test Name".toList⟩ ∧
    (∃ doc,
      Marshal utcHost ⟨DynamoDbMetaData.zero, utf8Encode "Test Name".toList,
          utf8Encode "Test Description".toList, utf8Encode "Test Test Name".toList⟩ =
        some doc ∧
      Unmarshal utcHost doc Test.zero =
        some ⟨DynamoDbMetaData.zero, utf8Encode "Test Name".toList,
          utf8Encode "Test Description".toList, utf8Encode "Test Test Name".toList⟩) ∧
    (∃ doc,
      Marshal utcHost
          ⟨{ DynamoDbMetaData.zero with
              Id := utf8Encode "é1".toList
              CreatedTimestamp := some ⟨1704164645, 0, none, .utc⟩ },
            utf8Encode "Test Name".toList, [], []⟩ = some doc ∧
      Unmarshal utcHost doc Test.zero =
        some ⟨{ DynamoDbMetaData.zero with
              Id := utf8Encode "é1".toList
              CreatedTimestamp := some ⟨1704164645, 0, none, .utc⟩ },
            utf8Encode "Test Name".toList, [], []⟩) :=
  ⟨by decide,
    C9_round_trip_of_visible_record utcHost
      ⟨DynamoDbMetaData.zero, utf8Encode "Test Name".toList,
        utf8Encode "Test Description".toList, utf8Encode "Test Test Name".toList⟩
      ⟨rfl, rfl, rfl, rfl, rfl, rfl, rfl, rfl, rfl, rfl, rfl, rfl, rfl⟩
      ⟨⟨[], rfl⟩, ⟨_, rfl⟩, ⟨_, rfl⟩, ⟨_, rfl⟩⟩ trivial trivial,
    C9_round_trip_of_visible_record utcHost
      ⟨{ DynamoDbMetaData.zero with
          Id := utf8Encode "é1".toList
          CreatedTimestamp := some ⟨1704164645, 0, none, .utc⟩ },
        utf8Encode "Test Name".toList, [], []⟩
      ⟨rfl, rfl, rfl, rfl, rfl, rfl, rfl, rfl, rfl, rfl, rfl, rfl, rfl⟩
      ⟨⟨_, rfl⟩, ⟨_, rfl⟩, ⟨[], rfl⟩, ⟨[], rfl⟩⟩
      ⟨rfl, rfl, by decide, by decide⟩ trivial⟩

/-! ## Filter compiler -/

theorem replaceChar_of_not_mem (old new : Char) (s : Str) (h : old ∉ s) :
    replaceChar old new s = s := by
  unfold replaceChar
  induction s with
  | nil => rfl
  | cons c cs ih =>
    simp only [List.mem_cons, not_or] at h
    have hc : ¬ c = old := fun e => h.1 e.symm
    simp only [List.map_cons, hc, if_false, ih h.2]

theorem mapGet_mapSet_self {α : Type} (m : GoMap α) (k : Str) (v : α) :
    mapGet (mapSet m k v) k = some v := by
  induction m with
  | nil => simp [mapSet, mapGet]
  | cons kv t ih =>
    obtain ⟨k1, v1⟩ := kv
    rw [mapSet]
    by_cases h : k1 = k
    · simp only [h, if_true, mapGet]
    · simp only [h, if_false, mapGet, ih]

theorem mapGet_mapSet_ne {α : Type} (m : GoMap α) (k k2 : Str) (v : α) (h : k ≠ k2) :
    mapGet (mapSet m k v) k2 = mapGet m k2 := by
  induction m with
  | nil => simp [mapSet, mapGet, h]
  | cons kv t ih =>
    obtain ⟨k1, v1⟩ := kv
    rw [mapSet]
    by_cases h1 : k1 = k
    · subst h1
      simp only [if_true, mapGet, h, if_false]
    · by_cases h2 : k1 = k2
      · subst h2
        simp only [h1, if_false, mapGet, if_true]
      · simp only [h1, if_false, mapGet, h2, ih]

theorem registerValue_some (item : FilterItem) (h : keywordWellTyped item)
    (values : GoMap AttributeValue) : ∃ vs, registerValue item values = some vs := by
  unfold keywordWellTyped at h
  unfold registerValue
  by_cases hd : item.type = "date".toList
  · simp only [hd, if_true] at h ⊢
    obtain ⟨kw, hkw, hs⟩ := h
    obtain ⟨h0, h1⟩ := splitOn_slash kw hs
    simp only [hkw, h0, h1]
    exact ⟨_, rfl⟩
  · by_cases hb : item.type = "bool".toList
    · simp only [hd, if_false, hb, if_true, ne_eq, not_true_eq_false] at h ⊢
      obtain ⟨b, hb2⟩ := h
      simp only [hb2]
      exact ⟨_, rfl⟩
    · simp only [hd, if_false, hb, ne_eq, not_false_eq_true, if_true] at h ⊢
      obtain ⟨kw, hkw⟩ := h
      simp only [hkw]
      exact ⟨_, rfl⟩

theorem getWhere_shape (item : FilterItem) (h : item.type ∈ supportedFilterTypes) :
    ∃ pre m rest,
      getWhere item =
        pre ++ '#' :: (replaceChar dquote apostrophe item.field ++ m :: rest) ∧
      (pre = [] ∨ pre = "contains (".toList) ∧ (m = ' ' ∨ m = ',') ∧
      (':' :: replaceChar dquote apostrophe item.field) <:+: (m :: rest) := by
  unfold supportedFilterTypes at h
  simp only [List.mem_cons, List.mem_singleton, List.not_mem_nil, or_false] at h
  generalize hg : replaceChar dquote apostrophe item.field = g
  have hgw : ∀ t : Str, item.type = t → getWhere item = getWhere ⟨item.field, t, item.keyword, item.condition, item.position⟩ := by
    intro t ht
    subst ht
    rfl
  rcases h with h | h | h | h | h | h | h | h | h
  · refine ⟨"contains (".toList, ',', " :".toList ++ g ++ ")".toList, ?_, Or.inr rfl, Or.inr rfl,
      ⟨", ".toList, ")".toList, by simp⟩⟩
    rw [hgw _ h]
    simp [getWhere, hg]
  · refine ⟨[], ' ', "= :".toList ++ g, ?_, Or.inl rfl, Or.inl rfl, ⟨" = ".toList, [], by simp⟩⟩
    rw [hgw _ h]
    simp [getWhere, hg]
  · refine ⟨[], ' ', "<> :".toList ++ g, ?_, Or.inl rfl, Or.inl rfl, ⟨" <> ".toList, [], by simp⟩⟩
    rw [hgw _ h]
    simp [getWhere, hg]
  · refine ⟨[], ' ', "= :".toList ++ g, ?_, Or.inl rfl, Or.inl rfl, ⟨" = ".toList, [], by simp⟩⟩
    rw [hgw _ h]
    simp [getWhere, hg]
  · refine ⟨[], ' ', "BETWEEN :".toList ++ g ++ "Start AND :".toList ++ g ++ "End".toList, ?_,
      Or.inl rfl, Or.inl rfl,
      ⟨" BETWEEN ".toList, "Start AND :".toList ++ g ++ "End".toList, by simp⟩⟩
    rw [hgw _ h]
    simp [getWhere, hg]
  · refine ⟨[], ' ', "<= :".toList ++ g, ?_, Or.inl rfl, Or.inl rfl, ⟨" <= ".toList, [], by simp⟩⟩
    rw [hgw _ h]
    simp [getWhere, hg]
  · refine ⟨[], ' ', "<= :".toList ++ g, ?_, Or.inl rfl, Or.inl rfl, ⟨" <= ".toList, [], by simp⟩⟩
    rw [hgw _ h]
    simp [getWhere, hg]
  · refine ⟨[], ' ', "> :".toList ++ g, ?_, Or.inl rfl, Or.inl rfl, ⟨" > ".toList, [], by simp⟩⟩
    rw [hgw _ h]
    simp [getWhere, hg]
  · refine ⟨[], ' ', "=> :".toList ++ g, ?_, Or.inl rfl, Or.inl rfl, ⟨" => ".toList, [], by simp⟩⟩
    rw [hgw _ h]
    simp [getWhere, hg]

theorem parentStep_skip (st : FilterState) (item : FilterItem) (h : item.position = true) :
    parentStep st item = some st := by
  unfold parentStep
  simp only [h, Bool.true_eq_false, if_false]

theorem childStep_skip (st : FilterState) (item : FilterItem) (h : item.position = false) :
    childStep st item = some st := by
  unfold childStep
  simp only [h, Bool.false_eq_true, if_false]

theorem parentStep_eval (st : FilterState) (a : FilterItem) (ha : a.position = false)
    (hka : keywordWellTyped a) :
    ∃ vs, parentStep st a =
      some ⟨joinClause st a (getWhere a), vs, mapSet st.names ("#".toList ++ a.field) a.field,
        st.i + 1⟩ := by
  obtain ⟨vs, hvs⟩ := registerValue_some a hka st.values
  refine ⟨vs, ?_⟩
  unfold parentStep
  simp only [ha, if_true, hvs, Option.map_some']

theorem childStep_eval_renamed (st : FilterState) (b : FilterItem) (hb : b.position = true)
    (hkb : keywordWellTyped b)
    (hlook : (mapGet st.names ("#".toList ++ b.field)).getD [] ≠ []) :
    ∃ vs, childStep st b =
      some ⟨joinClause st { b with field := b.field ++ "_2".toList }
          (getWhere { b with field := b.field ++ "_2".toList }), vs,
        mapSet st.names ("#".toList ++ (b.field ++ "_2".toList))
          (removeSuffixToken (b.field ++ "_2".toList)), st.i + 1⟩ := by
  have hk2 : keywordWellTyped { b with field := b.field ++ "_2".toList } := hkb
  obtain ⟨vs, hvs⟩ := registerValue_some _ hk2 st.values
  refine ⟨vs, ?_⟩
  unfold childStep
  simp only [hb] at hvs
  simp only [hb, if_true, hlook, ne_eq, not_false_eq_true, hvs, Option.map_some']

theorem rangeLoop_pair (step : FilterState → FilterItem → Option FilterState)
    (a b : FilterItem) (st : FilterState)
    (hskip : ∀ s, step s b = some s) :
    ∀ e ∈ [[a, b], [b, a]], rangeLoop step e st = step st a := by
  intro e he
  simp only [List.mem_cons, List.mem_singleton, List.not_mem_nil, or_false] at he
  rcases he with he | he
  · subst he
    simp only [rangeLoop]
    cases h : step st a with
    | none => rfl
    | some s => simp only [hskip s]
  · subst he
    simp only [rangeLoop, hskip st]
    cases h : step st a <;> rfl

theorem getWhere_renamed_ne (a b2 : FilterItem) (f : Str) (hfa : a.field = f)
    (hfb : b2.field = f ++ "_2".toList) (hq : dquote ∉ f)
    (hta : a.type ∈ supportedFilterTypes) (htb : b2.type ∈ supportedFilterTypes) :
    getWhere a ≠ getWhere b2 := by
  obtain ⟨pre1, m1, rest1, h1, hp1, hm1, -⟩ := getWhere_shape a hta
  obtain ⟨pre2, m2, rest2, h2, hp2, -, -⟩ := getWhere_shape b2 htb
  have hq2 : dquote ∉ f ++ "_2".toList := by
    intro hmem
    rcases List.mem_append.mp hmem with h | h
    · exact hq h
    · revert h
      decide
  rw [hfa, replaceChar_of_not_mem _ _ _ hq] at h1
  rw [hfb, replaceChar_of_not_mem _ _ _ hq2] at h2
  intro heq
  rw [h1, h2] at heq
  rcases hp1 with rfl | rfl <;> rcases hp2 with rfl | rfl
  · simp only [List.nil_append, List.cons.injEq, true_and, List.append_assoc,
      List.append_cancel_left_eq] at heq
    have hm := heq
    simp only [String.toList, List.cons_append, List.nil_append, List.cons.injEq] at hm
    rcases hm1 with rfl | rfl
    · exact absurd hm.1 (by decide)
    · exact absurd hm.1 (by decide)
  · simp only [String.toList, List.nil_append, List.cons_append, List.cons.injEq] at heq
    exact absurd heq.1 (by decide)
  · simp only [String.toList, List.nil_append, List.cons_append, List.cons.injEq] at heq
    exact absurd heq.1 (by decide)
  · simp only [List.append_cancel_left_eq, List.cons.injEq, true_and, List.append_assoc] at heq
    have hm := heq
    simp only [String.toList, List.cons_append, List.nil_append, List.cons.injEq] at hm
    rcases hm1 with rfl | rfl
    · exact absurd hm.1 (by decide)
    · exact absurd hm.1 (by decide)

theorem getWhere_references (item : FilterItem) (g : Str) (hf : item.field = g)
    (hq : dquote ∉ g) (ht : item.type ∈ supportedFilterTypes) :
    references (getWhere item) ("#".toList ++ g) ∧ references (getWhere item) (":".toList ++ g) := by
  obtain ⟨pre, m, rest, h1, -, -, hinf⟩ := getWhere_shape item ht
  rw [hf, replaceChar_of_not_mem _ _ _ hq] at h1 hinf
  unfold references
  rw [h1]
  constructor
  · exact ⟨pre, m :: rest, by simp⟩
  · obtain ⟨u, w, huw⟩ := hinf
    refine ⟨pre ++ '#' :: g ++ u, w, ?_⟩
    have : (":".toList ++ g) = ':' :: g := rfl
    rw [this, ← huw]
    simp

/-- Claim C2, refuted at the field `a"b` (the middle character is a
double quote): with one predicate on it without a position marker and one
with, the expression is `#a'b > :a'b AND #a'b_2 <= :a'b_2`, since `getWhere`
replaces the double quote by an apostrophe, while the registered aliases are
`#a"b` and `#a"b_2`: the clauses reference neither `#f` nor `:f`. -/
theorem C2_counterexample :
    (processQueryOptionFilter
        [⟨['a', dquote, 'b'], "more_than".toList, .str "18".toList, none, false⟩,
          ⟨['a', dquote, 'b'], "less_than".toList, .str "65".toList, none, true⟩]
        [⟨['a', dquote, 'b'], "more_than".toList, .str "18".toList, none, false⟩,
          ⟨['a', dquote, 'b'], "less_than".toList, .str "65".toList, none, true⟩]
        [] []).map (fun st => (st.filterExpression, st.names)) =
      some ("#a".toList ++ [apostrophe] ++ "b > :a".toList ++ [apostrophe] ++
          "b AND #a".toList ++ [apostrophe] ++ "b_2 <= :a".toList ++ [apostrophe] ++ "b_2".toList,
        [("#a".toList ++ [dquote] ++ "b".toList, ['a', dquote, 'b']),
          ("#a".toList ++ [dquote] ++ "b_2".toList, ['a', dquote, 'b'])]) ∧
      ¬ references
        ("#a".toList ++ [apostrophe] ++ "b > :a".toList ++ [apostrophe] ++
          "b AND #a".toList ++ [apostrophe] ++ "b_2 <= :a".toList ++ [apostrophe] ++ "b_2".toList)
        ("#".toList ++ ['a', dquote, 'b']) ∧
      ¬ references
        ("#a".toList ++ [apostrophe] ++ "b > :a".toList ++ [apostrophe] ++
          "b AND #a".toList ++ [apostrophe] ++ "b_2 <= :a".toList ++ [apostrophe] ++ "b_2".toList)
        (":".toList ++ ['a', dquote, 'b']) := by
  refine ⟨?_, ?_, ?_⟩ <;> decide

/-- Claim C2 as amended: for every non-empty field `f` without a double-quote
character, when the collection holds one predicate on `f` without a position
marker and one predicate on `f` with a position marker, both of a supported
type with an operand of the matching shape, `processQueryOptionFilter`, in
every enumeration order of the two loops, emits two distinct clauses, the
first referencing `#f` and `:f` and the second referencing `#f_2` and `:f_2`,
joined by the second predicate's explicit condition or by `AND` when it has
none, and the name table contains the two distinct aliases `#f` (for `f`) and
`#f_2`. -/
theorem C2_duplicate_field_gets_second_alias (f : Str) (a b : FilterItem)
    (values : GoMap AttributeValue) (names : GoMap Str)
    (hfa : a.field = f) (hfb : b.field = f)
    (ha : a.position = false) (hb : b.position = true)
    (hne : f ≠ []) (hq : dquote ∉ f)
    (hta : a.type ∈ supportedFilterTypes) (htb : b.type ∈ supportedFilterTypes)
    (hka : keywordWellTyped a) (hkb : keywordWellTyped b) :
    ∀ e1 ∈ [[a, b], [b, a]], ∀ e2 ∈ [[a, b], [b, a]],
      ∃ st, processQueryOptionFilter e1 e2 values names = some st ∧
        st.filterExpression =
          getWhere a ++ " ".toList ++ connector b ++ " ".toList ++
            getWhere { b with field := f ++ "_2".toList } ∧
        getWhere a ≠ getWhere { b with field := f ++ "_2".toList } ∧
        references (getWhere a) ("#".toList ++ f) ∧
        references (getWhere a) (":".toList ++ f) ∧
        references (getWhere { b with field := f ++ "_2".toList })
          ("#".toList ++ (f ++ "_2".toList)) ∧
        references (getWhere { b with field := f ++ "_2".toList })
          (":".toList ++ (f ++ "_2".toList)) ∧
        mapGet st.names ("#".toList ++ f) = some f ∧
        (mapGet st.names ("#".toList ++ (f ++ "_2".toList))).isSome = true ∧
        "#".toList ++ f ≠ "#".toList ++ (f ++ "_2".toList) := by
  intro e1 he1 e2 he2
  have hq2 : dquote ∉ f ++ "_2".toList := by
    intro hmem
    rcases List.mem_append.mp hmem with h | h
    · exact hq h
    · revert h
      decide
  have hkeys : "#".toList ++ f ≠ "#".toList ++ (f ++ "_2".toList) := by
    intro h
    have h2 := List.append_cancel_left h
    have h3 : f ++ [] = f ++ "_2".toList := by
      rw [List.append_nil]
      exact h2
    have h4 := List.append_cancel_left h3
    cases h4
  obtain ⟨vs1, hp⟩ := parentStep_eval ⟨[], values, names, 0⟩ a ha hka
  have hparent : rangeLoop parentStep e1 ⟨[], values, names, 0⟩ = parentStep ⟨[], values, names, 0⟩ a :=
    rangeLoop_pair parentStep a b _ (fun s => parentStep_skip s b hb) e1 he1
  have hlook : (mapGet (mapSet names ("#".toList ++ a.field) a.field)
      ("#".toList ++ b.field)).getD [] ≠ [] := by
    rw [hfa, hfb, mapGet_mapSet_self]
    exact hne
  obtain ⟨vs2, hc⟩ := childStep_eval_renamed
    ⟨joinClause ⟨[], values, names, 0⟩ a (getWhere a), vs1,
      mapSet names ("#".toList ++ a.field) a.field, 0 + 1⟩ b hb hkb hlook
  have hchild := rangeLoop_pair childStep b a
    ⟨joinClause ⟨[], values, names, 0⟩ a (getWhere a), vs1,
      mapSet names ("#".toList ++ a.field) a.field, 0 + 1⟩
    (fun s => childStep_skip s a ha) e2
    (by
      simp only [List.mem_cons, List.mem_singleton, List.not_mem_nil, or_false] at he2 ⊢
      exact he2.symm)
  have hres : processQueryOptionFilter e1 e2 values names =
      childStep ⟨joinClause ⟨[], values, names, 0⟩ a (getWhere a), vs1,
        mapSet names ("#".toList ++ a.field) a.field, 0 + 1⟩ b := by
    unfold processQueryOptionFilter
    rw [hparent, hp]
    dsimp only
    rw [hchild]
  rw [hc] at hres
  obtain ⟨r1, r2⟩ := getWhere_references a f hfa hq hta
  obtain ⟨r3, r4⟩ := getWhere_references { b with field := f ++ "_2".toList }
    (f ++ "_2".toList) rfl hq2 htb
  refine ⟨_, hres, ?_⟩
  refine ⟨?_, getWhere_renamed_ne a _ f hfa rfl hq hta htb, r1, r2, r3, r4, ?_, ?_, hkeys⟩
  · rw [hfb]
    cases hcond : b.condition <;> simp [joinClause, connector, hcond]
  · rw [hfb, hfa]
    dsimp only
    rw [mapGet_mapSet_ne _ _ _ _ hkeys.symm, mapGet_mapSet_self]
  · rw [hfb]
    dsimp only
    rw [mapGet_mapSet_self]
    rfl

/-- Witness of the amended claim C2: the predicates
`{field: "age", type: "more_than", keyword: "18"}` and
`{field: "age", type: "less_than", keyword: "65", position: 1}` compile to
`#age > :age AND #age_2 <= :age_2` with the aliases `#age` and `#age_2`. -/
theorem C2_duplicate_field_gets_second_alias_witness :
    (∃ st,
      processQueryOptionFilter
          [⟨"age".toList, "more_than".toList, .str "18".toList, none, false⟩,
            ⟨"age".toList, "less_than".toList, .str "65".toList, none, true⟩]
          [⟨"age".toList, "more_than".toList, .str "18".toList, none, false⟩,
            ⟨"age".toList, "less_than".toList, .str "65".toList, none, true⟩] [] [] = some st ∧
        mapGet st.names ("#".toList ++ "age".toList) = some "age".toList ∧
        (mapGet st.names ("#".toList ++ ("age".toList ++ "_2".toList))).isSome = true) ∧
      (processQueryOptionFilter
          [⟨"age".toList, "more_than".toList, .str "18".toList, none, false⟩,
            ⟨"age".toList, "less_than".toList, .str "65".toList, none, true⟩]
          [⟨"age".toList, "more_than".toList, .str "18".toList, none, false⟩,
            ⟨"age".toList, "less_than".toList, .str "65".toList, none, true⟩] [] []).map
          (fun st => (st.filterExpression, st.names)) =
        some ("#age > :age AND #age_2 <= :age_2".toList,
          [("#age".toList, "age".toList), ("#age_2".toList, "age".toList)]) := by
  refine ⟨?_, by decide⟩
  obtain ⟨st, h1, -, -, -, -, -, -, h8, h9, -⟩ :=
    C2_duplicate_field_gets_second_alias "age".toList
      ⟨"age".toList, "more_than".toList, .str "18".toList, none, false⟩
      ⟨"age".toList, "less_than".toList, .str "65".toList, none, true⟩ [] []
      rfl rfl rfl rfl (by decide) (by decide) (by decide) (by decide)
      (by simp [keywordWellTyped]) (by simp [keywordWellTyped])
      _ (List.mem_cons_self _ _) _ (List.mem_cons_self _ _)
  exact ⟨st, h1, h8, h9⟩

/-- Claim C13: for every field `f` that contains no double-quote character,
`getWhere` returns `#f = :f` for the types `equal` and `bool`, `#f <> :f` for
`not_equal`, `#f BETWEEN :fStart AND :fEnd` for `date`, the same clause
`#f <= :f` for both `less_than` and `less_than_equal`, `#f > :f` for
`more_than`, and `#f => :f` for `more_than_equal`, whatever the other members
of the predicate are. -/
theorem C13_getWhere_clause_per_type (f : Str) (keyword : Keyword) (condition : Option Str)
    (position : Bool) (hq : dquote ∉ f) :
    getWhere ⟨f, "equal".toList, keyword, condition, position⟩ =
        "#".toList ++ f ++ " = :".toList ++ f ∧
      getWhere ⟨f, "bool".toList, keyword, condition, position⟩ =
        "#".toList ++ f ++ " = :".toList ++ f ∧
      getWhere ⟨f, "not_equal".toList, keyword, condition, position⟩ =
        "#".toList ++ f ++ " <> :".toList ++ f ∧
      getWhere ⟨f, "date".toList, keyword, condition, position⟩ =
        "#".toList ++ f ++ " BETWEEN :".toList ++ f ++ "Start AND :".toList ++ f ++
          "End".toList ∧
      getWhere ⟨f, "less_than".toList, keyword, condition, position⟩ =
        "#".toList ++ f ++ " <= :".toList ++ f ∧
      getWhere ⟨f, "less_than_equal".toList, keyword, condition, position⟩ =
        "#".toList ++ f ++ " <= :".toList ++ f ∧
      getWhere ⟨f, "more_than".toList, keyword, condition, position⟩ =
        "#".toList ++ f ++ " > :".toList ++ f ∧
      getWhere ⟨f, "more_than_equal".toList, keyword, condition, position⟩ =
        "#".toList ++ f ++ " => :".toList ++ f := by
  have hr := replaceChar_of_not_mem dquote apostrophe f hq
  refine ⟨?_, ?_, ?_, ?_, ?_, ?_, ?_, ?_⟩ <;>
    (unfold getWhere
     dsimp only
     rw [hr]
     simp)

/-- Witness of claim C13: the field `age`. -/
theorem C13_getWhere_clause_per_type_witness :
    getWhere ⟨"age".toList, "more_than_equal".toList, .str "18".toList, none, false⟩ =
        "#age => :age".toList ∧
      getWhere ⟨"age".toList, "less_than".toList, .str "18".toList, none, false⟩ =
        "#age <= :age".toList ∧
      getWhere ⟨"age".toList, "date".toList, .str "a/b".toList, none, false⟩ =
        "#age BETWEEN :ageStart AND :ageEnd".toList :=
  ⟨(C13_getWhere_clause_per_type "age".toList (.str "18".toList) none false
      (by decide)).2.2.2.2.2.2.2,
    (C13_getWhere_clause_per_type "age".toList (.str "18".toList) none false
      (by decide)).2.2.2.2.1,
    (C13_getWhere_clause_per_type "age".toList (.str "a/b".toList) none false
      (by decide)).2.2.2.1⟩

/-! ## Key-condition compiler, single-item path -/

/-- Claim C14, refuted at `SK = "2024-01-01/2024-12-31"`, `IndexName = "GSI1"`
without a Condition: `getItemViaGsi` builds the equality clause on the whole
SK, with `:gsisk` and without `:from` and `:to`; it has no BETWEEN clause. -/
theorem C14_counterexample :
    getItemViaGsi.keyCondition
        ⟨some "P".toList, some "2024-01-01/2024-12-31".toList, some "GSI1".toList, none⟩ =
      some ("GSI1PK = :gsipk and GSI1SK = :gsisk".toList,
        [(":gsipk".toList, .S "P".toList),
          (":gsisk".toList, .S "2024-01-01/2024-12-31".toList)]) ∧
    containsChar "2024-01-01/2024-12-31".toList '/' = true := by
  constructor <;> decide

/-- Claim C14 as amended: for every Key with PK and IndexName `I` present, no
Condition, and an SK that contains `/`, `getItemViaGsi` takes SK whole: the
key condition is `IPK = :gsipk and ISK = :gsisk`, or
`IPK = :gsipk and begins_with(ISK, :gsisk)` when SK ends with `#`, with the
value aliases `:gsipk` = PK and `:gsisk` = SK and no `:from` or `:to`. -/
theorem C14_gsi_lookup_takes_range_text_whole (pk sk index : Str)
    (_hs : containsChar sk '/' = true) :
    (hasSuffix sk "#".toList = false →
        getItemViaGsi.keyCondition ⟨some pk, some sk, some index, none⟩ =
          some (index ++ "PK = :gsipk and ".toList ++ index ++ "SK = :gsisk".toList,
            [(":gsipk".toList, .S pk), (":gsisk".toList, .S sk)])) ∧
      (hasSuffix sk "#".toList = true →
        getItemViaGsi.keyCondition ⟨some pk, some sk, some index, none⟩ =
          some (index ++ "PK = :gsipk and begins_with(".toList ++ index ++ "SK, :gsisk)".toList,
            [(":gsipk".toList, .S pk), (":gsisk".toList, .S sk)])) := by
  constructor
  · intro h
    unfold getItemViaGsi.keyCondition
    simp only [h, Bool.false_eq_true, if_false]
    rfl
  · intro h
    unfold getItemViaGsi.keyCondition
    simp only [h, if_true]
    rfl

/-- Witness of the amended claim C14: `SK = "a/b#"` gives the prefix clause on
the whole text `a/b#`. -/
theorem C14_gsi_lookup_takes_range_text_whole_witness :
    getItemViaGsi.keyCondition ⟨some "P".toList, some "a/b#".toList, some "GSI1".toList, none⟩ =
      some ("GSI1".toList ++ "PK = :gsipk and begins_with(".toList ++ "GSI1".toList ++
          "SK, :gsisk)".toList,
        [(":gsipk".toList, .S "P".toList), (":gsisk".toList, .S "a/b#".toList)]) :=
  (C14_gsi_lookup_takes_range_text_whole "P".toList "a/b#".toList "GSI1".toList
    (by decide)).2 (by decide)

/-! ## Filter compiler: aliases and enumeration order -/

/-- Claim C17, evaluated on the code: a position-marked predicate on the
field `col_2` is registered as `#col_2 -> col`, and a position-marked
predicate on `v_2` that collides with an earlier alias is registered as
`#v_2_2 -> v`: `strings.ReplaceAll(field, "_2", "")` removes every `_2`, not
only the suffix the rename added, so the raw name is not the original field.
For the field `age` the two registrations are `#age -> age` and
`#age_2 -> age`, as the claim says. -/
theorem C17_raw_name_loses_every_suffix_token :
    (processQueryOptionFilter
        [⟨"col_2".toList, "equal".toList, .str "x".toList, none, true⟩]
        [⟨"col_2".toList, "equal".toList, .str "x".toList, none, true⟩] [] []).map
        (fun st => st.names) = some [("#col_2".toList, "col".toList)] ∧
      (processQueryOptionFilter
        [⟨"v_2".toList, "equal".toList, .str "x".toList, none, false⟩,
          ⟨"v_2".toList, "equal".toList, .str "y".toList, none, true⟩]
        [⟨"v_2".toList, "equal".toList, .str "x".toList, none, false⟩,
          ⟨"v_2".toList, "equal".toList, .str "y".toList, none, true⟩] [] []).map
        (fun st => st.names) =
        some [("#v_2".toList, "v_2".toList), ("#v_2_2".toList, "v".toList)] ∧
      (processQueryOptionFilter
        [⟨"age".toList, "equal".toList, .str "x".toList, none, true⟩]
        [⟨"age".toList, "equal".toList, .str "x".toList, none, true⟩] [] []).map
        (fun st => st.names) = some [("#age".toList, "age".toList)] ∧
      (processQueryOptionFilter
        [⟨"age".toList, "equal".toList, .str "x".toList, none, false⟩,
          ⟨"age".toList, "equal".toList, .str "y".toList, none, true⟩]
        [⟨"age".toList, "equal".toList, .str "x".toList, none, false⟩,
          ⟨"age".toList, "equal".toList, .str "y".toList, none, true⟩] [] []).map
        (fun st => st.names) =
        some [("#age".toList, "age".toList), ("#age_2".toList, "age".toList)] := by
  refine ⟨?_, ?_, ?_, ?_⟩ <;> decide

theorem rangeLoop_parent_filter (e : List FilterItem) (st : FilterState) :
    rangeLoop parentStep e st =
      rangeLoop parentStep (e.filter fun item => !item.position) st := by
  induction e generalizing st with
  | nil => rfl
  | cons item rest ih =>
    cases hpos : item.position with
    | true =>
      rw [rangeLoop, parentStep_skip st item hpos, List.filter_cons_of_neg (by simp [hpos])]
      exact ih st
    | false =>
      rw [List.filter_cons_of_pos (by simp [hpos]), rangeLoop, rangeLoop]
      cases parentStep st item with
      | none => rfl
      | some st1 => exact ih st1

theorem rangeLoop_child_filter (e : List FilterItem) (st : FilterState) :
    rangeLoop childStep e st =
      rangeLoop childStep (e.filter fun item => item.position) st := by
  induction e generalizing st with
  | nil => rfl
  | cons item rest ih =>
    cases hpos : item.position with
    | false =>
      rw [rangeLoop, childStep_skip st item hpos, List.filter_cons_of_neg (by simp [hpos])]
      exact ih st
    | true =>
      rw [List.filter_cons_of_pos (by simp [hpos]), rangeLoop, rangeLoop]
      cases childStep st item with
      | none => rfl
      | some st1 => exact ih st1

/-- Claim C18, refuted at the collection of `x` (type `equal`) and `y` (type
`equal`, condition `OR`), neither with a position marker: enumerated as
`x, y` the expression is `#x = :x OR #y = :y`, enumerated as `y, x` it is
`#y = :y AND #x = :x`. -/
theorem C18_counterexample :
    (processQueryOptionFilter
        [⟨"x".toList, "equal".toList, .str "1".toList, none, false⟩,
          ⟨"y".toList, "equal".toList, .str "2".toList, some "OR".toList, false⟩]
        [⟨"x".toList, "equal".toList, .str "1".toList, none, false⟩,
          ⟨"y".toList, "equal".toList, .str "2".toList, some "OR".toList, false⟩] [] []).map
        (fun st => st.filterExpression) = some "#x = :x OR #y = :y".toList ∧
      (processQueryOptionFilter
        [⟨"y".toList, "equal".toList, .str "2".toList, some "OR".toList, false⟩,
          ⟨"x".toList, "equal".toList, .str "1".toList, none, false⟩]
        [⟨"y".toList, "equal".toList, .str "2".toList, some "OR".toList, false⟩,
          ⟨"x".toList, "equal".toList, .str "1".toList, none, false⟩] [] []).map
        (fun st => st.filterExpression) = some "#y = :y AND #x = :x".toList := by
  constructor <;> decide

/-- Claim C18 as amended: the result of `processQueryOptionFilter` is a
function of the enumeration of the collection, and depends on it only through
the order of the predicates without a position marker in the first loop and
the order of the predicates with a position marker in the second: any two
pairs of enumerations that agree on these two orders give the same filter
expression and the same name and value tables. -/
theorem C18_result_depends_on_order_within_each_pass (e1 e2 f1 f2 : List FilterItem)
    (values : GoMap AttributeValue) (names : GoMap Str)
    (h1 : (e1.filter fun item => !item.position) = f1.filter fun item => !item.position)
    (h2 : (e2.filter fun item => item.position) = f2.filter fun item => item.position) :
    processQueryOptionFilter e1 e2 values names = processQueryOptionFilter f1 f2 values names := by
  unfold processQueryOptionFilter
  rw [rangeLoop_parent_filter e1, rangeLoop_parent_filter f1, h1]
  cases rangeLoop parentStep (f1.filter fun item => !item.position) ⟨[], values, names, 0⟩ with
  | none => rfl
  | some st =>
    dsimp only
    rw [rangeLoop_child_filter e2, rangeLoop_child_filter f2, h2]

/-- Witness of the amended claim C18: the enumerations `x, p` and `p, x` of an
unmarked predicate `x` and a marked predicate `p` give the same result. -/
theorem C18_result_depends_on_order_within_each_pass_witness :
    processQueryOptionFilter
        [⟨"x".toList, "equal".toList, .str "1".toList, none, false⟩,
          ⟨"p".toList, "equal".toList, .str "2".toList, none, true⟩]
        [⟨"x".toList, "equal".toList, .str "1".toList, none, false⟩,
          ⟨"p".toList, "equal".toList, .str "2".toList, none, true⟩] [] [] =
      processQueryOptionFilter
        [⟨"p".toList, "equal".toList, .str "2".toList, none, true⟩,
          ⟨"x".toList, "equal".toList, .str "1".toList, none, false⟩]
        [⟨"p".toList, "equal".toList, .str "2".toList, none, true⟩,
          ⟨"x".toList, "equal".toList, .str "1".toList, none, false⟩] [] [] :=
  C18_result_depends_on_order_within_each_pass _ _ _ _ [] [] (by decide) (by decide)

/-! ## Update compiler: nested entries, aliases -/

theorem buildEntry_nested_plain_tables (p c : Str) (v : Value) (T : Tables)
    (hc : hasPrefix "Fn:".toList c = false) :
    buildEntry (some [p]) c v T =
      (⟨mapSet T.names ("#".toList ++ c) c,
          mapSet T.values (":".toList ++ p ++ "_".toList ++ c) v,
          mapSet T.clauses ("#".toList ++ p ++ ".#".toList ++ c)
            (":".toList ++ p ++ "_".toList ++ c)⟩, none) := by
  have hv : ":".toList ++ joinWith "_".toList ([p] ++ [c]) =
      ":".toList ++ p ++ "_".toList ++ c := by
    simp [joinWith]
  have hk : "#".toList ++ joinWith ".#".toList ([p] ++ [c]) =
      "#".toList ++ p ++ ".#".toList ++ c := by
    simp [joinWith]
  rw [buildEntry]
  simp only [hc, Bool.false_eq_true, if_false]
  cases v <;>
    simp only [List.length_singleton, le_refl, if_true, buildLabel, hv, hk]

/-- Claim C16: for every top-level non-function key `p` whose value is a
mapping `m`, and every non-function key `c` of `m` with value `v`,
`buildExpressionAttributeNamesAndValue` registers the alias `#p -> p` and
compiles `m` under the parent `p`; the entry `c` then registers exactly the
clause `#p.#c -> :p_c`, the value alias `:p_c -> v` and the name alias
`#c -> c`, whatever `v` is: when `v` is itself a mapping it is stored whole
under `:p_c` and nothing is registered for its keys.  From empty tables the
spec `{p: {c: v}}` compiles to exactly these entries. -/
theorem C16_nested_entry_is_an_opaque_leaf (p c : Str) (v : Value) (m : List (Str × Value))
    (hp : hasPrefix "Fn:".toList p = false) (hc : hasPrefix "Fn:".toList c = false) :
    (∀ T : Tables, buildEntry none p (.map m) T =
        buildExpressionAttributeNamesAndValue (some [p]) m
          { T with names := mapSet T.names ("#".toList ++ p) p }) ∧
      (∀ T : Tables, buildEntry (some [p]) c v T =
        (⟨mapSet T.names ("#".toList ++ c) c,
            mapSet T.values (":".toList ++ p ++ "_".toList ++ c) v,
            mapSet T.clauses ("#".toList ++ p ++ ".#".toList ++ c)
              (":".toList ++ p ++ "_".toList ++ c)⟩, none)) ∧
      buildExpressionAttributeNamesAndValue none [(p, .map [(c, v)])] Tables.empty =
        (⟨mapSet [("#".toList ++ p, p)] ("#".toList ++ c) c,
            [(":".toList ++ p ++ "_".toList ++ c, v)],
            [("#".toList ++ p ++ ".#".toList ++ c, ":".toList ++ p ++ "_".toList ++ c)]⟩,
          none) := by
  refine ⟨fun T => buildEntry_top_map p m T hp,
    fun T => buildEntry_nested_plain_tables p c v T hc, ?_⟩
  rw [buildExpressionAttributeNamesAndValue, buildEntry_top_map p _ _ hp,
    buildExpressionAttributeNamesAndValue, buildEntry_nested_plain_tables p c v _ hc]
  rfl

/-- Witness of claim C16: `{"profile": {"address": {"city": "X"}}}` stores the
mapping `{"city": "X"}` whole under `:profile_address` and registers nothing
for `city`. -/
theorem C16_nested_entry_is_an_opaque_leaf_witness :
    buildExpressionAttributeNamesAndValue none
        [("profile".toList, .map [("address".toList, .map [("city".toList, .str "X".toList)])])]
        Tables.empty =
      (⟨mapSet [("#".toList ++ "profile".toList, "profile".toList)]
            ("#".toList ++ "address".toList) "address".toList,
          [(":".toList ++ "profile".toList ++ "_".toList ++ "address".toList,
            .map [("city".toList, .str "X".toList)])],
          [("#".toList ++ "profile".toList ++ ".#".toList ++ "address".toList,
            ":".toList ++ "profile".toList ++ "_".toList ++ "address".toList)]⟩, none) :=
  (C16_nested_entry_is_an_opaque_leaf "profile".toList "address".toList
    (.map [("city".toList, .str "X".toList)]) [] (by decide) (by decide)).2.2

/-! ## Key-condition compiler: the two paths compared -/

theorem template_attributes (index rest : Str) :
    (∀ n, Segment.attribute n ∈ partitionTemplate index →
        n = index ++ "PK".toList ∨ n = index ++ "SK".toList) ∧
      (∀ n, Segment.attribute n ∈ comparisonTemplate index rest →
        n = index ++ "PK".toList ∨ n = index ++ "SK".toList) ∧
      (∀ n, Segment.attribute n ∈ beginsTemplate index →
        n = index ++ "PK".toList ∨ n = index ++ "SK".toList) := by
  refine ⟨?_, ?_, ?_⟩ <;>
    (intro n hn
     simp only [partitionTemplate, comparisonTemplate, beginsTemplate, List.mem_cons,
       Segment.attribute.injEq, reduceCtorEq, List.mem_singleton, List.not_mem_nil,
       or_false, false_or] at hn
     first
       | exact Or.inl hn
       | exact hn)

theorem gsi_shape_inferred (pk s index : Str) :
    getItemViaGsi.keyCondition ⟨some pk, some s, some index, none⟩ =
      some (renderPlain
          (if hasSuffix s "#".toList then beginsTemplate index
            else comparisonTemplate index " = :gsisk".toList),
        [(":gsipk".toList, .S pk), (":gsisk".toList, .S s)]) := by
  unfold getItemViaGsi.keyCondition
  cases h : hasSuffix s "#".toList <;>
    (simp only [h]
     simp [renderPlain, beginsTemplate, comparisonTemplate, mapSet])

theorem list_shape_inferred (pk s index : Str) (hs : containsChar s '/' = false) :
    GetListItem.keyCondition ⟨some pk, some s, some index, none⟩ =
      some ⟨renderAliased
          (if hasSuffix s "#".toList then beginsTemplate index
            else comparisonTemplate index " = :gsisk".toList),
        [(":gsipk".toList, .S pk), (":gsisk".toList, .S s)],
        mapSet (mapSet [] ("#".toList ++ index ++ "PK".toList) (index ++ "PK".toList))
          ("#".toList ++ index ++ "SK".toList) (index ++ "SK".toList)⟩ := by
  unfold GetListItem.keyCondition
  simp only [hs, Bool.false_eq_true, if_false]
  cases h : hasSuffix s "#".toList <;>
    simp [renderAliased, beginsTemplate, comparisonTemplate, mapSet]

theorem gsi_other_condition (pk s index c : Str)
    (h1 : c ≠ "equal".toList) (h2 : c ≠ "more_than".toList) (h3 : c ≠ "less_than".toList)
    (h4 : c ≠ "more_than_equal".toList) (h5 : c ≠ "less_than_equal".toList)
    (h6 : c ≠ "begins".toList) :
    getItemViaGsi.keyCondition ⟨some pk, some s, some index, some c⟩ =
      getItemViaGsi.keyCondition ⟨some pk, some s, some index, none⟩ := by
  unfold getItemViaGsi.keyCondition
  simp only [h1, h2, h3, h4, h5, h6, if_false]
  rfl

theorem list_other_condition (pk s index c : Str) (hs : containsChar s '/' = false)
    (h1 : c ≠ "equal".toList) (h2 : c ≠ "more_than".toList) (h3 : c ≠ "less_than".toList)
    (h4 : c ≠ "more_than_equal".toList) (h5 : c ≠ "less_than_equal".toList)
    (h6 : c ≠ "begins".toList) :
    GetListItem.keyCondition ⟨some pk, some s, some index, some c⟩ =
      GetListItem.keyCondition ⟨some pk, some s, some index, none⟩ := by
  unfold GetListItem.keyCondition
  simp only [hs, Bool.false_eq_true, if_false, h1, h2, h3, h4, h5, h6]
  rfl

theorem gsi_explicit (pk s index : Str) :
    getItemViaGsi.keyCondition ⟨some pk, some s, some index, some "equal".toList⟩ =
        some (renderPlain (comparisonTemplate index " = :gsisk".toList),
          [(":gsipk".toList, .S pk), (":gsisk".toList, .S s)]) ∧
      getItemViaGsi.keyCondition ⟨some pk, some s, some index, some "more_than".toList⟩ =
        some (renderPlain (comparisonTemplate index " > :gsisk".toList),
          [(":gsipk".toList, .S pk), (":gsisk".toList, .S s)]) ∧
      getItemViaGsi.keyCondition ⟨some pk, some s, some index, some "less_than".toList⟩ =
        some (renderPlain (comparisonTemplate index " < :gsisk".toList),
          [(":gsipk".toList, .S pk), (":gsisk".toList, .S s)]) ∧
      getItemViaGsi.keyCondition ⟨some pk, some s, some index, some "more_than_equal".toList⟩ =
        some (renderPlain (comparisonTemplate index " >= :gsisk".toList),
          [(":gsipk".toList, .S pk), (":gsisk".toList, .S s)]) ∧
      getItemViaGsi.keyCondition ⟨some pk, some s, some index, some "less_than_equal".toList⟩ =
        some (renderPlain (comparisonTemplate index " <= :gsisk".toList),
          [(":gsipk".toList, .S pk), (":gsisk".toList, .S s)]) ∧
      getItemViaGsi.keyCondition ⟨some pk, some s, some index, some "begins".toList⟩ =
        some (renderPlain (beginsTemplate index),
          [(":gsipk".toList, .S pk), (":gsisk".toList, .S s)]) := by
  refine ⟨?_, ?_, ?_, ?_, ?_, ?_⟩ <;>
    simp [getItemViaGsi.keyCondition, renderPlain, comparisonTemplate, beginsTemplate, mapSet]

theorem list_explicit (pk s index : Str) (hs : containsChar s '/' = false) :
    GetListItem.keyCondition ⟨some pk, some s, some index, some "equal".toList⟩ =
        some ⟨renderAliased (comparisonTemplate index " = :gsisk".toList),
          [(":gsipk".toList, .S pk), (":gsisk".toList, .S s)],
          mapSet (mapSet [] ("#".toList ++ index ++ "PK".toList) (index ++ "PK".toList))
            ("#".toList ++ index ++ "SK".toList) (index ++ "SK".toList)⟩ ∧
      GetListItem.keyCondition ⟨some pk, some s, some index, some "more_than".toList⟩ =
        some ⟨renderAliased (comparisonTemplate index " > :gsisk".toList),
          [(":gsipk".toList, .S pk), (":gsisk".toList, .S s)],
          mapSet (mapSet [] ("#".toList ++ index ++ "PK".toList) (index ++ "PK".toList))
            ("#".toList ++ index ++ "SK".toList) (index ++ "SK".toList)⟩ ∧
      GetListItem.keyCondition ⟨some pk, some s, some index, some "less_than".toList⟩ =
        some ⟨renderAliased (comparisonTemplate index " < :gsisk".toList),
          [(":gsipk".toList, .S pk), (":gsisk".toList, .S s)],
          mapSet (mapSet [] ("#".toList ++ index ++ "PK".toList) (index ++ "PK".toList))
            ("#".toList ++ index ++ "SK".toList) (index ++ "SK".toList)⟩ ∧
      GetListItem.keyCondition ⟨some pk, some s, some index, some "more_than_equal".toList⟩ =
        some ⟨renderAliased (comparisonTemplate index " >= :gsisk".toList),
          [(":gsipk".toList, .S pk), (":gsisk".toList, .S s)],
          mapSet (mapSet [] ("#".toList ++ index ++ "PK".toList) (index ++ "PK".toList))
            ("#".toList ++ index ++ "SK".toList) (index ++ "SK".toList)⟩ ∧
      GetListItem.keyCondition ⟨some pk, some s, some index, some "less_than_equal".toList⟩ =
        some ⟨renderAliased (comparisonTemplate index " <= :gsisk".toList),
          [(":gsipk".toList, .S pk), (":gsisk".toList, .S s)],
          mapSet (mapSet [] ("#".toList ++ index ++ "PK".toList) (index ++ "PK".toList))
            ("#".toList ++ index ++ "SK".toList) (index ++ "SK".toList)⟩ ∧
      GetListItem.keyCondition ⟨some pk, some s, some index, some "begins".toList⟩ =
        some ⟨renderAliased (beginsTemplate index),
          [(":gsipk".toList, .S pk), (":gsisk".toList, .S s)],
          mapSet (mapSet [] ("#".toList ++ index ++ "PK".toList) (index ++ "PK".toList))
            ("#".toList ++ index ++ "SK".toList) (index ++ "SK".toList)⟩ := by
  refine ⟨?_, ?_, ?_, ?_, ?_, ?_⟩ <;>
    (unfold GetListItem.keyCondition
     simp only [hs, Bool.false_eq_true, if_false]
     simp [renderAliased, comparisonTemplate, beginsTemplate, mapSet])

theorem gsi_partition_only (pk index : Str) :
    getItemViaGsi.keyCondition ⟨some pk, none, some index, none⟩ =
      some (renderPlain (partitionTemplate index), [(":gsipk".toList, .S pk)]) := by
  simp [getItemViaGsi.keyCondition, renderPlain, partitionTemplate]

theorem list_partition_only (pk index : Str) :
    GetListItem.keyCondition ⟨some pk, none, some index, none⟩ =
      some ⟨renderAliased (partitionTemplate index), [(":gsipk".toList, .S pk)],
        mapSet (mapSet [] ("#".toList ++ index ++ "PK".toList) (index ++ "PK".toList))
          ("#".toList ++ index ++ "SK".toList) (index ++ "SK".toList)⟩ := by
  simp [GetListItem.keyCondition, renderAliased, partitionTemplate, mapSet]

/-- Claim C19: for every Key with PK and IndexName `I` present whose SK is
absent or contains no `/`, and whose SK is present whenever Condition is
present, the key condition built by `GetListItem` is the one built by
`getItemViaGsi` with each attribute reference `<I>PK`, `<I>SK` replaced by
`#<I>PK`, `#<I>SK`: both are renderings of one template whose attribute
references are `<I>PK` and `<I>SK`, written as names by `getItemViaGsi` and
as aliases by `GetListItem`; and the two value-alias tables are equal. -/
theorem C19_list_condition_is_aliased_gsi_condition (pk index : Str) (sk condition : Option Str)
    (hsk : ∀ s, sk = some s → containsChar s '/' = false)
    (hcond : condition.isSome = true → sk.isSome = true) :
    ∃ template values names,
      (∀ n, Segment.attribute n ∈ template →
        n = index ++ "PK".toList ∨ n = index ++ "SK".toList) ∧
      getItemViaGsi.keyCondition ⟨some pk, sk, some index, condition⟩ =
        some (renderPlain template, values) ∧
      GetListItem.keyCondition ⟨some pk, sk, some index, condition⟩ =
        some ⟨renderAliased template, values, names⟩ := by
  obtain ⟨a1, a2, a3⟩ := template_attributes index " = :gsisk".toList
  cases sk with
  | none =>
    cases condition with
    | some c => exact absurd (hcond rfl) (by simp)
    | none =>
      exact ⟨_, _, _, a1, gsi_partition_only pk index, list_partition_only pk index⟩
  | some s =>
    have hs := hsk s rfl
    have inferred : ∃ template values names,
        (∀ n, Segment.attribute n ∈ template →
          n = index ++ "PK".toList ∨ n = index ++ "SK".toList) ∧
        getItemViaGsi.keyCondition ⟨some pk, some s, some index, none⟩ =
          some (renderPlain template, values) ∧
        GetListItem.keyCondition ⟨some pk, some s, some index, none⟩ =
          some ⟨renderAliased template, values, names⟩ := by
      refine ⟨_, _, _, ?_, gsi_shape_inferred pk s index, list_shape_inferred pk s index hs⟩
      cases hasSuffix s "#".toList
      · exact a2
      · exact a3
    obtain ⟨g1, g2, g3, g4, g5, g6⟩ := gsi_explicit pk s index
    obtain ⟨l1, l2, l3, l4, l5, l6⟩ := list_explicit pk s index hs
    cases condition with
    | none => exact inferred
    | some c =>
      by_cases h1 : c = "equal".toList
      · subst h1
        exact ⟨_, _, _, (template_attributes index _).2.1, g1, l1⟩
      by_cases h2 : c = "more_than".toList
      · subst h2
        exact ⟨_, _, _, (template_attributes index _).2.1, g2, l2⟩
      by_cases h3 : c = "less_than".toList
      · subst h3
        exact ⟨_, _, _, (template_attributes index _).2.1, g3, l3⟩
      by_cases h4 : c = "more_than_equal".toList
      · subst h4
        exact ⟨_, _, _, (template_attributes index _).2.1, g4, l4⟩
      by_cases h5 : c = "less_than_equal".toList
      · subst h5
        exact ⟨_, _, _, (template_attributes index _).2.1, g5, l5⟩
      by_cases h6 : c = "begins".toList
      · subst h6
        exact ⟨_, _, _, a3, g6, l6⟩
      rw [gsi_other_condition pk s index c h1 h2 h3 h4 h5 h6,
        list_other_condition pk s index c hs h1 h2 h3 h4 h5 h6]
      exact inferred

/-- Witness of claim C19: for `IndexName = "GSI2"`, `SK = "A#"` and no
Condition the template is `<GSI2PK> = :gsipk and begins_with(<GSI2SK>, :gsisk)`:
`getItemViaGsi` writes `GSI2PK`, `GSI2SK` and `GetListItem` writes `#GSI2PK`,
`#GSI2SK`. -/
theorem C19_list_condition_is_aliased_gsi_condition_witness :
    (∃ template values names,
      (∀ n, Segment.attribute n ∈ template →
        n = "GSI2".toList ++ "PK".toList ∨ n = "GSI2".toList ++ "SK".toList) ∧
      getItemViaGsi.keyCondition ⟨some "P".toList, some "A#".toList, some "GSI2".toList, none⟩ =
        some (renderPlain template, values) ∧
      GetListItem.keyCondition ⟨some "P".toList, some "A#".toList, some "GSI2".toList, none⟩ =
        some ⟨renderAliased template, values, names⟩) ∧
    getItemViaGsi.keyCondition ⟨some "P".toList, some "A#".toList, some "GSI2".toList, none⟩ =
      some ("GSI2PK = :gsipk and begins_with(GSI2SK, :gsisk)".toList,
        [(":gsipk".toList, .S "P".toList), (":gsisk".toList, .S "A#".toList)]) ∧
    (GetListItem.keyCondition
        ⟨some "P".toList, some "A#".toList, some "GSI2".toList, none⟩).map
        (fun r => (r.expression, r.values)) =
      some ("#GSI2PK = :gsipk and begins_with(#GSI2SK, :gsisk)".toList,
        [(":gsipk".toList, .S "P".toList), (":gsisk".toList, .S "A#".toList)]) :=
  ⟨C19_list_condition_is_aliased_gsi_condition "P".toList "GSI2".toList (some "A#".toList) none
      (fun s hs => by
        cases hs
        decide)
      (fun h => by cases h),
    by decide, by decide⟩

/-! ## Filter compiler: joining of the clauses -/

theorem joinClause_eq (st : FilterState) (item : FilterItem) :
    joinClause st item (getWhere item) =
      st.filterExpression ++ (if st.i = 0 then getWhere item else prefixedClause item) := by
  unfold joinClause prefixedClause connector
  by_cases h : st.i = 0
  · simp only [h, if_true]
  · simp only [h, if_false]
    cases item.condition <;> simp

theorem heldItem_wellTyped (names : GoMap Str) (item : FilterItem)
    (h : keywordWellTyped item) : keywordWellTyped (heldItem names item) := by
  unfold heldItem
  split_ifs
  · exact h
  · exact h

theorem childStep_eval (st : FilterState) (item : FilterItem) (hpos : item.position = true)
    (hk : keywordWellTyped item) :
    ∃ vs, childStep st item =
      some ⟨joinClause st (heldItem st.names item) (getWhere (heldItem st.names item)), vs,
        mapSet st.names ("#".toList ++ (heldItem st.names item).field)
          (removeSuffixToken (heldItem st.names item).field), st.i + 1⟩ := by
  obtain ⟨vs, hvs⟩ := registerValue_some _ (heldItem_wellTyped st.names item hk) st.values
  refine ⟨vs, ?_⟩
  unfold childStep
  unfold heldItem at hvs ⊢
  rw [if_pos hpos]
  dsimp only
  rw [hvs]
  rfl

theorem parent_loop_expression (items : List FilterItem) :
    ∀ st : FilterState, (∀ item ∈ items, item.position = false) →
      (∀ item ∈ items, keywordWellTyped item) →
      ∃ st1, rangeLoop parentStep items st = some st1 ∧
        st1.names = parentNames st.names items ∧
        st1.i = st.i + items.length ∧
        st1.filterExpression = st.filterExpression ++
          (if st.i = 0 then referenceExpression items
            else (items.map prefixedClause).flatten) := by
  induction items with
  | nil =>
    intro st _ _
    refine ⟨st, rfl, rfl, rfl, ?_⟩
    simp [referenceExpression]
  | cons item rest ih =>
    intro st hpos hk
    obtain ⟨vs, hstep⟩ := parentStep_eval st item (hpos item (List.mem_cons_self _ _))
      (hk item (List.mem_cons_self _ _))
    obtain ⟨st1, h1, h2, h3, h4⟩ := ih _
      (fun x hx => hpos x (List.mem_cons_of_mem _ hx))
      (fun x hx => hk x (List.mem_cons_of_mem _ hx))
    refine ⟨st1, ?_, ?_, ?_, ?_⟩
    · rw [rangeLoop, hstep]
      exact h1
    · rw [h2]
      rfl
    · rw [h3]
      simp only [List.length_cons]
      omega
    · rw [h4]
      dsimp only
      rw [joinClause_eq]
      simp only [Nat.add_one_ne_zero, if_false, List.map_cons, List.flatten_cons,
        referenceExpression]
      by_cases h0 : st.i = 0
      · simp only [h0, if_true, List.append_assoc]
      · simp only [h0, if_false, List.append_assoc]

theorem child_loop_expression (items : List FilterItem) :
    ∀ st : FilterState, (∀ item ∈ items, item.position = true) →
      (∀ item ∈ items, keywordWellTyped item) →
      ∃ st1, rangeLoop childStep items st = some st1 ∧
        st1.filterExpression = st.filterExpression ++
          (if st.i = 0 then referenceExpression (childView st.names items)
            else ((childView st.names items).map prefixedClause).flatten) := by
  induction items with
  | nil =>
    intro st _ _
    refine ⟨st, rfl, ?_⟩
    simp [referenceExpression, childView]
  | cons item rest ih =>
    intro st hpos hk
    obtain ⟨vs, hstep⟩ := childStep_eval st item (hpos item (List.mem_cons_self _ _))
      (hk item (List.mem_cons_self _ _))
    obtain ⟨st1, h1, h4⟩ := ih _
      (fun x hx => hpos x (List.mem_cons_of_mem _ hx))
      (fun x hx => hk x (List.mem_cons_of_mem _ hx))
    refine ⟨st1, ?_, ?_⟩
    · rw [rangeLoop, hstep]
      exact h1
    · rw [h4]
      dsimp only
      rw [joinClause_eq]
      simp only [Nat.add_one_ne_zero, if_false, childView, List.map_cons, List.flatten_cons,
        referenceExpression]
      by_cases h0 : st.i = 0
      · simp only [h0, if_true, List.append_assoc]
      · simp only [h0, if_false, List.append_assoc]

theorem referenceExpression_append (a b : List FilterItem) :
    referenceExpression (a ++ b) =
      referenceExpression a ++
        (if a.length = 0 then referenceExpression b else (b.map prefixedClause).flatten) := by
  cases a with
  | nil => simp [referenceExpression]
  | cons x rest => simp [referenceExpression]

/-- Claim C12: for every filter collection (with operands of the shape their
types ask for) enumerated in a given order, `processQueryOptionFilter` returns
the reference string of the sequence made of the predicates without a position
marker in enumeration order followed by the predicates with a position marker
in enumeration order, each taken as the loop holds it when it calls `getWhere`
(a position-marked predicate has its field rewritten to `<field>_2` on a
collision): the first predicate contributes its clause with no connector, each
later one `" " + connector + " " + clause`, the connector being its explicit
condition or `AND`.  In particular a collection of `n >= 1` predicates without
position markers yields the first clause and `n - 1` connector-prefixed
clauses, and when every predicate has a position marker the first of them is
the unprefixed one. -/
theorem C12_expression_is_reference_string (filters : List FilterItem)
    (values : GoMap AttributeValue) (names : GoMap Str)
    (hk : ∀ item ∈ filters, keywordWellTyped item) :
    ∃ st, processQueryOptionFilter filters filters values names = some st ∧
      st.filterExpression =
        referenceExpression
          ((filters.filter fun item => !item.position) ++
            childView (parentNames names (filters.filter fun item => !item.position))
              (filters.filter fun item => item.position)) ∧
      ((∀ item ∈ filters, item.position = false) →
        ∀ first rest, filters = first :: rest →
          st.filterExpression = getWhere first ++ (rest.map prefixedClause).flatten ∧
            (rest.map prefixedClause).length = filters.length - 1) ∧
      ((∀ item ∈ filters, item.position = true) →
        ∀ first rest, filters = first :: rest →
          ∃ tail, st.filterExpression = getWhere (heldItem names first) ++ tail) := by
  obtain ⟨st1, p1, p2, p3, p4⟩ := parent_loop_expression
    (filters.filter fun item => !item.position) ⟨[], values, names, 0⟩
    (fun item hitem => by simpa using (List.mem_filter.mp hitem).2)
    (fun item hitem => hk item (List.mem_filter.mp hitem).1)
  obtain ⟨st2, c1, c2⟩ := child_loop_expression
    (filters.filter fun item => item.position) st1
    (fun item hitem => by simpa using (List.mem_filter.mp hitem).2)
    (fun item hitem => hk item (List.mem_filter.mp hitem).1)
  have hmain : st2.filterExpression =
      referenceExpression
        ((filters.filter fun item => !item.position) ++
          childView (parentNames names (filters.filter fun item => !item.position))
            (filters.filter fun item => item.position)) := by
    rw [c2, p4, p2, p3, referenceExpression_append]
    simp only [if_true, List.nil_append, Nat.zero_add]
  refine ⟨st2, ?_, hmain, ?_, ?_⟩
  · unfold processQueryOptionFilter
    rw [rangeLoop_parent_filter, p1]
    dsimp only
    rw [rangeLoop_child_filter, c1]
  · intro hall first rest hfr
    have hu : (filters.filter fun item => !item.position) = filters :=
      List.filter_eq_self.mpr (fun item hitem => by simp [hall item hitem])
    have hm : (filters.filter fun item => item.position) = [] :=
      List.filter_eq_nil_iff.mpr (fun item hitem => by simp [hall item hitem])
    rw [hmain, hu, hm]
    subst hfr
    simp [childView, referenceExpression]
  · intro hall first rest hfr
    have hu : (filters.filter fun item => !item.position) = [] :=
      List.filter_eq_nil_iff.mpr (fun item hitem => by simp [hall item hitem])
    have hm : (filters.filter fun item => item.position) = filters :=
      List.filter_eq_self.mpr (fun item hitem => by simp [hall item hitem])
    rw [hmain, hu, hm]
    subst hfr
    simp only [List.nil_append, parentNames, List.foldl_nil, childView, referenceExpression]
    exact ⟨_, rfl⟩

/-- Witness of claim C12: three predicates, the second with a position marker
and an explicit `OR`, compile to the clauses of the first and third followed
by the clause of the second. -/
theorem C12_expression_is_reference_string_witness :
    (∃ st,
      processQueryOptionFilter
          [⟨"a".toList, "equal".toList, .str "1".toList, none, false⟩,
            ⟨"b".toList, "more_than".toList, .str "2".toList, some "OR".toList, true⟩,
            ⟨"c".toList, "keyword".toList, .str "3".toList, none, false⟩]
          [⟨"a".toList, "equal".toList, .str "1".toList, none, false⟩,
            ⟨"b".toList, "more_than".toList, .str "2".toList, some "OR".toList, true⟩,
            ⟨"c".toList, "keyword".toList, .str "3".toList, none, false⟩] [] [] = some st ∧
        st.filterExpression =
          referenceExpression
            [⟨"a".toList, "equal".toList, .str "1".toList, none, false⟩,
              ⟨"c".toList, "keyword".toList, .str "3".toList, none, false⟩,
              ⟨"b".toList, "more_than".toList, .str "2".toList, some "OR".toList, true⟩]) ∧
      referenceExpression
          [⟨"a".toList, "equal".toList, .str "1".toList, none, false⟩,
            ⟨"c".toList, "keyword".toList, .str "3".toList, none, false⟩,
            ⟨"b".toList, "more_than".toList, .str "2".toList, some "OR".toList, true⟩] =
        "#a = :a AND contains (#c, :c) OR #b > :b".toList := by
  refine ⟨?_, by decide⟩
  obtain ⟨st, h1, h2, -, -⟩ := C12_expression_is_reference_string
    [⟨"a".toList, "equal".toList, .str "1".toList, none, false⟩,
      ⟨"b".toList, "more_than".toList, .str "2".toList, some "OR".toList, true⟩,
      ⟨"c".toList, "keyword".toList, .str "3".toList, none, false⟩] [] []
    (by
      intro item hitem
      simp only [List.mem_cons, List.mem_singleton, List.not_mem_nil, or_false] at hitem
      rcases hitem with h | h | h <;> subst h <;> simp [keywordWellTyped])
  refine ⟨st, h1, ?_⟩
  rw [h2]
  decide

/-! ## Filter compiler: placeholders of a clause -/

theorem registerValue_keys (item : FilterItem) (vs vs1 : GoMap AttributeValue)
    (h : registerValue item vs = some vs1) :
    mapKeys vs1 = (valueAliases item).foldl keyInsert (mapKeys vs) := by
  unfold registerValue at h
  unfold valueAliases
  by_cases hd : item.type = "date".toList
  · simp only [hd, if_true] at h ⊢
    cases hkw : item.keyword with
    | str kw =>
      rw [hkw] at h
      dsimp only at h
      cases h0 : (splitOn '/' kw)[0]? with
      | none => simp [h0] at h
      | some a =>
        cases h1 : (splitOn '/' kw)[1]? with
        | none => simp [h0, h1] at h
        | some b =>
          simp only [h0, h1, Option.some.injEq] at h
          subst h
          simp only [mapKeys_mapSet, List.foldl_cons, List.foldl_nil]
    | bool b => simp [hkw] at h
    | num n => simp [hkw] at h
  · simp only [hd, if_false] at h ⊢
    by_cases hb : item.type = "bool".toList
    · simp only [hb, ne_eq, not_true_eq_false, if_false] at h
      cases hkw : item.keyword with
      | bool b =>
        simp only [hkw, Option.some.injEq] at h
        subst h
        simp only [mapKeys_mapSet, List.foldl_cons, List.foldl_nil]
      | str kw => simp [hkw] at h
      | num n => simp [hkw] at h
    · simp only [hb, ne_eq, not_false_eq_true, if_true] at h
      cases hkw : item.keyword with
      | str kw =>
        simp only [hkw, Option.some.injEq] at h
        subst h
        simp only [mapKeys_mapSet, List.foldl_cons, List.foldl_nil]
      | bool b => simp [hkw] at h
      | num n => simp [hkw] at h

theorem getWhere_template (item : FilterItem) (ht : item.type ∈ supportedFilterTypes)
    (hq : dquote ∉ item.field) :
    ∃ texts, (∀ t ∈ texts, literalText t) ∧
      texts.length = (valueAliases item).length + 2 ∧
      getWhere item = fillTemplate texts (("#".toList ++ item.field) :: valueAliases item) := by
  have hr := replaceChar_of_not_mem dquote apostrophe item.field hq
  have hgw : ∀ t : Str, item.type = t →
      getWhere item = getWhere ⟨item.field, t, item.keyword, item.condition, item.position⟩ ∧
      valueAliases item =
        valueAliases ⟨item.field, t, item.keyword, item.condition, item.position⟩ := by
    intro t h
    subst h
    exact ⟨rfl, rfl⟩
  unfold supportedFilterTypes at ht
  simp only [List.mem_cons, List.mem_singleton, List.not_mem_nil, or_false] at ht
  rcases ht with h | h | h | h | h | h | h | h | h
  · refine ⟨["contains (".toList, ", ".toList, ")".toList], by decide, ?_, ?_⟩ <;>
      (rw [(hgw _ h).2]; try rw [(hgw _ h).1]) <;>
      simp [getWhere, valueAliases, fillTemplate, hr]
  · refine ⟨[[], " = ".toList, []], by decide, ?_, ?_⟩ <;>
      (rw [(hgw _ h).2]; try rw [(hgw _ h).1]) <;>
      simp [getWhere, valueAliases, fillTemplate, hr]
  · refine ⟨[[], " <> ".toList, []], by decide, ?_, ?_⟩ <;>
      (rw [(hgw _ h).2]; try rw [(hgw _ h).1]) <;>
      simp [getWhere, valueAliases, fillTemplate, hr]
  · refine ⟨[[], " = ".toList, []], by decide, ?_, ?_⟩ <;>
      (rw [(hgw _ h).2]; try rw [(hgw _ h).1]) <;>
      simp [getWhere, valueAliases, fillTemplate, hr]
  · refine ⟨[[], " BETWEEN ".toList, " AND ".toList, []], by decide, ?_, ?_⟩ <;>
      (rw [(hgw _ h).2]; try rw [(hgw _ h).1]) <;>
      simp [getWhere, valueAliases, fillTemplate, hr]
  · refine ⟨[[], " <= ".toList, []], by decide, ?_, ?_⟩ <;>
      (rw [(hgw _ h).2]; try rw [(hgw _ h).1]) <;>
      simp [getWhere, valueAliases, fillTemplate, hr]
  · refine ⟨[[], " <= ".toList, []], by decide, ?_, ?_⟩ <;>
      (rw [(hgw _ h).2]; try rw [(hgw _ h).1]) <;>
      simp [getWhere, valueAliases, fillTemplate, hr]
  · refine ⟨[[], " > ".toList, []], by decide, ?_, ?_⟩ <;>
      (rw [(hgw _ h).2]; try rw [(hgw _ h).1]) <;>
      simp [getWhere, valueAliases, fillTemplate, hr]
  · refine ⟨[[], " => ".toList, []], by decide, ?_, ?_⟩ <;>
      (rw [(hgw _ h).2]; try rw [(hgw _ h).1]) <;>
      simp [getWhere, valueAliases, fillTemplate, hr]

theorem heldItem_type (names : GoMap Str) (item : FilterItem) :
    (heldItem names item).type = item.type ∧
      ((heldItem names item).field = item.field ∨
        (heldItem names item).field = item.field ++ "_2".toList) := by
  unfold heldItem
  split_ifs
  · exact ⟨rfl, Or.inr rfl⟩
  · exact ⟨rfl, Or.inl rfl⟩

theorem parentStep_registers (st : FilterState) (item : FilterItem)
    (hpos : item.position = false) (hk : keywordWellTyped item) :
    ∃ st1, parentStep st item = some st1 ∧
      mapKeys st1.names = keyInsert (mapKeys st.names) ("#".toList ++ item.field) ∧
      mapKeys st1.values = (valueAliases item).foldl keyInsert (mapKeys st.values) ∧
      st1.filterExpression = joinClause st item (getWhere item) := by
  obtain ⟨vs, hvs⟩ := registerValue_some item hk st.values
  refine ⟨⟨joinClause st item (getWhere item), vs,
    mapSet st.names ("#".toList ++ item.field) item.field, st.i + 1⟩, ?_,
    mapKeys_mapSet _ _ _, registerValue_keys item _ _ hvs, rfl⟩
  unfold parentStep
  rw [if_pos hpos]
  dsimp only
  rw [hvs]
  rfl

theorem childStep_registers (st : FilterState) (item : FilterItem)
    (hpos : item.position = true) (hk : keywordWellTyped item) :
    ∃ st1, childStep st item = some st1 ∧
      mapKeys st1.names =
        keyInsert (mapKeys st.names) ("#".toList ++ (heldItem st.names item).field) ∧
      mapKeys st1.values =
        (valueAliases (heldItem st.names item)).foldl keyInsert (mapKeys st.values) ∧
      st1.filterExpression =
        joinClause st (heldItem st.names item) (getWhere (heldItem st.names item)) := by
  obtain ⟨vs, hvs⟩ := registerValue_some _ (heldItem_wellTyped st.names item hk) st.values
  refine ⟨⟨joinClause st (heldItem st.names item) (getWhere (heldItem st.names item)), vs,
    mapSet st.names ("#".toList ++ (heldItem st.names item).field)
      (removeSuffixToken (heldItem st.names item).field), st.i + 1⟩, ?_,
    mapKeys_mapSet _ _ _, registerValue_keys _ _ _ hvs, rfl⟩
  unfold childStep
  unfold heldItem at hvs ⊢
  rw [if_pos hpos]
  dsimp only
  rw [hvs]
  rfl

/-- Claim C20, refuted at the predicate on the field `a"b` (the middle
character is a double quote) of type `equal`: the clause `getWhere` emits is
`#a'b = :a'b`, while the keys registered are `#a"b` and `:a"b`; the tokens of
the clause are keys of neither table. -/
theorem C20_counterexample :
    (parentStep ⟨[], [], [], 0⟩
        ⟨['a', dquote, 'b'], "equal".toList, .str "x".toList, none, false⟩).map
        (fun st => (st.filterExpression, mapKeys st.names, mapKeys st.values)) =
      some ("#a".toList ++ [apostrophe] ++ "b = :a".toList ++ [apostrophe] ++ "b".toList,
        ["#a".toList ++ [dquote] ++ "b".toList], [":a".toList ++ [dquote] ++ "b".toList]) ∧
      "#a".toList ++ [apostrophe] ++ "b".toList ≠ "#a".toList ++ [dquote] ++ "b".toList ∧
      ":a".toList ++ [apostrophe] ++ "b".toList ≠ ":a".toList ++ [dquote] ++ "b".toList ∧
      ¬ references
        ("#a".toList ++ [apostrophe] ++ "b = :a".toList ++ [apostrophe] ++ "b".toList)
        ("#a".toList ++ [dquote] ++ "b".toList) := by
  refine ⟨?_, ?_, ?_, ?_⟩ <;> decide

/-- Claim C20 as amended: for every filter predicate of a supported type whose
field contains no double-quote character (and whose operand has the shape its
type asks for), the iteration of `processQueryOptionFilter` that compiles it
registers exactly the name alias `#f` and the value aliases `:fStart`, `:fEnd`
(type `date`) or `:f` (otherwise), `f` being the field as the iteration holds
it, and the clause it appends is `getWhere`'s clause, which is literal text,
without `#` or `:`, around exactly these tokens in this order. -/
theorem C20_clause_tokens_are_registered_keys (st : FilterState) (item : FilterItem)
    (ht : item.type ∈ supportedFilterTypes) (hq : dquote ∉ item.field)
    (hk : keywordWellTyped item) :
    ∃ st1 texts, compileStep st item = some st1 ∧
      mapKeys st1.names =
        keyInsert (mapKeys st.names) ("#".toList ++ (compiledItem st item).field) ∧
      mapKeys st1.values =
        (valueAliases (compiledItem st item)).foldl keyInsert (mapKeys st.values) ∧
      st1.filterExpression =
        joinClause st (compiledItem st item) (getWhere (compiledItem st item)) ∧
      (∀ t ∈ texts, literalText t) ∧
      texts.length = (valueAliases (compiledItem st item)).length + 2 ∧
      getWhere (compiledItem st item) =
        fillTemplate texts
          (("#".toList ++ (compiledItem st item).field) ::
            valueAliases (compiledItem st item)) := by
  unfold compileStep compiledItem
  cases hpos : item.position with
  | false =>
    simp only [Bool.false_eq_true, if_false]
    obtain ⟨st1, h1, h2, h3, h4⟩ := parentStep_registers st item hpos hk
    obtain ⟨texts, g1, g2, g3⟩ := getWhere_template item ht hq
    exact ⟨st1, texts, h1, h2, h3, h4, g1, g2, g3⟩
  | true =>
    simp only [if_true]
    obtain ⟨st1, h1, h2, h3, h4⟩ := childStep_registers st item hpos hk
    obtain ⟨hty, hfield⟩ := heldItem_type st.names item
    have hq2 : dquote ∉ (heldItem st.names item).field := by
      rcases hfield with h | h
      · rw [h]
        exact hq
      · rw [h]
        intro hmem
        rcases List.mem_append.mp hmem with h5 | h5
        · exact hq h5
        · revert h5
          decide
    obtain ⟨texts, g1, g2, g3⟩ := getWhere_template (heldItem st.names item)
      (by rw [hty]; exact ht) hq2
    exact ⟨st1, texts, h1, h2, h3, h4, g1, g2, g3⟩

/-- Witness of the amended claim C20: a `date` predicate on `created`
registers `#created`, `:createdStart`, `:createdEnd` and its clause is
`#created BETWEEN :createdStart AND :createdEnd`. -/
theorem C20_clause_tokens_are_registered_keys_witness :
    (∃ st1 texts,
      compileStep ⟨[], [], [], 0⟩
          ⟨"created".toList, "date".toList, .str "2024-01-01/2024-12-31".toList, none, false⟩ =
        some st1 ∧
      mapKeys st1.names = keyInsert [] ("#".toList ++ "created".toList) ∧
      mapKeys st1.values =
        [":".toList ++ "created".toList ++ "Start".toList,
          ":".toList ++ "created".toList ++ "End".toList].foldl keyInsert [] ∧
      (∀ t ∈ texts, literalText t) ∧
      "#created BETWEEN :createdStart AND :createdEnd".toList =
        fillTemplate texts
          [("#".toList ++ "created".toList), ":".toList ++ "created".toList ++ "Start".toList,
            ":".toList ++ "created".toList ++ "End".toList]) := by
  obtain ⟨st1, texts, h1, h2, h3, -, h5, -, h7⟩ :=
    C20_clause_tokens_are_registered_keys ⟨[], [], [], 0⟩
      ⟨"created".toList, "date".toList, .str "2024-01-01/2024-12-31".toList, none, false⟩
      (by decide) (by decide) (by simp [keywordWellTyped, containsChar])
  exact ⟨st1, texts, h1, h2, h3, h5, h7⟩

/-! ## Update compiler: the shared zero placeholder -/

theorem functionTag_ok_values (k : Str) (T : Tables) (k1 : Str) (T1 : Tables)
    (h : functionTag k T = .ok (k1, T1)) :
    k1 = (splitOn ':' k).getD 2 [] ∧ T1.names = T.names ∧ T1.clauses = T.clauses ∧
      T1.values =
        if (splitOn ':' k).length = 3 ∧
            ((splitOn ':' k).getD 1 [] = "increase".toList ∨
              (splitOn ':' k).getD 1 [] = "decrease".toList)
        then mapSet T.values ":_Zero".toList (.int 0) else T.values := by
  unfold functionTag at h
  dsimp only at h
  split_ifs at h with h3 h1 h2
  · simp only [Except.ok.injEq, Prod.mk.injEq] at h
    obtain ⟨rfl, rfl⟩ := h
    have hno : ¬ ((splitOn ':' k).getD 1 [] = "increase".toList ∨
        (splitOn ':' k).getD 1 [] = "decrease".toList) := by
      rw [h1]
      decide
    simp only [hno, and_false, if_false, and_self]
  · simp only [Except.ok.injEq, Prod.mk.injEq] at h
    obtain ⟨rfl, rfl⟩ := h
    simp only [h3, h2, and_self, if_true]

theorem buildLabel_values (parent : Option Str) (fn : Option Str) (k : Str) (v : Value)
    (T : Tables) :
    (buildLabel (parentPath parent) fn k v T).1.values =
      mapSet T.values (leafValueAlias parent k) v := by
  cases parent with
  | none => cases fn <;> rfl
  | some p =>
    have hv : ":".toList ++ joinWith "_".toList ([p] ++ [k]) =
        ":".toList ++ p ++ "_".toList ++ k := by
      simp [joinWith]
    cases fn <;> simp only [buildLabel, parentPath, leafValueAlias, hv]

theorem buildEntry_function_values (parent : Option Str) (k : Str) (v : Value)
    (T T1 : Tables) (hk : hasPrefix "Fn:".toList k = true)
    (h : buildEntry (parentPath parent) k v T = (T1, none)) :
    T1.values =
      mapSet (if zeroFunctionKey k then mapSet T.values ":_Zero".toList (.int 0) else T.values)
        (leafValueAlias parent (workingKey k)) v := by
  rw [buildEntry] at h
  simp only [hk, if_true] at h
  cases hft : functionTag k T with
  | error e =>
    rw [hft] at h
    cases h
  | ok r =>
    obtain ⟨k1, T2⟩ := r
    rw [hft] at h
    dsimp only at h
    obtain ⟨hk1, -, -, hvals⟩ := functionTag_ok_values k T k1 T2 hft
    have hv := buildLabel_values parent (some ((splitOn ':' k).getD 1 [])) k1 v
      { T2 with names := mapSet T2.names ("#".toList ++ k1) k1 }
    rw [h] at hv
    dsimp only at hv
    rw [hv, hvals, hk1]
    unfold zeroFunctionKey workingKey
    simp only [hk, true_and, if_true]

theorem buildEntry_leaf_values (parent : Option Str) (k : Str) (v : Value) (T : Tables)
    (hk : hasPrefix "Fn:".toList k = false) (hv : parent = none → v.isMap = false) :
    (buildEntry (parentPath parent) k v T).2 = none ∧
      (buildEntry (parentPath parent) k v T).1.values =
        mapSet T.values (leafValueAlias parent k) v := by
  rw [buildEntry]
  simp only [hk, Bool.false_eq_true, if_false]
  cases parent with
  | none =>
    have hm := hv rfl
    cases v with
    | map m => cases hm
    | _ =>
      exact ⟨buildLabel_plain _ _ _ _, buildLabel_values none none k _ _⟩
  | some p =>
    cases v <;>
      (simp only [parentPath, List.length_singleton, le_refl, if_true]
       exact ⟨buildLabel_plain _ _ _ _, buildLabel_values (some p) none k _ _⟩)

theorem build_loop_property (p : Option (List Str)) (I : Tables → Prop)
    (Q ok : Str × Value → Prop)
    (hstep : ∀ k v T T1, buildEntry p k v T = (T1, none) → ok (k, v) →
      (I T ∨ Q (k, v)) → I T1) :
    ∀ (m : List (Str × Value)) (T T1 : Tables),
      buildExpressionAttributeNamesAndValue p m T = (T1, none) → (∀ kv ∈ m, ok kv) →
      (I T ∨ ∃ kv ∈ m, Q kv) → I T1 := by
  intro m
  induction m with
  | nil =>
    intro T T1 h _ hI
    rw [buildExpressionAttributeNamesAndValue] at h
    cases h
    rcases hI with hI | ⟨kv, hkv, -⟩
    · exact hI
    · cases hkv
  | cons kv rest ih =>
    intro T T1 h hok hI
    obtain ⟨k, v⟩ := kv
    rw [buildExpressionAttributeNamesAndValue] at h
    rcases hr : buildEntry p k v T with ⟨T2, _ | e⟩
    · rw [hr] at h
      dsimp only at h
      have hrest : ∀ kv ∈ rest, ok kv := fun kv hkv => hok kv (List.mem_cons_of_mem _ hkv)
      rcases hI with hI | ⟨kv, hkv, hq⟩
      · exact ih T2 T1 h hrest
          (Or.inl (hstep k v T T2 hr (hok _ (List.mem_cons_self _ _)) (Or.inl hI)))
      · rcases List.mem_cons.mp hkv with heq | hmem
        · subst heq
          exact ih T2 T1 h hrest
            (Or.inl (hstep k v T T2 hr (hok _ (List.mem_cons_self _ _)) (Or.inr hq)))
        · exact ih T2 T1 h hrest (Or.inr ⟨kv, hmem, hq⟩)
    · rw [hr] at h
      cases h

theorem keyInsert_nodup (ks : List Str) (k : Str) (h : ks.Nodup) : (keyInsert ks k).Nodup := by
  unfold keyInsert
  split_ifs with hm
  · exact h
  · exact List.nodup_append.mpr ⟨h, List.nodup_singleton k, by
      intro a ha hb
      rw [List.mem_singleton] at hb
      subst hb
      exact hm ha⟩

theorem mapGet_some_mem_keys {α : Type} (m : GoMap α) (k : Str) (v : α)
    (h : mapGet m k = some v) : k ∈ mapKeys m := by
  induction m with
  | nil => cases h
  | cons kv t ih =>
    obtain ⟨k1, v1⟩ := kv
    unfold mapKeys at ih ⊢
    rw [mapGet] at h
    by_cases hk : k1 = k
    · subst hk
      exact List.mem_cons_self _ _
    · simp only [hk, if_false] at h
      exact List.mem_cons_of_mem _ (ih h)

theorem zero_after_leaf (vs : GoMap Value) (k key : Str) (v : Value)
    (hne : ":_Zero".toList ≠ key)
    (h : mapGet vs ":_Zero".toList = some (.int 0) ∨ zeroFunctionKey k) :
    mapGet
        (mapSet (if zeroFunctionKey k then mapSet vs ":_Zero".toList (.int 0) else vs) key v)
        ":_Zero".toList = some (.int 0) := by
  rw [mapGet_mapSet_ne _ _ _ _ (fun e => hne e.symm)]
  by_cases hz : zeroFunctionKey k
  · simp only [hz, if_true, mapGet_mapSet_self]
  · simp only [hz, if_false]
    rcases h with h | h
    · exact h
    · exact absurd h hz

theorem nodup_after_leaf (vs : GoMap Value) (k key : Str) (v : Value)
    (h : (mapKeys vs).Nodup) :
    (mapKeys
      (mapSet (if zeroFunctionKey k then mapSet vs ":_Zero".toList (.int 0) else vs)
        key v)).Nodup := by
  rw [mapKeys_mapSet]
  apply keyInsert_nodup
  by_cases hz : zeroFunctionKey k
  · simp only [hz, if_true, mapKeys_mapSet]
    exact keyInsert_nodup _ _ h
  · simp only [hz, if_false]
    exact h

theorem buildEntry_leaflike_values (parent : Option Str) (k : Str) (v : Value) (T T1 : Tables)
    (hv : parent = none → hasPrefix "Fn:".toList k = false → v.isMap = false)
    (h : buildEntry (parentPath parent) k v T = (T1, none)) :
    T1.values =
      mapSet (if zeroFunctionKey k then mapSet T.values ":_Zero".toList (.int 0) else T.values)
        (leafValueAlias parent (workingKey k)) v := by
  by_cases hk : hasPrefix "Fn:".toList k = true
  · exact buildEntry_function_values parent k v T T1 hk h
  · have hk2 : hasPrefix "Fn:".toList k = false := by
      cases hh : hasPrefix "Fn:".toList k
      · rfl
      · exact absurd hh hk
    have hnz : ¬ zeroFunctionKey k := fun hz => hk hz.1
    obtain ⟨-, h2⟩ := buildEntry_leaf_values parent k v T hk2 (fun hp => hv hp hk2)
    rw [h] at h2
    dsimp only at h2
    rw [h2]
    unfold workingKey
    simp only [hnz, if_false, hk2, Bool.false_eq_true]

theorem nested_zero (q : Str) (m : List (Str × Value)) (T T1 : Tables)
    (h : buildExpressionAttributeNamesAndValue (some [q]) m T = (T1, none))
    (hfree : ∀ kv ∈ m, ":_Zero".toList ≠ leafValueAlias (some q) (workingKey kv.1))
    (hz : mapGet T.values ":_Zero".toList = some (.int 0) ∨
      ∃ kv ∈ m, zeroFunctionKey kv.1) :
    mapGet T1.values ":_Zero".toList = some (.int 0) :=
  build_loop_property (some [q]) (fun T => mapGet T.values ":_Zero".toList = some (.int 0))
    (fun kv => zeroFunctionKey kv.1)
    (fun kv => ":_Zero".toList ≠ leafValueAlias (some q) (workingKey kv.1))
    (fun k v T2 T3 hstep hok hI => by
      show mapGet T3.values ":_Zero".toList = some (.int 0)
      rw [buildEntry_leaflike_values (some q) k v T2 T3 (fun hp => by cases hp) hstep]
      exact zero_after_leaf _ _ _ _ hok hI)
    m T T1 h hfree hz

theorem nested_nodup (q : Str) (m : List (Str × Value)) (T T1 : Tables)
    (h : buildExpressionAttributeNamesAndValue (some [q]) m T = (T1, none))
    (hn : (mapKeys T.values).Nodup) : (mapKeys T1.values).Nodup :=
  build_loop_property (some [q]) (fun T => (mapKeys T.values).Nodup)
    (fun _ => False) (fun _ => True)
    (fun k v T2 T3 hstep _ hI => by
      show (mapKeys T3.values).Nodup
      rw [buildEntry_leaflike_values (some q) k v T2 T3 (fun hp => by cases hp) hstep]
      rcases hI with hI | hI
      · exact nodup_after_leaf _ _ _ _ hI
      · exact absurd hI id)
    m T T1 h (fun _ _ => trivial) (Or.inl hn)

theorem top_entry_zero (k : Str) (v : Value) (T T1 : Tables)
    (h : buildEntry none k v T = (T1, none))
    (hfree : ":_Zero".toList ∉ entryValueAliases (k, v))
    (hz : mapGet T.values ":_Zero".toList = some (.int 0) ∨ entryHasZero (k, v)) :
    mapGet T1.values ":_Zero".toList = some (.int 0) := by
  by_cases hk : hasPrefix "Fn:".toList k = true
  · have hfree2 : ":_Zero".toList ≠ leafValueAlias none (workingKey k) := by
      intro e
      apply hfree
      unfold entryValueAliases
      simp only [hk, if_true, List.mem_singleton]
      exact e
    have hz2 : mapGet T.values ":_Zero".toList = some (.int 0) ∨ zeroFunctionKey k := by
      rcases hz with hz | hz | ⟨hz, -⟩
      · exact Or.inl hz
      · exact Or.inr hz
      · rw [hk] at hz
        cases hz
    rw [buildEntry_leaflike_values none k v T T1 (fun _ hp => by rw [hk] at hp; cases hp) h]
    exact zero_after_leaf _ _ _ _ hfree2 hz2
  · have hk2 : hasPrefix "Fn:".toList k = false := by
      cases hh : hasPrefix "Fn:".toList k
      · rfl
      · exact absurd hh hk
    have hnz : ¬ zeroFunctionKey k := fun hz => hk hz.1
    cases v with
    | map m =>
      rw [buildEntry_top_map k m T hk2] at h
      apply nested_zero k m _ T1 h
      · intro kv hkv e
        apply hfree
        unfold entryValueAliases
        simp only [hk2, Bool.false_eq_true, if_false, List.mem_map]
        exact ⟨kv, hkv, e.symm⟩
      · rcases hz with hz | hz | ⟨-, m2, hm2, hex⟩
        · exact Or.inl hz
        · exact absurd hz hnz
        · cases hm2
          exact Or.inr hex
    | int n =>
      have hfree2 : ":_Zero".toList ≠ leafValueAlias none (workingKey k) := by
        intro e
        apply hfree
        unfold entryValueAliases
        unfold workingKey at e
        simp only [hk2, Bool.false_eq_true, if_false, List.mem_singleton] at e ⊢
        exact e
      have hz2 : mapGet T.values ":_Zero".toList = some (.int 0) ∨ zeroFunctionKey k := by
        rcases hz with hz | hz | ⟨-, m2, hm2, -⟩
        · exact Or.inl hz
        · exact Or.inr hz
        · cases hm2
      rw [buildEntry_leaflike_values none k (.int n) T T1 (fun _ _ => rfl) h]
      exact zero_after_leaf _ _ _ _ hfree2 hz2
    | str n =>
      have hfree2 : ":_Zero".toList ≠ leafValueAlias none (workingKey k) := by
        intro e
        apply hfree
        unfold entryValueAliases
        unfold workingKey at e
        simp only [hk2, Bool.false_eq_true, if_false, List.mem_singleton] at e ⊢
        exact e
      have hz2 : mapGet T.values ":_Zero".toList = some (.int 0) ∨ zeroFunctionKey k := by
        rcases hz with hz | hz | ⟨-, m2, hm2, -⟩
        · exact Or.inl hz
        · exact Or.inr hz
        · cases hm2
      rw [buildEntry_leaflike_values none k (.str n) T T1 (fun _ _ => rfl) h]
      exact zero_after_leaf _ _ _ _ hfree2 hz2
    | bool n =>
      have hfree2 : ":_Zero".toList ≠ leafValueAlias none (workingKey k) := by
        intro e
        apply hfree
        unfold entryValueAliases
        unfold workingKey at e
        simp only [hk2, Bool.false_eq_true, if_false, List.mem_singleton] at e ⊢
        exact e
      have hz2 : mapGet T.values ":_Zero".toList = some (.int 0) ∨ zeroFunctionKey k := by
        rcases hz with hz | hz | ⟨-, m2, hm2, -⟩
        · exact Or.inl hz
        · exact Or.inr hz
        · cases hm2
      rw [buildEntry_leaflike_values none k (.bool n) T T1 (fun _ _ => rfl) h]
      exact zero_after_leaf _ _ _ _ hfree2 hz2
    | time n =>
      have hfree2 : ":_Zero".toList ≠ leafValueAlias none (workingKey k) := by
        intro e
        apply hfree
        unfold entryValueAliases
        unfold workingKey at e
        simp only [hk2, Bool.false_eq_true, if_false, List.mem_singleton] at e ⊢
        exact e
      have hz2 : mapGet T.values ":_Zero".toList = some (.int 0) ∨ zeroFunctionKey k := by
        rcases hz with hz | hz | ⟨-, m2, hm2, -⟩
        · exact Or.inl hz
        · exact Or.inr hz
        · cases hm2
      rw [buildEntry_leaflike_values none k (.time n) T T1 (fun _ _ => rfl) h]
      exact zero_after_leaf _ _ _ _ hfree2 hz2

theorem top_entry_nodup (k : Str) (v : Value) (T T1 : Tables)
    (h : buildEntry none k v T = (T1, none)) (hn : (mapKeys T.values).Nodup) :
    (mapKeys T1.values).Nodup := by
  by_cases hleaf : hasPrefix "Fn:".toList k = false ∧ v.isMap = true
  · obtain ⟨hk2, hm⟩ := hleaf
    cases v with
    | map m =>
      rw [buildEntry_top_map k m T hk2] at h
      exact nested_nodup k m _ T1 h hn
    | int n => cases hm
    | str n => cases hm
    | bool n => cases hm
    | time n => cases hm
  · rw [buildEntry_leaflike_values none k v T T1
      (fun _ hp => by
        cases hm : v.isMap
        · rfl
        · exact absurd ⟨hp, hm⟩ hleaf) h]
    exact nodup_after_leaf _ _ _ _ hn

theorem countP_eq_one_of_nodup (l : List Str) (a : Str) (hn : l.Nodup) (hm : a ∈ l) :
    l.countP (fun k => decide (k = a)) = 1 := by
  induction l with
  | nil => cases hm
  | cons x t ih =>
    obtain ⟨hx, ht⟩ := List.nodup_cons.mp hn
    rw [List.countP_cons]
    by_cases hxa : x = a
    · subst hxa
      have h0 : t.countP (fun k => decide (k = x)) = 0 := by
        rw [List.countP_eq_zero]
        intro b hb
        simp only [decide_eq_true_eq]
        intro e
        subst e
        exact hx hb
      simp [h0]
    · have hmem : a ∈ t := by
        rcases List.mem_cons.mp hm with e | e
        · exact absurd e.symm hxa
        · exact e
      simp [hxa, ih ht hmem]

/-- Claim C11, refuted at the spec `{"Fn:increase:a": 1, "_Zero": 7}`
enumerated in this order: it compiles without error and has an increase
entry, and the value table maps `:_Zero` to 7, the value of the key `_Zero`,
which overwrote the shared zero. -/
theorem C11_counterexample :
    (buildExpressionAttributeNamesAndValue none
        [("Fn:increase:a".toList, .int 1), ("_Zero".toList, .int 7)] Tables.empty).2 = none ∧
      (buildExpressionAttributeNamesAndValue none
        [("Fn:increase:a".toList, .int 1), ("_Zero".toList, .int 7)] Tables.empty).1.values =
        [(":_Zero".toList, .int 7), (":a".toList, .int 1)] ∧
      mapGet
        (buildExpressionAttributeNamesAndValue none
          [("Fn:increase:a".toList, .int 1), ("_Zero".toList, .int 7)] Tables.empty).1.values
        ":_Zero".toList = some (.int 7) ∧
      zeroFunctionKey "Fn:increase:a".toList := by
  refine ⟨rfl, rfl, rfl, ?_⟩
  decide

/-- Claim C11 as amended: for every update spec that compiles without error,
contains at least one well-formed increase or decrease entry (at the top level
or one level nested) and has no leaf whose own value alias is `:_Zero` (such
as a key `_Zero` or `Fn:increase:_Zero`), the resulting value-alias table
contains the key `:_Zero` exactly once and maps it to 0, however many increase
or decrease entries the spec has. -/
theorem C11_shared_zero_alias (spec : List (Str × Value))
    (hok : (buildExpressionAttributeNamesAndValue none spec Tables.empty).2 = none)
    (hz : hasZeroEntry spec)
    (hfree : ":_Zero".toList ∉ leafValueAliases spec) :
    mapGet (buildExpressionAttributeNamesAndValue none spec Tables.empty).1.values
        ":_Zero".toList = some (.int 0) ∧
      (mapKeys (buildExpressionAttributeNamesAndValue none spec Tables.empty).1.values).countP
        (fun k => decide (k = ":_Zero".toList)) = 1 := by
  have h : buildExpressionAttributeNamesAndValue none spec Tables.empty =
      ((buildExpressionAttributeNamesAndValue none spec Tables.empty).1, none) :=
    Prod.ext rfl hok
  have hfree2 : ∀ kv ∈ spec, ":_Zero".toList ∉ entryValueAliases kv := by
    intro kv hkv hmem
    exact hfree (List.mem_flatMap.mpr ⟨kv, hkv, hmem⟩)
  have hzero := build_loop_property none
    (fun T => mapGet T.values ":_Zero".toList = some (.int 0)) entryHasZero
    (fun kv => ":_Zero".toList ∉ entryValueAliases kv)
    (fun k v T2 T3 hstep hok2 hI => top_entry_zero k v T2 T3 hstep hok2 hI)
    spec Tables.empty _ h hfree2 (Or.inr hz)
  have hnodup := build_loop_property none (fun T => (mapKeys T.values).Nodup)
    (fun _ => False) (fun _ => True)
    (fun k v T2 T3 hstep _ hI => by
      rcases hI with hI | hI
      · exact top_entry_nodup k v T2 T3 hstep hI
      · exact absurd hI id)
    spec Tables.empty _ h (fun _ _ => trivial) (Or.inl List.nodup_nil)
  exact ⟨hzero, countP_eq_one_of_nodup _ _ hnodup (mapGet_some_mem_keys _ _ _ hzero)⟩

/-- Witness of the amended claim C11: a spec with two increase entries, one
of them nested, and a decrease entry has `:_Zero = 0` once. -/
theorem C11_shared_zero_alias_witness :
    mapGet
        (buildExpressionAttributeNamesAndValue none
          [("Fn:increase:a".toList, .int 1),
            ("p".toList, .map [("Fn:increase:b".toList, .int 2)]),
            ("Fn:decrease:c".toList, .int 3)] Tables.empty).1.values
        ":_Zero".toList = some (.int 0) ∧
      (mapKeys
        (buildExpressionAttributeNamesAndValue none
          [("Fn:increase:a".toList, .int 1),
            ("p".toList, .map [("Fn:increase:b".toList, .int 2)]),
            ("Fn:decrease:c".toList, .int 3)] Tables.empty).1.values).countP
        (fun k => decide (k = ":_Zero".toList)) = 1 :=
  C11_shared_zero_alias
    [("Fn:increase:a".toList, .int 1), ("p".toList, .map [("Fn:increase:b".toList, .int 2)]),
      ("Fn:decrease:c".toList, .int 3)]
    rfl
    ⟨("Fn:increase:a".toList, .int 1), List.mem_cons_self _ _, Or.inl (by decide)⟩
    (by decide)

/-! ## Update compiler: distinct aliases of the leaves -/

theorem sep_split_inj (sep : Char) (a : Str) :
    ∀ (a1 b b1 : Str), sep ∉ a → sep ∉ a1 → a ++ sep :: b = a1 ++ sep :: b1 →
      a = a1 ∧ b = b1 := by
  induction a with
  | nil =>
    intro a1 b b1 _ ha1 h
    cases a1 with
    | nil =>
      simp only [List.nil_append, List.cons.injEq, true_and] at h
      exact ⟨rfl, h⟩
    | cons x t =>
      simp only [List.nil_append, List.cons_append, List.cons.injEq] at h
      exact absurd (h.1 ▸ List.mem_cons_self _ _) ha1
  | cons x t ih =>
    intro a1 b b1 ha ha1 h
    cases a1 with
    | nil =>
      simp only [List.nil_append, List.cons_append, List.cons.injEq] at h
      exact absurd (h.1 ▸ List.mem_cons_self _ _) ha
    | cons y u =>
      simp only [List.cons_append, List.cons.injEq] at h
      obtain ⟨e1, e2⟩ := ih u b b1 (fun hm => ha (List.mem_cons_of_mem _ hm))
        (fun hm => ha1 (List.mem_cons_of_mem _ hm)) h.2
      exact ⟨by rw [h.1, e1], e2⟩

theorem pathValueAlias_inj (a b : LeafPath) (ha : '_' ∉ a.1) (hb : '_' ∉ b.1)
    (h : pathValueAlias a = pathValueAlias b) : a = b := by
  obtain ⟨p, c⟩ := a
  obtain ⟨q, d⟩ := b
  cases c with
  | none =>
    cases d with
    | none =>
      simp only [pathValueAlias, List.append_cancel_left_eq] at h
      rw [h]
    | some d =>
      simp only [pathValueAlias, List.append_assoc, List.append_cancel_left_eq] at h
      exfalso
      apply ha
      show '_' ∈ p
      rw [h]
      simp
  | some c =>
    cases d with
    | none =>
      simp only [pathValueAlias, List.append_assoc, List.append_cancel_left_eq] at h
      exfalso
      apply hb
      show '_' ∈ q
      rw [← h]
      simp
    | some d =>
      simp only [pathValueAlias, List.append_assoc, List.append_cancel_left_eq] at h
      obtain ⟨e1, e2⟩ := sep_split_inj '_' p q c d ha hb h
      rw [e1, e2]

theorem pathClauseKey_inj (a b : LeafPath) (ha : '.' ∉ a.1) (hb : '.' ∉ b.1)
    (h : pathClauseKey a = pathClauseKey b) : a = b := by
  obtain ⟨p, c⟩ := a
  obtain ⟨q, d⟩ := b
  cases c with
  | none =>
    cases d with
    | none =>
      simp only [pathClauseKey, List.append_cancel_left_eq] at h
      rw [h]
    | some d =>
      simp only [pathClauseKey, List.append_assoc, List.append_cancel_left_eq] at h
      exfalso
      apply ha
      show '.' ∈ p
      rw [h]
      simp
  | some c =>
    cases d with
    | none =>
      simp only [pathClauseKey, List.append_assoc, List.append_cancel_left_eq] at h
      exfalso
      apply hb
      show '.' ∈ q
      rw [← h]
      simp
    | some d =>
      simp only [pathClauseKey, List.append_assoc, List.append_cancel_left_eq] at h
      obtain ⟨e1, e2⟩ := sep_split_inj '.' p q ('#' :: c) ('#' :: d) ha hb h
      rw [e1, List.cons.inj e2 |>.2]

theorem leaf_path_key_mem (spec : List (Str × Value)) (a : LeafPath × Value)
    (h : a ∈ leaves spec) : a.1.1 ∈ mapKeys spec := by
  unfold leaves at h
  obtain ⟨kv, hkv, hmem⟩ := List.mem_flatMap.mp h
  obtain ⟨k, v⟩ := kv
  have hk : a.1.1 = k := by
    unfold entryLeaves at hmem
    cases v with
    | map m =>
      simp only [List.mem_map] at hmem
      obtain ⟨c, -, hc⟩ := hmem
      rw [← hc]
    | _ =>
      simp only [List.mem_singleton] at hmem
      rw [hmem]
  rw [hk]
  exact List.mem_map.mpr ⟨(k, v), hkv, rfl⟩

theorem mapSetAll_append {α : Type} (a b : List (Str × α)) (base : GoMap α) :
    mapSetAll (a ++ b) base = mapSetAll b (mapSetAll a base) := by
  unfold mapSetAll
  rw [List.foldl_append]

theorem mapSetAll_of_nodup {α : Type} (entries : List (Str × α)) :
    ∀ base : GoMap α, (mapKeys base ++ entries.map Prod.fst).Nodup →
      mapSetAll entries base = base ++ entries := by
  induction entries with
  | nil =>
    intro base _
    rw [List.append_nil]
    rfl
  | cons e t ih =>
    intro base h
    have hnot : e.1 ∉ mapKeys base := by
      intro hm
      have hd := (List.nodup_append.mp h).2.2
      exact hd hm (List.mem_map.mpr ⟨e, List.mem_cons_self _ _, rfl⟩)
    have hstep : mapSetAll (e :: t) base = mapSetAll t (mapSet base e.1 e.2) := rfl
    have hnd : (mapKeys (base ++ [(e.1, e.2)]) ++ t.map Prod.fst).Nodup := by
      unfold mapKeys at h ⊢
      rw [List.map_append, List.append_assoc]
      exact h
    rw [hstep, mapSet_of_not_mem base e.1 e.2 hnot, ih (base ++ [(e.1, e.2)]) hnd,
      List.append_assoc]
    rfl

theorem nested_plain_tables (p : Str) (m : List (Str × Value)) :
    ∀ T : Tables, (∀ kv ∈ m, hasPrefix "Fn:".toList kv.1 = false) →
      (buildExpressionAttributeNamesAndValue (some [p]) m T).2 = none ∧
        (buildExpressionAttributeNamesAndValue (some [p]) m T).1.values =
          mapSetAll (leafValueEntries (entryLeaves (p, .map m))) T.values ∧
        (buildExpressionAttributeNamesAndValue (some [p]) m T).1.clauses =
          mapSetAll (leafClauseEntries (entryLeaves (p, .map m))) T.clauses := by
  induction m with
  | nil =>
    intro T _
    exact ⟨rfl, rfl, rfl⟩
  | cons kv rest ih =>
    intro T hm
    obtain ⟨c, v⟩ := kv
    have hc := hm (c, v) (List.mem_cons_self _ _)
    obtain ⟨i1, i2, i3⟩ := ih
      ⟨mapSet T.names ("#".toList ++ c) c,
        mapSet T.values (":".toList ++ p ++ "_".toList ++ c) v,
        mapSet T.clauses ("#".toList ++ p ++ ".#".toList ++ c)
          (":".toList ++ p ++ "_".toList ++ c)⟩
      (fun kv h => hm kv (List.mem_cons_of_mem _ h))
    rw [buildExpressionAttributeNamesAndValue, buildEntry_nested_plain_tables p c v T hc]
    dsimp only
    refine ⟨i1, ?_, ?_⟩
    · rw [i2]
      rfl
    · rw [i3]
      rfl

theorem top_entry_plain_tables (k : Str) (v : Value) (T : Tables)
    (hk : hasPrefix "Fn:".toList k = false)
    (hv : ∀ m, v = Value.map m → ∀ kv2 ∈ m, hasPrefix "Fn:".toList kv2.1 = false) :
    (buildEntry none k v T).2 = none ∧
      (buildEntry none k v T).1.values = mapSetAll (leafValueEntries (entryLeaves (k, v))) T.values ∧
      (buildEntry none k v T).1.clauses =
        mapSetAll (leafClauseEntries (entryLeaves (k, v))) T.clauses := by
  cases v with
  | map m =>
    rw [buildEntry_top_map k m T hk]
    exact nested_plain_tables k m _ (hv m rfl)
  | _ =>
    rw [buildEntry]
    simp only [hk, Bool.false_eq_true, if_false, buildLabel]
    refine ⟨?_, ?_, ?_⟩ <;> first | rfl | trivial

theorem top_plain_tables (es : List (Str × Value)) :
    ∀ T : Tables, noFunctionKey es →
      (buildExpressionAttributeNamesAndValue none es T).2 = none ∧
        (buildExpressionAttributeNamesAndValue none es T).1.values =
          mapSetAll (leafValueEntries (leaves es)) T.values ∧
        (buildExpressionAttributeNamesAndValue none es T).1.clauses =
          mapSetAll (leafClauseEntries (leaves es)) T.clauses := by
  induction es with
  | nil =>
    intro T _
    exact ⟨rfl, rfl, rfl⟩
  | cons kv rest ih =>
    intro T hfn
    obtain ⟨k, v⟩ := kv
    have hkv := hfn (k, v) (List.mem_cons_self _ _)
    obtain ⟨e1, e2, e3⟩ := top_entry_plain_tables k v T hkv.1 hkv.2
    rw [buildExpressionAttributeNamesAndValue]
    rcases hr : buildEntry none k v T with ⟨T1, _ | e⟩
    · rw [hr] at e2 e3
      dsimp only at e2 e3 ⊢
      obtain ⟨i1, i2, i3⟩ := ih T1 (fun kv h => hfn kv (List.mem_cons_of_mem _ h))
      refine ⟨i1, ?_, ?_⟩
      · rw [i2, e2]
        unfold leaves leafValueEntries
        rw [List.flatMap_cons, List.map_append, mapSetAll_append]
      · rw [i3, e3]
        unfold leaves leafClauseEntries
        rw [List.flatMap_cons, List.map_append, mapSetAll_append]
    · rw [hr] at e1
      cases e1

theorem entryLeaves_paths_nodup (k : Str) (v : Value)
    (hv : ∀ m, v = Value.map m → (mapKeys m).Nodup) :
    ((entryLeaves (k, v)).map Prod.fst).Nodup := by
  cases v with
  | map m =>
    have h := hv m rfl
    have e : (entryLeaves (k, Value.map m)).map Prod.fst =
        (mapKeys m).map fun c => ((k, some c) : LeafPath) := by
      unfold entryLeaves mapKeys
      dsimp only
      rw [List.map_map, List.map_map]
      rfl
    rw [e]
    refine h.map ?_
    intro a b hab
    simpa using hab
  | _ => exact List.nodup_singleton _

theorem leaves_paths_nodup (spec : List (Str × Value)) :
    (mapKeys spec).Nodup →
      (∀ kv ∈ spec, ∀ m, kv.2 = Value.map m → (mapKeys m).Nodup) →
      ((leaves spec).map Prod.fst).Nodup := by
  induction spec with
  | nil =>
    intro _ _
    exact List.nodup_nil
  | cons kv rest ih =>
    intro hk hn
    obtain ⟨k, v⟩ := kv
    have hk1 : (k :: mapKeys rest).Nodup := hk
    have hk2 := List.nodup_cons.mp hk1
    have hl : leaves ((k, v) :: rest) = entryLeaves (k, v) ++ leaves rest := by
      unfold leaves
      rw [List.flatMap_cons]
    rw [hl, List.map_append]
    refine List.Nodup.append
      (entryLeaves_paths_nodup k v (hn (k, v) (List.mem_cons_self _ _)))
      (ih hk2.2 (fun kv h => hn kv (List.mem_cons_of_mem _ h))) ?_
    intro p hp1 hp2
    obtain ⟨a, ha, hap⟩ := List.mem_map.mp hp1
    obtain ⟨b, hb, hbp⟩ := List.mem_map.mp hp2
    have h1 : a.1.1 ∈ mapKeys [(k, v)] := by
      apply leaf_path_key_mem
      unfold leaves
      rw [List.flatMap_cons, List.flatMap_nil, List.append_nil]
      exact ha
    have h1k : a.1.1 = k := List.mem_singleton.mp h1
    have h2 := leaf_path_key_mem rest b hb
    rw [hbp, ← hap, h1k] at h2
    exact hk2.1 h2

theorem leaf_value_keys_nodup (spec : List (Str × Value))
    (hk : (mapKeys spec).Nodup)
    (hn : ∀ kv ∈ spec, ∀ m, kv.2 = Value.map m → (mapKeys m).Nodup)
    (hsep : ∀ k ∈ mapKeys spec, '_' ∉ k) :
    (mapKeys (leafValueEntries (leaves spec))).Nodup := by
  have h := leaves_paths_nodup spec hk hn
  have e : mapKeys (leafValueEntries (leaves spec)) =
      ((leaves spec).map Prod.fst).map pathValueAlias := by
    unfold mapKeys leafValueEntries
    exact (List.map_map Prod.fst _ _).trans (List.map_map pathValueAlias Prod.fst _).symm
  rw [e]
  refine List.Nodup.map_on ?_ h
  intro a ha b hb hab
  obtain ⟨x, hx, hxa⟩ := List.mem_map.mp ha
  obtain ⟨y, hy, hyb⟩ := List.mem_map.mp hb
  subst hxa
  subst hyb
  exact pathValueAlias_inj _ _ (hsep _ (leaf_path_key_mem spec x hx))
    (hsep _ (leaf_path_key_mem spec y hy)) hab

theorem leaf_clause_keys_nodup (spec : List (Str × Value))
    (hk : (mapKeys spec).Nodup)
    (hn : ∀ kv ∈ spec, ∀ m, kv.2 = Value.map m → (mapKeys m).Nodup)
    (hsep : ∀ k ∈ mapKeys spec, '.' ∉ k) :
    (mapKeys (leafClauseEntries (leaves spec))).Nodup := by
  have h := leaves_paths_nodup spec hk hn
  have e : mapKeys (leafClauseEntries (leaves spec)) =
      ((leaves spec).map Prod.fst).map pathClauseKey := by
    unfold mapKeys leafClauseEntries
    exact (List.map_map Prod.fst _ _).trans (List.map_map pathClauseKey Prod.fst _).symm
  rw [e]
  refine List.Nodup.map_on ?_ h
  intro a ha b hb hab
  obtain ⟨x, hx, hxa⟩ := List.mem_map.mp ha
  obtain ⟨y, hy, hyb⟩ := List.mem_map.mp hb
  subst hxa
  subst hyb
  exact pathClauseKey_inj _ _ (hsep _ (leaf_path_key_mem spec x hx))
    (hsep _ (leaf_path_key_mem spec y hy)) hab

/-- Claim C15, refuted at the spec `{"a": {"b": 1}, "a_b": 2}`, which has no
function-tagged key: its leaf paths are `a / b` and `a_b`, two distinct paths
with the one value alias `:a_b`, and the value table of the code holds the
single entry `:a_b -> 2` (in the other enumeration order `:a_b -> 1`): the
value of one leaf overwrote the other.  In the same way the paths `a / b` and
`a.#b` of `{"a": {"b": 1}, "a.#b": 2}` share the clause key `#a.#b`, and the
clause table holds one clause. -/
theorem C15_counterexample :
    noFunctionKey [("a".toList, Value.map [("b".toList, .int 1)]), ("a_b".toList, .int 2)] ∧
      (leaves [("a".toList, Value.map [("b".toList, .int 1)]), ("a_b".toList, .int 2)]).map
          Prod.fst = [("a".toList, some "b".toList), ("a_b".toList, none)] ∧
      (("a".toList, some "b".toList) : LeafPath) ≠ ("a_b".toList, none) ∧
      pathValueAlias ("a".toList, some "b".toList) = pathValueAlias ("a_b".toList, none) ∧
      (buildExpressionAttributeNamesAndValue none
        [("a".toList, Value.map [("b".toList, .int 1)]), ("a_b".toList, .int 2)]
        Tables.empty).2 = none ∧
      (buildExpressionAttributeNamesAndValue none
        [("a".toList, Value.map [("b".toList, .int 1)]), ("a_b".toList, .int 2)]
        Tables.empty).1.values = [(":a_b".toList, .int 2)] ∧
      (buildExpressionAttributeNamesAndValue none
        [("a_b".toList, .int 2), ("a".toList, Value.map [("b".toList, .int 1)])]
        Tables.empty).1.values = [(":a_b".toList, .int 1)] ∧
      noFunctionKey [("a".toList, Value.map [("b".toList, .int 1)]), ("a.#b".toList, .int 2)] ∧
      (("a".toList, some "b".toList) : LeafPath) ≠ ("a.#b".toList, none) ∧
      pathClauseKey ("a".toList, some "b".toList) = pathClauseKey ("a.#b".toList, none) ∧
      (buildExpressionAttributeNamesAndValue none
        [("a".toList, Value.map [("b".toList, .int 1)]), ("a.#b".toList, .int 2)]
        Tables.empty).1.clauses = [("#a.#b".toList, ":a.#b".toList)] := by
  have hfn : ∀ k : Str, hasPrefix "Fn:".toList k = false →
      noFunctionKey [("a".toList, Value.map [("b".toList, .int 1)]), (k, .int 2)] := by
    intro k hk kv hkv
    simp only [List.mem_cons, List.mem_singleton, List.not_mem_nil, or_false] at hkv
    rcases hkv with h | h
    · subst h
      refine ⟨by decide, fun m hm kv2 hkv2 => ?_⟩
      cases hm
      simp only [List.mem_singleton] at hkv2
      subst hkv2
      decide
    · subst h
      exact ⟨hk, fun m hm => by cases hm⟩
  refine ⟨hfn _ (by decide), rfl, by decide, rfl, rfl, rfl, rfl, hfn _ (by decide), by decide,
    rfl, rfl⟩

/-- Claim C15 as amended: for every update spec without function-tagged keys
whose top-level keys contain neither `_` nor `.` (the separators of the
path-qualified aliases), any two distinct leaf paths are assigned distinct
value aliases and distinct clause keys; and when, as in a Go map, the keys of
the spec and of each top-level mapping are pairwise distinct, the compilation
succeeds and the value table and the clause table hold exactly one entry per
leaf, in enumeration order: the alias of the leaf with its value, and the
clause key of the leaf with its alias.  No entry was overwritten. -/
theorem C15_distinct_leaf_paths_get_distinct_aliases (spec : List (Str × Value))
    (hfn : noFunctionKey spec)
    (hkeys : (mapKeys spec).Nodup)
    (hnested : ∀ kv ∈ spec, ∀ m, kv.2 = Value.map m → (mapKeys m).Nodup)
    (hsep : ∀ k ∈ mapKeys spec, '_' ∉ k ∧ '.' ∉ k) :
    (∀ a ∈ leaves spec, ∀ b ∈ leaves spec, a.1 ≠ b.1 →
        pathValueAlias a.1 ≠ pathValueAlias b.1 ∧ pathClauseKey a.1 ≠ pathClauseKey b.1) ∧
      (buildExpressionAttributeNamesAndValue none spec Tables.empty).2 = none ∧
      (buildExpressionAttributeNamesAndValue none spec Tables.empty).1.values =
        leafValueEntries (leaves spec) ∧
      (buildExpressionAttributeNamesAndValue none spec Tables.empty).1.clauses =
        leafClauseEntries (leaves spec) := by
  refine ⟨?_, ?_⟩
  · intro a ha b hb hne
    have hsa := hsep _ (leaf_path_key_mem spec a ha)
    have hsb := hsep _ (leaf_path_key_mem spec b hb)
    exact ⟨fun h => hne (pathValueAlias_inj a.1 b.1 hsa.1 hsb.1 h),
      fun h => hne (pathClauseKey_inj a.1 b.1 hsa.2 hsb.2 h)⟩
  · obtain ⟨e1, e2, e3⟩ := top_plain_tables spec Tables.empty hfn
    refine ⟨e1, ?_, ?_⟩
    · rw [e2]
      exact mapSetAll_of_nodup (leafValueEntries (leaves spec)) []
        (leaf_value_keys_nodup spec hkeys hnested fun k hk => (hsep k hk).1)
    · rw [e3]
      exact mapSetAll_of_nodup (leafClauseEntries (leaves spec)) []
        (leaf_clause_keys_nodup spec hkeys hnested fun k hk => (hsep k hk).2)

/-- Witness of the amended claim C15: the spec `{"a": 1, "b": {"c": 2, "d": 3}}`
compiles to three value entries and three clauses, one per leaf. -/
theorem C15_distinct_leaf_paths_get_distinct_aliases_witness :
    (∀ a ∈ leaves [("a".toList, Value.int 1),
          ("b".toList, Value.map [("c".toList, .int 2), ("d".toList, .int 3)])],
        ∀ b ∈ leaves [("a".toList, Value.int 1),
          ("b".toList, Value.map [("c".toList, .int 2), ("d".toList, .int 3)])],
        a.1 ≠ b.1 →
        pathValueAlias a.1 ≠ pathValueAlias b.1 ∧ pathClauseKey a.1 ≠ pathClauseKey b.1) ∧
      (buildExpressionAttributeNamesAndValue none
        [("a".toList, Value.int 1),
          ("b".toList, Value.map [("c".toList, .int 2), ("d".toList, .int 3)])]
        Tables.empty).2 = none ∧
      (buildExpressionAttributeNamesAndValue none
        [("a".toList, Value.int 1),
          ("b".toList, Value.map [("c".toList, .int 2), ("d".toList, .int 3)])]
        Tables.empty).1.values =
        [(":a".toList, .int 1), (":b_c".toList, .int 2), (":b_d".toList, .int 3)] ∧
      (buildExpressionAttributeNamesAndValue none
        [("a".toList, Value.int 1),
          ("b".toList, Value.map [("c".toList, .int 2), ("d".toList, .int 3)])]
        Tables.empty).1.clauses =
        [("#a".toList, ":a".toList), ("#b.#c".toList, ":b_c".toList),
          ("#b.#d".toList, ":b_d".toList)] :=
  C15_distinct_leaf_paths_get_distinct_aliases
    [("a".toList, Value.int 1),
      ("b".toList, Value.map [("c".toList, .int 2), ("d".toList, .int 3)])]
    (by
      intro kv hkv
      simp only [List.mem_cons, List.mem_singleton, List.not_mem_nil, or_false] at hkv
      rcases hkv with h | h
      · subst h
        exact ⟨by decide, fun m hm => by cases hm⟩
      · subst h
        refine ⟨by decide, fun m hm kv2 hkv2 => ?_⟩
        cases hm
        simp only [List.mem_cons, List.mem_singleton, List.not_mem_nil, or_false] at hkv2
        rcases hkv2 with h | h <;> subst h <;> decide)
    (by decide)
    (by
      intro kv hkv m hm
      simp only [List.mem_cons, List.mem_singleton, List.not_mem_nil, or_false] at hkv
      rcases hkv with h | h
      · subst h
        cases hm
      · subst h
        cases hm
        decide)
    (by decide)

/-! ## Key-condition compiler of `GetListItem`: totality -/

theorem splitOn_slash_length (sk : Str) (h : containsChar sk '/' = true) :
    2 ≤ (splitOn '/' sk).length := by
  obtain ⟨-, h1⟩ := splitOn_slash sk h
  by_contra hlt
  have hn : (splitOn '/' sk)[1]? = none := List.getElem?_eq_none (by omega)
  rw [hn] at h1
  cases h1

theorem list_key_condition_some (pk sk index : Str) (condition : Option Str) :
    (GetListItem.keyCondition ⟨some pk, some sk, some index, condition⟩).isSome = true := by
  unfold GetListItem.keyCondition
  by_cases hs : containsChar sk '/' = true
  · simp only [hs, if_true, rangeValues_initial sk pk hs, Option.map_some',
      rangeValues_again sk pk hs]
    cases condition <;> rfl
  · simp only [hs, Bool.false_eq_true, if_false]
    cases condition with
    | none => rfl
    | some c =>
      dsimp only
      split_ifs <;> rfl

/-- Claim C21: key-condition building in `GetListItem` completes (no nil
dereference, no index out of range) exactly for the Keys that have PK and
IndexName present, and SK present whenever Condition is present; and for every
SK that contains `/`, the split on `/` has at least two parts, so that the
block that stores `skRange[0]` and `skRange[1]` completes on every value
table. -/
theorem C21_list_key_condition_is_total (key : Key) :
    ((GetListItem.keyCondition key).isSome = true ↔
        (key.PK.isSome = true ∧ key.IndexName.isSome = true ∧
          (key.Condition.isSome = true → key.SK.isSome = true))) ∧
      ∀ (sk : Str) (values : GoMap AttributeValue), containsChar sk '/' = true →
        2 ≤ (splitOn '/' sk).length ∧ (GetListItem.rangeValues sk values).isSome = true := by
  refine ⟨?_, fun sk values h => ⟨splitOn_slash_length sk h, ?_⟩⟩
  · obtain ⟨pk, sk, index, condition⟩ := key
    cases pk with
    | none =>
      constructor
      · intro h
        cases h
      · intro h
        cases h.1
    | some pk =>
      cases index with
      | none =>
        constructor
        · intro h
          cases h
        · intro h
          cases h.2.1
      | some index =>
        cases sk with
        | none =>
          cases condition with
          | none => exact ⟨fun _ => ⟨rfl, rfl, fun h => by cases h⟩, fun _ => rfl⟩
          | some c =>
            constructor
            · intro h
              cases h
            · intro h
              cases h.2.2 rfl
        | some sk =>
          exact ⟨fun _ => ⟨rfl, rfl, fun _ => rfl⟩,
            fun _ => list_key_condition_some pk sk index condition⟩
  · rw [rangeValues_eq sk values h]
    rfl

/-! ## Key-condition compiler of `GetListItem`: aliases and references -/

theorem list_names_keys (index : Str) :
    mapKeys (mapSet (mapSet ([] : GoMap Str) ("#".toList ++ index ++ "PK".toList)
        (index ++ "PK".toList)) ("#".toList ++ index ++ "SK".toList) (index ++ "SK".toList)) =
      ["#".toList ++ index ++ "PK".toList, "#".toList ++ index ++ "SK".toList] := by
  have hne : ¬ ("#".toList ++ index ++ "PK".toList = "#".toList ++ index ++ "SK".toList) := by
    intro h
    rw [List.append_cancel_left_eq] at h
    exact absurd h (by decide)
  simp only [mapSet, hne, if_false]
  rfl

theorem list_range (pk sk index : Str) (condition : Option Str)
    (h : containsChar sk '/' = true) :
    GetListItem.keyCondition ⟨some pk, some sk, some index, condition⟩ =
      some ⟨"#".toList ++ index ++ "PK = :gsipk and #".toList ++ index ++
          "SK BETWEEN :from AND :to".toList,
        [(":gsipk".toList, .S pk), (":from".toList, .S (beforeSlash sk)),
          (":to".toList, .S (betweenSlashes sk))],
        mapSet (mapSet [] ("#".toList ++ index ++ "PK".toList) (index ++ "PK".toList))
          ("#".toList ++ index ++ "SK".toList) (index ++ "SK".toList)⟩ := by
  unfold GetListItem.keyCondition
  simp only [h, if_true, rangeValues_initial sk pk h, Option.map_some']
  cases condition with
  | none => rfl
  | some c =>
    simp only [rangeValues_again sk pk h, Option.map_some', ite_self]

theorem comparison_referenced (kc : KeyCondition) (index rest : Str) (toks : List Str)
    (he : kc.expression = renderAliased (comparisonTemplate index rest))
    (hn : kc.names =
      mapSet (mapSet [] ("#".toList ++ index ++ "PK".toList) (index ++ "PK".toList))
        ("#".toList ++ index ++ "SK".toList) (index ++ "SK".toList))
    (hv : mapKeys kc.values = ":gsipk".toList :: toks)
    (ht : ∀ t ∈ toks, t <:+: rest) :
    (∀ k ∈ mapKeys kc.values, references kc.expression k) ∧
      mapKeys kc.names =
        ["#".toList ++ index ++ "PK".toList, "#".toList ++ index ++ "SK".toList] ∧
      references kc.expression ("#".toList ++ index ++ "PK".toList) ∧
      references kc.expression ("#".toList ++ index ++ "SK".toList) := by
  have hP : references kc.expression ("#".toList ++ index ++ "PK".toList) := by
    rw [he]
    exact ⟨[], " = :gsipk and ".toList ++ ('#' :: (index ++ "SK".toList) ++ (rest ++ [])),
      by simp [renderAliased, comparisonTemplate]⟩
  have hS : references kc.expression ("#".toList ++ index ++ "SK".toList) := by
    rw [he]
    exact ⟨'#' :: (index ++ "PK".toList) ++ " = :gsipk and ".toList, rest,
      by simp [renderAliased, comparisonTemplate]⟩
  have hg : references kc.expression ":gsipk".toList := by
    rw [he]
    exact ⟨'#' :: (index ++ "PK".toList) ++ " = ".toList,
      " and ".toList ++ ('#' :: (index ++ "SK".toList) ++ rest),
      by simp [renderAliased, comparisonTemplate]⟩
  have hrest : rest <:+: renderAliased (comparisonTemplate index rest) :=
    ⟨'#' :: (index ++ "PK".toList) ++ " = :gsipk and ".toList ++ '#' :: (index ++ "SK".toList),
      [], by simp [renderAliased, comparisonTemplate]⟩
  refine ⟨?_, by rw [hn]; exact list_names_keys index, hP, hS⟩
  intro k hk
  rw [hv] at hk
  rcases List.mem_cons.mp hk with hk1 | hk1
  · rw [hk1]
    exact hg
  · show k <:+: kc.expression
    rw [he]
    exact (ht k hk1).trans hrest

theorem begins_referenced (kc : KeyCondition) (index : Str)
    (he : kc.expression = renderAliased (beginsTemplate index))
    (hn : kc.names =
      mapSet (mapSet [] ("#".toList ++ index ++ "PK".toList) (index ++ "PK".toList))
        ("#".toList ++ index ++ "SK".toList) (index ++ "SK".toList))
    (hv : mapKeys kc.values = [":gsipk".toList, ":gsisk".toList]) :
    (∀ k ∈ mapKeys kc.values, references kc.expression k) ∧
      mapKeys kc.names =
        ["#".toList ++ index ++ "PK".toList, "#".toList ++ index ++ "SK".toList] ∧
      references kc.expression ("#".toList ++ index ++ "PK".toList) ∧
      references kc.expression ("#".toList ++ index ++ "SK".toList) := by
  have hP : references kc.expression ("#".toList ++ index ++ "PK".toList) := by
    rw [he]
    exact ⟨[], " = :gsipk and begins_with(".toList ++
        ('#' :: (index ++ "SK".toList) ++ ", :gsisk)".toList),
      by simp [renderAliased, beginsTemplate]⟩
  have hS : references kc.expression ("#".toList ++ index ++ "SK".toList) := by
    rw [he]
    exact ⟨'#' :: (index ++ "PK".toList) ++ " = :gsipk and begins_with(".toList,
      ", :gsisk)".toList, by simp [renderAliased, beginsTemplate]⟩
  have hg : references kc.expression ":gsipk".toList := by
    rw [he]
    exact ⟨'#' :: (index ++ "PK".toList) ++ " = ".toList,
      " and begins_with(".toList ++ ('#' :: (index ++ "SK".toList) ++ ", :gsisk)".toList),
      by simp [renderAliased, beginsTemplate]⟩
  have hs : references kc.expression ":gsisk".toList := by
    rw [he]
    exact ⟨'#' :: (index ++ "PK".toList) ++ " = :gsipk and begins_with(".toList ++
        '#' :: (index ++ "SK".toList) ++ ", ".toList, ")".toList,
      by simp [renderAliased, beginsTemplate]⟩
  refine ⟨?_, by rw [hn]; exact list_names_keys index, hP, hS⟩
  intro k hk
  rw [hv] at hk
  simp only [List.mem_cons, List.mem_singleton, List.not_mem_nil, or_false] at hk
  rcases hk with hk1 | hk1
  · rw [hk1]
    exact hg
  · rw [hk1]
    exact hs

theorem no_adjacent_KS (r x y : Str) (hlen : r.length ≤ 9)
    (h : r ++ 'K' :: 'S' :: x =
      'k' :: 'p' :: 'i' :: 's' :: 'g' :: ':' :: ' ' :: '=' :: ' ' :: 'K' :: 'P' :: y) :
    False := by
  rcases r with _ | ⟨c0, _ | ⟨c1, _ | ⟨c2, _ | ⟨c3, _ | ⟨c4, _ | ⟨c5, _ | ⟨c6, _ | ⟨c7,
    _ | ⟨c8, _ | ⟨c9, r⟩⟩⟩⟩⟩⟩⟩⟩⟩⟩
  all_goals first
    | (simp at h; done)
    | simp at hlen

theorem partition_not_references_sort (index : Str) :
    ¬ references (renderAliased (partitionTemplate index))
      ("#".toList ++ index ++ "SK".toList) := by
  rintro ⟨s, t, hst⟩
  have hl := congrArg List.length hst
  have hlen : t.reverse.length ≤ 9 := by
    simp [renderAliased, partitionTemplate] at hl
    rw [List.length_reverse]
    omega
  have hr := congrArg List.reverse hst
  have h3 : t.reverse ++ 'K' :: 'S' :: (index.reverse ++ '#' :: s.reverse) =
      'k' :: 'p' :: 'i' :: 's' :: 'g' :: ':' :: ' ' :: '=' :: ' ' :: 'K' :: 'P' ::
        (index.reverse ++ ['#']) := by
    simpa [renderAliased, partitionTemplate] using hr
  exact no_adjacent_KS _ _ _ hlen h3

theorem partition_referenced (index : Str) :
    references (renderAliased (partitionTemplate index)) ("#".toList ++ index ++ "PK".toList) ∧
      references (renderAliased (partitionTemplate index)) ":gsipk".toList :=
  ⟨⟨[], " = :gsipk".toList, by simp [renderAliased, partitionTemplate]⟩,
    ⟨'#' :: (index ++ "PK".toList) ++ " = ".toList, [],
      by simp [renderAliased, partitionTemplate]⟩⟩

theorem list_sort_key_referenced (pk sk index : Str) (condition : Option Str)
    (kc : KeyCondition)
    (h : GetListItem.keyCondition ⟨some pk, some sk, some index, condition⟩ = some kc) :
    (∀ k ∈ mapKeys kc.values, references kc.expression k) ∧
      mapKeys kc.names =
        ["#".toList ++ index ++ "PK".toList, "#".toList ++ index ++ "SK".toList] ∧
      references kc.expression ("#".toList ++ index ++ "PK".toList) ∧
      references kc.expression ("#".toList ++ index ++ "SK".toList) := by
  by_cases hs : containsChar sk '/' = true
  · rw [list_range pk sk index condition hs] at h
    cases h
    exact comparison_referenced _ index " BETWEEN :from AND :to".toList
      [":from".toList, ":to".toList] (by simp [renderAliased, comparisonTemplate]) rfl rfl
      (by decide)
  · have hs2 : containsChar sk '/' = false := by simpa using hs
    have hinferred : ∀ kc2 : KeyCondition,
        GetListItem.keyCondition ⟨some pk, some sk, some index, none⟩ = some kc2 →
        (∀ k ∈ mapKeys kc2.values, references kc2.expression k) ∧
          mapKeys kc2.names =
            ["#".toList ++ index ++ "PK".toList, "#".toList ++ index ++ "SK".toList] ∧
          references kc2.expression ("#".toList ++ index ++ "PK".toList) ∧
          references kc2.expression ("#".toList ++ index ++ "SK".toList) := by
      intro kc2 h2
      rw [list_shape_inferred pk sk index hs2] at h2
      cases h2
      cases hx : hasSuffix sk "#".toList
      · exact comparison_referenced _ index " = :gsisk".toList [":gsisk".toList]
          (by simp only [hx]; rfl) rfl rfl (by decide)
      · exact begins_referenced _ index (by simp only [hx]; rfl) rfl rfl
    cases condition with
    | none => exact hinferred kc h
    | some c =>
      obtain ⟨e1, e2, e3, e4, e5, e6⟩ := list_explicit pk sk index hs2
      by_cases h1 : c = "equal".toList
      · rw [h1, e1] at h
        cases h
        exact comparison_referenced _ index " = :gsisk".toList [":gsisk".toList] rfl rfl rfl
          (by decide)
      by_cases h2 : c = "more_than".toList
      · rw [h2, e2] at h
        cases h
        exact comparison_referenced _ index " > :gsisk".toList [":gsisk".toList] rfl rfl rfl
          (by decide)
      by_cases h3 : c = "less_than".toList
      · rw [h3, e3] at h
        cases h
        exact comparison_referenced _ index " < :gsisk".toList [":gsisk".toList] rfl rfl rfl
          (by decide)
      by_cases h4 : c = "more_than_equal".toList
      · rw [h4, e4] at h
        cases h
        exact comparison_referenced _ index " >= :gsisk".toList [":gsisk".toList] rfl rfl rfl
          (by decide)
      by_cases h5 : c = "less_than_equal".toList
      · rw [h5, e5] at h
        cases h
        exact comparison_referenced _ index " <= :gsisk".toList [":gsisk".toList] rfl rfl rfl
          (by decide)
      by_cases h6 : c = "begins".toList
      · rw [h6, e6] at h
        cases h
        exact begins_referenced _ index rfl rfl rfl
      rw [list_other_condition pk sk index c hs2 h1 h2 h3 h4 h5 h6] at h
      exact hinferred kc h

/-- Claim C22, refuted at the Key with `PK = "P"`, `IndexName = "GSI1"` and
no SK, no Condition: `GetListItem` builds the expression `#GSI1PK = :gsipk`
and puts both `#GSI1PK` and `#GSI1SK` into the name table, and `#GSI1SK` does
not occur in the expression. -/
theorem C22_counterexample :
    GetListItem.keyCondition ⟨some "P".toList, none, some "GSI1".toList, none⟩ =
      some ⟨"#GSI1PK = :gsipk".toList, [(":gsipk".toList, .S "P".toList)],
        [("#GSI1PK".toList, "GSI1PK".toList), ("#GSI1SK".toList, "GSI1SK".toList)]⟩ ∧
      "#GSI1SK".toList ∈ mapKeys
        [("#GSI1PK".toList, "GSI1PK".toList), ("#GSI1SK".toList, "GSI1SK".toList)] ∧
      ¬ references "#GSI1PK = :gsipk".toList "#GSI1SK".toList := by
  refine ⟨?_, ?_, ?_⟩ <;> decide

/-- Claim C22 as amended: for every Key on which the key-condition building
of `GetListItem` completes (PK and IndexName `I` present, SK present whenever
Condition is present), every value alias in the value table is referenced by
the key-condition expression, the name table holds exactly the aliases `#IPK`
and `#ISK`, `#IPK` is referenced by the expression, and `#ISK` is referenced
by the expression if and only if SK is present. -/
theorem C22_aliases_referenced_by_key_condition (key : Key) (kc : KeyCondition)
    (h : GetListItem.keyCondition key = some kc) :
    (∀ k ∈ mapKeys kc.values, references kc.expression k) ∧
      ∃ index, key.IndexName = some index ∧
        mapKeys kc.names =
          ["#".toList ++ index ++ "PK".toList, "#".toList ++ index ++ "SK".toList] ∧
        references kc.expression ("#".toList ++ index ++ "PK".toList) ∧
        (references kc.expression ("#".toList ++ index ++ "SK".toList) ↔
          key.SK.isSome = true) := by
  obtain ⟨pk, sk, index, condition⟩ := key
  cases pk with
  | none => cases h
  | some pk =>
    cases index with
    | none => cases h
    | some index =>
      cases sk with
      | none =>
        cases condition with
        | some c => cases h
        | none =>
          rw [list_partition_only pk index] at h
          cases h
          refine ⟨?_, index, rfl, list_names_keys index, (partition_referenced index).1, ?_⟩
          · intro k hk
            have hk1 : k = ":gsipk".toList := List.mem_singleton.mp hk
            rw [hk1]
            exact (partition_referenced index).2
          · constructor
            · intro hr
              exact absurd hr (partition_not_references_sort index)
            · intro hsome
              cases hsome
      | some sk =>
        obtain ⟨r1, r2, r3, r4⟩ := list_sort_key_referenced pk sk index condition kc h
        exact ⟨r1, index, rfl, r2, r3, fun _ => rfl, fun _ => r4⟩

/-- Witness of the amended claim C22: the Key with `SK = "A#"` and index
`GSI1` compiles to `#GSI1PK = :gsipk and begins_with(#GSI1SK, :gsisk)`, which
references both name aliases and both value aliases. -/
theorem C22_aliases_referenced_by_key_condition_witness :
    (∀ k ∈ mapKeys [(":gsipk".toList, AttributeValue.S "P".toList),
        (":gsisk".toList, AttributeValue.S "A#".toList)],
        references "#GSI1PK = :gsipk and begins_with(#GSI1SK, :gsisk)".toList k) ∧
      ∃ index, some "GSI1".toList = some index ∧
        mapKeys [("#GSI1PK".toList, "GSI1PK".toList), ("#GSI1SK".toList, "GSI1SK".toList)] =
          ["#".toList ++ index ++ "PK".toList, "#".toList ++ index ++ "SK".toList] ∧
        references "#GSI1PK = :gsipk and begins_with(#GSI1SK, :gsisk)".toList
          ("#".toList ++ index ++ "PK".toList) ∧
        (references "#GSI1PK = :gsipk and begins_with(#GSI1SK, :gsisk)".toList
            ("#".toList ++ index ++ "SK".toList) ↔
          (some "A#".toList : Option Str).isSome = true) :=
  C22_aliases_referenced_by_key_condition
    ⟨some "P".toList, some "A#".toList, some "GSI1".toList, none⟩
    ⟨"#GSI1PK = :gsipk and begins_with(#GSI1SK, :gsisk)".toList,
      [(":gsipk".toList, .S "P".toList), (":gsisk".toList, .S "A#".toList)],
      [("#GSI1PK".toList, "GSI1PK".toList), ("#GSI1SK".toList, "GSI1SK".toList)]⟩
    (by decide)

end Ddb
